import Mathlib

/-! BitFunnel: blocking queue, plan compilers, document handles and the REPL

A shallow embedding of parts of the BitFunnel sources and the properties
proved about them:

* `inc/BitFunnel/Utilities/BlockingQueue.h`: the bounded blocking queue,
* `src/Plan/src/RankZeroCompiler.cpp`: the rank-zero plan compiler,
* `src/Index/src/DocumentHandleInternal.cpp`: document handles,
* `src/Plan/test/MatchTreeRewriterTest.cpp`: the fixtures of the match tree
  rewriter,
* `tools/BitFunnel/REPL.cpp`: the loop of the REPL,
* `src/Plan/src/RankDownCompiler.h`: the declaration of the rank-down
  compiler.
-/

namespace BitFunnel

/-! ## BlockingQueue

Every member function of `BlockingQueue<T>` does its work while holding
`m_lock`; `std::condition_variable::wait` releases the lock and the loop
around it re-tests its condition once the lock is held again.  The part of a
call that runs from the last (failing) test of the loop condition up to the
`return` is therefore one atomic step on the fields of the queue, and a call
whose loop condition holds makes no step at all.  The embedding is this step:
a call maps the state before it to `none` when the caller is kept in `wait`,
and to `some` of the returned value and the state after it otherwise. -/

/-- The data members of `BlockingQueue<T>` (the mutex and the two condition
variables are represented by the atomicity of the steps).  `m_queue` is the
`std::deque<T>`, front of the deque at the head of the list. -/
structure BlockingQueue (T : Type) where
  m_capacity : Nat
  m_finished : Bool
  m_shutdown : Bool
  m_queue : List T
  deriving DecidableEq, Repr

namespace BlockingQueue

variable {T : Type}

/-- The constructor `BlockingQueue(unsigned capacity)`: both flags false and
an empty deque. -/
def construct (capacity : Nat) : BlockingQueue T :=
  { m_capacity := capacity, m_finished := false, m_shutdown := false, m_queue := [] }

/-- The critical section of `Shutdown()` (the block guarded by `lock_guard`):
sets `m_shutdown`, and `m_finished` too when the deque is empty. -/
def Shutdown (q : BlockingQueue T) : BlockingQueue T :=
  let q1 := { q with m_shutdown := true }
  if q1.m_queue.isEmpty then { q1 with m_finished := true } else q1

/-- The spin loop `while (!m_finished) {}` at the end of `Shutdown()`: the call
returns in the states in which `m_finished` is true. -/
def ShutdownReturns (q : BlockingQueue T) : Bool :=
  q.m_finished

/-- One call of `TryEnqueue(T value)`.  `none`: the loop condition
`m_queue.size() >= m_capacity && !m_shutdown` holds and the caller waits on
`m_enqueueCond`.  Otherwise the returned flag and the state after the call. -/
def TryEnqueue (q : BlockingQueue T) (value : T) : Option (Bool × BlockingQueue T) :=
  if decide (q.m_queue.length ≥ q.m_capacity) && !q.m_shutdown then
    none
  else if q.m_shutdown then
    some (false, q)
  else
    some (true, { q with m_queue := q.m_queue ++ [value] })

/-- One call of `TryDequeue(T& value)`; the argument `value` is the content of
the caller's variable before the call, and the second component of the result
is its content after the call.  `none`: the loop condition
`m_queue.empty() && !m_shutdown` holds and the caller waits on
`m_dequeueCond`.  (`front()` of an empty deque is never evaluated: see
`TryDequeue_waits_iff`.) -/
def TryDequeue (q : BlockingQueue T) (value : T) : Option (Bool × T × BlockingQueue T) :=
  if q.m_queue.isEmpty && !q.m_shutdown then
    none
  else if q.m_shutdown && q.m_queue.isEmpty then
    some (false, value, { q with m_finished := true })
  else
    match q.m_queue with
    | [] => none
    | front :: rest =>
      let q1 := { q with m_queue := rest }
      if q1.m_shutdown && q1.m_queue.isEmpty then
        some (true, front, { q1 with m_finished := true })
      else
        some (true, front, q1)

/-- The destructor's two assertions `LogAssertB(m_shutdown, ..)` and
`LogAssertB(m_finished, ..)`: `true` when both pass. -/
def destructorPasses (q : BlockingQueue T) : Bool :=
  q.m_shutdown && q.m_finished

end BlockingQueue

/-- A call made on a queue by some thread: `TryEnqueue(v)`, `TryDequeue(x)`
where the caller's variable `x` holds `value` beforehand, or `Shutdown()`. -/
inductive QueueOp (T : Type) where
  | enqueue (v : T)
  | dequeue (value : T)
  | shutdown
  deriving DecidableEq, Repr

/-- A queue together with the history of the calls that returned `true`:
`accepted` lists the values of the successful `TryEnqueue` calls and
`delivered` the values handed back by the successful `TryDequeue` calls, both
in the order in which the calls took their step. -/
structure QueueRun (T : Type) where
  queue : BlockingQueue T
  accepted : List T
  delivered : List T
  deriving DecidableEq, Repr

namespace QueueRun

variable {T : Type}

/-- The run of a freshly constructed queue: nothing accepted, nothing
delivered. -/
def start (capacity : Nat) : QueueRun T :=
  { queue := BlockingQueue.construct capacity, accepted := [], delivered := [] }

/-- One atomic step.  A call that waits leaves everything as it is (the thread
will take its step later, as a later element of the sequence). -/
def step (r : QueueRun T) : QueueOp T → QueueRun T
  | .enqueue v =>
    match r.queue.TryEnqueue v with
    | none => r
    | some (true, q) => { r with queue := q, accepted := r.accepted ++ [v] }
    | some (false, q) => { r with queue := q }
  | .dequeue value =>
    match r.queue.TryDequeue value with
    | none => r
    | some (true, x, q) => { r with queue := q, delivered := r.delivered ++ [x] }
    | some (false, _, q) => { r with queue := q }
  | .shutdown => { r with queue := r.queue.Shutdown }

/-- A sequence of atomic steps, first element first. -/
def run (r : QueueRun T) (ops : List (QueueOp T)) : QueueRun T :=
  ops.foldl step r

end QueueRun

/-- The invariant of a run: the accepted values are the delivered values
followed by the values still queued, and a finished queue is shut down and
empty. -/
def QueueRun.Inv {T : Type} (r : QueueRun T) : Prop :=
  r.accepted = r.delivered ++ r.queue.m_queue ∧
    (r.queue.m_finished = true → r.queue.m_shutdown = true ∧ r.queue.m_queue = [])

/-! ## Match trees and the rank-zero compiler -/

/-- Modelled from the spec: `AbstractRow`, whose declaration is not part of
the sources at hand.  The plan text format writes a row as
`Row(rowIndex, rank, consumedRank, recycled)`; the four fields are kept in
that order. -/
structure AbstractRow where
  m_rowIndex : Nat
  m_rank : Nat
  m_consumedRank : Nat
  m_recycled : Bool
  deriving DecidableEq, Repr

/-- Modelled from the spec: the node classes of `RowMatchNode`
(`BitFunnel/Plan/RowMatchNode.h` is not part of the sources at hand): the
tagged variants `And(left,right)`, `Or(left,right)`, `Not(child)`,
`Row(row)` and `Report(child?)`.  The constructor is the value of
`GetType()`: `AndMatch`, `NotMatch`, `OrMatch`, `ReportMatch`, `RowMatch`. -/
inductive RowMatchNode where
  | And (left right : RowMatchNode)
  | Not (child : RowMatchNode)
  | Or (left right : RowMatchNode)
  | Report (child : Option RowMatchNode)
  | Row (row : AbstractRow)

/-- Modelled from the spec: the node classes of `CompileNode` (`CompileNode.h`
is not part of the sources at hand): `AndRowJz(row, next)`, `AndTree(l,r)`,
`LoadRow(row)`, `Not(c)`, `OrTree(l,r)`, `RankDown(newRank, child)` and
`Report(child?)`. -/
inductive CompileNode where
  | AndRowJz (row : AbstractRow) (next : CompileNode)
  | AndTree (left right : CompileNode)
  | LoadRow (row : AbstractRow)
  | Not (child : CompileNode)
  | OrTree (left right : CompileNode)
  | RankDown (newRank : Nat) (child : CompileNode)
  | Report (child : Option CompileNode)

namespace RankZeroCompiler

/-- The function `RankZeroCompiler::Compile`.  `Except.error msg` is the fatal
`LogAbortB(msg)` of the `default:` branch; an abort inside the compilation of
a child ends the whole call.  The arena behind `m_allocator` is taken to have
room for every node (its code is outside the sources at hand), so the
placement `new` expressions are the constructor applications. -/
def Compile : RowMatchNode → Except String CompileNode
  | .And left right =>
    match Compile left, Compile right with
    | .ok l, .ok r => .ok (CompileNode.AndTree l r)
    | .error e, _ => .error e
    | .ok _, .error e => .error e
  | .Not child =>
    match Compile child with
    | .ok c => .ok (CompileNode.Not c)
    | .error e => .error e
  | .Or left right =>
    match Compile left, Compile right with
    | .ok l, .ok r => .ok (CompileNode.OrTree l r)
    | .error e, _ => .error e
    | .ok _, .error e => .error e
  | .Row row => .ok (CompileNode.LoadRow row)
  | .Report _ => .error "Unsupported node type."

end RankZeroCompiler

/-- A node of the tree is a `Report` node: the tree holds a node whose type is
none of `AndMatch`, `NotMatch`, `OrMatch`, `RowMatch`. -/
def RowMatchNode.containsReport : RowMatchNode → Bool
  | .And left right => left.containsReport || right.containsReport
  | .Not child => child.containsReport
  | .Or left right => left.containsReport || right.containsReport
  | .Report _ => true
  | .Row _ => false

/-- The rows at the leaves of a match tree outside its `Report` nodes, from
left to right. -/
def RowMatchNode.rows : RowMatchNode → List AbstractRow
  | .And left right => left.rows ++ right.rows
  | .Not child => child.rows
  | .Or left right => left.rows ++ right.rows
  | .Report _ => []
  | .Row row => [row]

/-- The match trees built only from `And`, `Or`, `Not` and `Row` nodes. -/
inductive PlainMatchTree where
  | And (left right : PlainMatchTree)
  | Or (left right : PlainMatchTree)
  | Not (child : PlainMatchTree)
  | Row (row : AbstractRow)
  deriving DecidableEq, Repr

namespace PlainMatchTree

/-- The `RowMatchNode` tree that a plain tree stands for. -/
def toRowMatchNode : PlainMatchTree → RowMatchNode
  | .And left right => RowMatchNode.And left.toRowMatchNode right.toRowMatchNode
  | .Or left right => RowMatchNode.Or left.toRowMatchNode right.toRowMatchNode
  | .Not child => RowMatchNode.Not child.toRowMatchNode
  | .Row row => RowMatchNode.Row row

/-- The structural translation in the words of the specification:
`And` to `AndTree`, `Or` to `OrTree`, `Not` to `Not`, `Row` to `LoadRow`. -/
def structuralTranslation : PlainMatchTree → CompileNode
  | .And left right =>
    CompileNode.AndTree left.structuralTranslation right.structuralTranslation
  | .Or left right =>
    CompileNode.OrTree left.structuralTranslation right.structuralTranslation
  | .Not child => CompileNode.Not child.structuralTranslation
  | .Row row => CompileNode.LoadRow row

/-- The rows at the leaves of a plain tree, from left to right. -/
def rows : PlainMatchTree → List AbstractRow
  | .And left right => left.rows ++ right.rows
  | .Or left right => left.rows ++ right.rows
  | .Not child => child.rows
  | .Row row => [row]

end PlainMatchTree

/-- The shape of a tree with the rows taken out: binary nodes, unary nodes and
leaves, each binary node with its kind (`true` for a conjunction). -/
inductive TreeShape where
  | binary (conj : Bool) (left right : TreeShape)
  | unary (child : TreeShape)
  | leaf
  | other
  deriving DecidableEq, Repr

/-- The shape of a plain match tree. -/
def PlainMatchTree.shape : PlainMatchTree → TreeShape
  | .And left right => TreeShape.binary true left.shape right.shape
  | .Or left right => TreeShape.binary false left.shape right.shape
  | .Not child => TreeShape.unary child.shape
  | .Row _ => TreeShape.leaf

/-- The shape of a compiled tree; the node kinds that only the rank-down
compiler produces have shape `other`. -/
def CompileNode.shape : CompileNode → TreeShape
  | .AndTree left right => TreeShape.binary true left.shape right.shape
  | .OrTree left right => TreeShape.binary false left.shape right.shape
  | .Not child => TreeShape.unary child.shape
  | .LoadRow _ => TreeShape.leaf
  | .AndRowJz _ _ => TreeShape.other
  | .RankDown _ _ => TreeShape.other
  | .Report _ => TreeShape.other

/-- The rows loaded by the `LoadRow` leaves of a compiled tree, from left to
right. -/
def CompileNode.loadedRows : CompileNode → List AbstractRow
  | .AndTree left right => left.loadedRows ++ right.loadedRows
  | .OrTree left right => left.loadedRows ++ right.loadedRows
  | .Not child => child.loadedRows
  | .LoadRow row => [row]
  | .AndRowJz _ _ => []
  | .RankDown _ _ => []
  | .Report _ => []

/-! ## Document handles

`DocumentHandleInternal.cpp` calls into `Shard`, `Slice` and
`RowTableDescriptor`, whose code is not part of the sources at hand; they are
modelled from the specification (sections 3, 4.E and 4.F).  A pointer is
represented by the object it points to, and a member function that writes
through `m_slice` returns the handle with the slice after the call. -/

/-- Modelled from the spec: `RowId`, the triple (rank, rowIndex,
recycled-flag); `GetRank()` and `GetIndex()` read the first two. -/
structure RowId where
  m_rank : Nat
  m_index : Nat
  m_recycled : Bool
  deriving DecidableEq, Repr

/-- Modelled from the spec: `Term`, (hash: u64, gramSize: u8, streamId: u8). -/
structure Term where
  m_hash : Nat
  m_gramSize : Nat
  m_streamId : Nat
  deriving DecidableEq, Repr

/-- The slice buffer returned by `Slice::GetSliceBuffer()`, seen as an array
of 64-bit words: the word at each word offset. -/
abbrev SliceBuffer := Nat → Nat

/-- Modelled from the spec: `RowTableDescriptor`, which holds offsets and
sizes, not memory.  `rowBase row` is the word offset of the first word of
`row` in the slice buffer and `m_rank` the rank of the rows of the table. -/
structure RowTableDescriptor where
  m_rank : Nat
  rowBase : Nat → Nat

namespace RowTableDescriptor

/-- Modelled from the spec: the document position used in a table of rank
`r`: "for rank-`r` rows, `doc` is replaced by `doc >> r`". -/
def docPosition (t : RowTableDescriptor) (docIndex : Nat) : Nat :=
  docIndex >>> t.m_rank

/-- Modelled from the spec: the offset `rowBase(row) + doc>>6` of the word
that holds the bit `(row, doc)`. -/
def wordOffset (t : RowTableDescriptor) (rowIndex docIndex : Nat) : Nat :=
  t.rowBase rowIndex + (t.docPosition docIndex >>> 6)

/-- Modelled from the spec: the position `doc & 63` of the bit `(row, doc)`
in its word. -/
def bitPosition (t : RowTableDescriptor) (docIndex : Nat) : Nat :=
  t.docPosition docIndex &&& 63

/-- Modelled from the spec: `RowTableDescriptor::GetBit`, not part of the
sources at hand: "reading bit `(row, doc)` is
`(buffer[rowBase(row) + doc>>6] >> (doc & 63)) & 1`". -/
def GetBit (t : RowTableDescriptor) (buffer : SliceBuffer) (rowIndex docIndex : Nat) : Nat :=
  (buffer (t.wordOffset rowIndex docIndex) >>> t.bitPosition docIndex) &&& 1

/-- Modelled from the spec: `RowTableDescriptor::SetBit`, not part of the
sources at hand: sets the bit that `GetBit` reads, in the same word, and
leaves the other bits of the buffer as they are. -/
def SetBit (t : RowTableDescriptor) (buffer : SliceBuffer) (rowIndex docIndex : Nat) :
    SliceBuffer :=
  Function.update buffer (t.wordOffset rowIndex docIndex)
    (buffer (t.wordOffset rowIndex docIndex) ||| (1 <<< t.bitPosition docIndex))

/-- Modelled from the spec: `RowTableDescriptor::ClearBit`, not part of the
sources at hand: clears the bit that `GetBit` reads (the word is and-ed with
the 64-bit complement of the mask) and leaves the other bits as they are. -/
def ClearBit (t : RowTableDescriptor) (buffer : SliceBuffer) (rowIndex docIndex : Nat) :
    SliceBuffer :=
  Function.update buffer (t.wordOffset rowIndex docIndex)
    (buffer (t.wordOffset rowIndex docIndex) &&&
      ((2 ^ 64 - 1) ^^^ (1 <<< t.bitPosition docIndex)))

end RowTableDescriptor

/-- Modelled from the spec: `Shard`, which owns one RowTable descriptor per
rank, the TermTable of the shard (here the map from a term to the
`RowIdSequence` that `TermTable.GetRows` yields) and the document-active
`RowId`.  `m_recordedDocuments` counts the calls of
`TemporaryRecordDocument()`. -/
structure Shard where
  m_termTable : Term → List RowId
  m_rowTables : Nat → RowTableDescriptor
  m_documentActiveRowId : RowId
  m_recordedDocuments : Nat

namespace Shard

/-- Accessor `Shard::GetRowTable(rank)`. -/
def GetRowTable (shard : Shard) (rank : Nat) : RowTableDescriptor :=
  shard.m_rowTables rank

/-- Accessor `Shard::GetDocumentActiveRowId()`. -/
def GetDocumentActiveRowId (shard : Shard) : RowId :=
  shard.m_documentActiveRowId

/-- Modelled from the spec: `Shard::AddPosting(term, index, sliceBuffer)`, not
part of the sources at hand: "resolves `term → RowIdSequence` via TermTable;
for each RowId, sets the bit at `(rowIndex, docIndex)` in the appropriate
rank's RowTable".  The result is the slice buffer after the call. -/
def AddPosting (shard : Shard) (term : Term) (index : Nat) (sliceBuffer : SliceBuffer) :
    SliceBuffer :=
  (shard.m_termTable term).foldl
    (fun buffer row => (shard.GetRowTable row.m_rank).SetBit buffer row.m_index index)
    sliceBuffer

/-- Modelled from the spec: `Shard::TemporaryRecordDocument()`, not part of
the sources at hand and not described by the specification: it notes one more
document in the shard and touches no slice. -/
def TemporaryRecordDocument (shard : Shard) : Shard :=
  { shard with m_recordedDocuments := shard.m_recordedDocuments + 1 }

end Shard

/-- Modelled from the spec: `Slice`, a memory region (`m_buffer`) with a
reference count, a capacity and the counter of expired documents, and the
shard it belongs to. -/
structure Slice where
  m_shard : Shard
  m_buffer : SliceBuffer
  m_capacity : Nat
  m_expiredCount : Nat
  m_refCount : Nat

namespace Slice

/-- Accessor `Slice::GetShard()`. -/
def GetShard (slice : Slice) : Shard :=
  slice.m_shard

/-- Accessor `Slice::GetSliceBuffer()`. -/
def GetSliceBuffer (slice : Slice) : SliceBuffer :=
  slice.m_buffer

/-- Modelled from the spec: `Slice::GetRowTable(rank)`, not part of the
sources at hand: the RowTable descriptors belong to the shard, so this is the
shard's descriptor for the rank. -/
def GetRowTable (slice : Slice) (rank : Nat) : RowTableDescriptor :=
  slice.m_shard.GetRowTable rank

/-- Modelled from the spec: `Slice::ExpireDocument()`, not part of the sources
at hand: counts one more expired document and reports whether the slice is
now fully expired (`expired == capacity`, section 3; section 4.F calls the
update of the counter a decrement, section 3 bounds the counter by the
capacity, which is the reading taken here).  What the function does when a
call would take the counter past the capacity, or when the document was
expired before, is not described: no check is modelled and the counter of
the model goes on counting, so the model does not tell whether such a call
returns in the program. -/
def ExpireDocument (slice : Slice) : Bool × Slice :=
  let slice1 := { slice with m_expiredCount := slice.m_expiredCount + 1 }
  (slice1.m_expiredCount == slice1.m_capacity, slice1)

/-- Modelled from the spec: `Slice::DecrementRefCount(slice)`, not part of the
sources at hand: releases one reference to the slice. -/
def DecrementRefCount (slice : Slice) : Slice :=
  { slice with m_refCount := slice.m_refCount - 1 }

end Slice

/-- The class `DocumentHandle`: `m_slice` (the slice pointed to, which is not
null in any handle a member function is called on) and `m_index`.
`DocumentHandleInternal` adds no data member. -/
structure DocumentHandle where
  m_slice : Slice
  m_index : Nat

namespace DocumentHandle

/-- The function `DocumentHandle::AddPosting(term)`. -/
def AddPosting (h : DocumentHandle) (term : Term) : DocumentHandle :=
  { h with m_slice :=
      { h.m_slice with
        m_buffer := h.m_slice.GetShard.AddPosting term h.m_index h.m_slice.GetSliceBuffer } }

/-- The function `DocumentHandle::Expire()`. -/
def Expire (h : DocumentHandle) : DocumentHandle :=
  let documentActiveRow := h.m_slice.GetShard.GetDocumentActiveRowId
  let rowTable := h.m_slice.GetRowTable documentActiveRow.m_rank
  let slice1 : Slice :=
    { h.m_slice with
      m_buffer := rowTable.ClearBit h.m_slice.GetSliceBuffer documentActiveRow.m_index h.m_index }
  let (isSliceExpired, slice2) := slice1.ExpireDocument
  if isSliceExpired then
    { h with m_slice := slice2.DecrementRefCount }
  else
    { h with m_slice := slice2 }

/-- The function `DocumentHandle::GetBit(row)`. -/
def GetBit (h : DocumentHandle) (row : RowId) : Bool :=
  let bit := (h.m_slice.GetShard.GetRowTable row.m_rank).GetBit
    h.m_slice.GetSliceBuffer row.m_index h.m_index
  bit == 1

/-- The function `DocumentHandleInternal::Activate()`. -/
def Activate (h : DocumentHandle) : DocumentHandle :=
  let documentActiveRow := h.m_slice.GetShard.GetDocumentActiveRowId
  let rowTable := h.m_slice.GetRowTable documentActiveRow.m_rank
  let slice1 : Slice :=
    { h.m_slice with
      m_buffer := rowTable.SetBit h.m_slice.GetSliceBuffer documentActiveRow.m_index h.m_index }
  { h with m_slice := { slice1 with m_shard := slice1.GetShard.TemporaryRecordDocument } }

end DocumentHandle

/-! ## A small index for the examples -/

/-- A shard with row tables of 4 words per row, the table of rank `r` at word
offset `1000 * r`, a term table that maps every term to the row 1 of rank 0
and the row 2 of rank 3, and the row 0 of rank 0 as document-active row. -/
def exampleShard : Shard :=
  { m_termTable := fun _ => [⟨0, 1, false⟩, ⟨3, 2, false⟩]
    m_rowTables := fun rank => ⟨rank, fun row => 1000 * rank + 4 * row⟩
    m_documentActiveRowId := ⟨0, 0, false⟩
    m_recordedDocuments := 0 }

/-- A slice of `exampleShard` for 256 documents with an all-zero buffer. -/
def exampleSlice : Slice :=
  { m_shard := exampleShard
    m_buffer := fun _ => 0
    m_capacity := 256
    m_expiredCount := 0
    m_refCount := 1 }

/-- The handle of the document 70 of `exampleSlice`. -/
def exampleHandle : DocumentHandle :=
  { m_slice := exampleSlice, m_index := 70 }

/-- The producer's calls `TryEnqueue(first)`, `TryEnqueue(first + 1)`, ...:
`n` of them. -/
def enqueueRange (first n : Nat) : List (QueueOp Nat) :=
  (List.range n).map fun i => QueueOp.enqueue (first + i)

/-! ## The match tree rewriter

`MatchTreeRewriter.cpp` is outside the files embedded here.  What the sources
hold of the rewriter is the table `c_rewriteCases` of its test: eleven inputs,
each with its two target counts and the output that the test expects.  The
rewriter is modelled from section 4.H/I/J of the specification.  Where the
specification leaves the result open or differs from the table (the order
among the rows of one rank, the order in which `Or` nodes are multiplied out,
the form of the branches that are not multiplied out, the rows below a
`Report` node) the model follows the table: `Rewrite_c_rewriteCases` shows
that it returns the expected output on each of the eleven inputs. -/

/-- The struct `InputOutput` of `MatchTreeRewriterTest.cpp`, one case of the
table `c_rewriteCases`.  The two texts of a case are kept as the trees that
they denote in the plan text format (section 6 of the specification), a node
with the children `[a, b, c]` being the chain `And a (And b c)`, or
`Or a (Or b c)`; `RowMatchNode::Parse` and `Format`, which the test uses to go
from the one to the other, are outside the files embedded here. -/
structure InputOutput where
  m_input : PlainMatchTree
  m_output : RowMatchNode
  m_targetRowCount : Nat
  m_targetCrossProductTermCount : Nat

/-- Modelled from the spec: the row as it is consumed at `rank`; the rank slot
holds `rank` and the consumed-rank slot grows by the ranks given up. -/
def AbstractRow.atRank (row : AbstractRow) (rank : Nat) : AbstractRow :=
  { row with m_rank := rank, m_consumedRank := row.m_consumedRank + (row.m_rank - rank) }

/-- Modelled from the spec: the row as it is consumed when the rank reached so
far is `reached` (`none` before the first row); a row of a higher rank is
consumed at the rank reached. -/
def AbstractRow.consumedAt (row : AbstractRow) : Option Nat → AbstractRow
  | none => row
  | some reached => row.atRank (min row.m_rank reached)

/-- Modelled from the spec: the copy of a subtree in which every row is
consumed at rank 0; the shape of the subtree and the order of its children
are kept. -/
def PlainMatchTree.atRankZero : PlainMatchTree → RowMatchNode
  | .And left right => RowMatchNode.And left.atRankZero right.atRankZero
  | .Or left right => RowMatchNode.Or left.atRankZero right.atRankZero
  | .Not child => RowMatchNode.Not child.atRankZero
  | .Row row => RowMatchNode.Row (row.atRank 0)

/-- The number of nodes of a tree. -/
def PlainMatchTree.size : PlainMatchTree → Nat
  | .And left right => left.size + right.size + 1
  | .Or left right => left.size + right.size + 1
  | .Not child => child.size + 1
  | .Row _ => 1

namespace RowMatchNode

/-- The conjunction of `first` and the nodes of `rest` as one `And` chain; a
single node stands for itself. -/
def andChain (first : RowMatchNode) : List RowMatchNode → RowMatchNode
  | [] => first
  | second :: rest => RowMatchNode.And first (andChain second rest)

/-- The node `Or(left, right)` as the text format shows it: the children of
an `Or` child on the left are listed with those of the node. -/
def orJoin : RowMatchNode → RowMatchNode → RowMatchNode
  | .Or first rest, right => RowMatchNode.Or first (orJoin rest right)
  | left, right => RowMatchNode.Or left right

/-- The conjunction of the nodes of `front` followed by `last` as one `And`
chain.  The text format lists the children of an `And` node one after the
other and does not show how the binary nodes are nested; the chain is nested
to the right here, each child the left child of the `And` node that holds the
children after it, and what is stated of a chain is stated of its children in
this order. -/
def conjoin (front : List RowMatchNode) (last : RowMatchNode) : RowMatchNode :=
  front.foldr RowMatchNode.And last

/-- The `Report` node over the conjunction of `children`; no child when there
is none. -/
def reportOver : List RowMatchNode → RowMatchNode
  | [] => RowMatchNode.Report none
  | first :: rest => RowMatchNode.Report (some (andChain first rest))

end RowMatchNode

namespace MatchTreeRewriter

/-- Modelled from the spec: the conjuncts collected on the way from the root
to the branch under construction.  `m_rows` holds the rows not yet emitted by
descending rank, a row added later standing before the rows of its rank;
`m_ors` the `Or` nodes not yet multiplied out, as pairs of their children,
the node added last first; `m_nots` the children of the `Not` nodes, the node
added last first. -/
structure Partition where
  m_rows : List AbstractRow
  m_ors : List (PlainMatchTree × PlainMatchTree)
  m_nots : List PlainMatchTree

/-- Modelled from the spec: the partition at the root, without a conjunct. -/
def Partition.empty : Partition :=
  { m_rows := [], m_ors := [], m_nots := [] }

/-- Modelled from the spec: the rows with `row` put before the first row whose
rank is not above that of `row`. -/
def insertRow (row : AbstractRow) : List AbstractRow → List AbstractRow
  | [] => [row]
  | first :: rest =>
    if first.m_rank ≤ row.m_rank then row :: first :: rest else first :: insertRow row rest

/-- Modelled from the spec: the conjuncts of `node` added to a partition; an
`And` node adds those of its left child, then those of its right child. -/
def Partition.add (p : Partition) : PlainMatchTree → Partition
  | .And left right => (p.add left).add right
  | .Or left right => { p with m_ors := (left, right) :: p.m_ors }
  | .Not child => { p with m_nots := child :: p.m_nots }
  | .Row row => { p with m_rows := insertRow row p.m_rows }

/-- Modelled from the spec: the rows of a partition that are emitted before an
`Or` node is multiplied out, those of a rank above 0. -/
def Partition.upperRows (p : Partition) : List AbstractRow :=
  p.m_rows.filter (fun row => decide (0 < row.m_rank))

/-- Modelled from the spec: the rows of a partition that are kept for the end
of each branch, those of rank 0. -/
def Partition.rankZeroRows (p : Partition) : List AbstractRow :=
  p.m_rows.filter (fun row => decide (row.m_rank = 0))

/-- Modelled from the spec: the rank reached after `rows` were emitted from the
rank `reached`. -/
def rankAfter (reached : Option Nat) (rows : List AbstractRow) : Option Nat :=
  match rows.getLast? with
  | none => reached
  | some row => some (row.consumedAt reached).m_rank

/-- Modelled from the spec: the `Or` node of a pair of children as it stands in
a branch that does not multiply it out, every row consumed at rank 0. -/
def residualOr (pair : PlainMatchTree × PlainMatchTree) : RowMatchNode :=
  RowMatchNode.Or pair.1.atRankZero pair.2.atRankZero

/-- Modelled from the spec: the `Not` node over a child as it stands below a
`Report` node, every row consumed at rank 0. -/
def reportedNot (child : PlainMatchTree) : RowMatchNode :=
  RowMatchNode.Not child.atRankZero

/-- Modelled from the spec: the rows of a rank above 0 as they are emitted when
the rank reached is `reached`. -/
def Partition.emittedUpperRows (p : Partition) (reached : Option Nat) : List RowMatchNode :=
  p.upperRows.map fun row => RowMatchNode.Row (row.consumedAt reached)

/-- Modelled from the spec: the branch that closes a partition, made of the
rows still to emit, the `Or` nodes that are not multiplied out and, last, the
`Report` node over the `Not` nodes.  When the target count is 0 the `Or` nodes
are placed under the `Report` node, before the `Not` nodes. -/
def Partition.branch (p : Partition) (targetCrossProductTermCount : Nat)
    (reached : Option Nat) : RowMatchNode :=
  if targetCrossProductTermCount = 0 then
    RowMatchNode.conjoin
      (p.emittedUpperRows reached ++ p.rankZeroRows.map RowMatchNode.Row)
      (RowMatchNode.reportOver (p.m_ors.map residualOr ++ p.m_nots.map reportedNot))
  else
    RowMatchNode.conjoin
      (p.emittedUpperRows reached ++ p.rankZeroRows.map RowMatchNode.Row ++
        p.m_ors.map residualOr)
      (RowMatchNode.reportOver (p.m_nots.map reportedNot))

/-- Modelled from the spec: the conjuncts that remain below an `Or` node that
is multiplied out, the rows of rank 0, the other `Or` nodes and the `Not`
nodes. -/
def Partition.below (p : Partition) (ors : List (PlainMatchTree × PlainMatchTree)) :
    Partition :=
  { m_rows := p.rankZeroRows, m_ors := ors, m_nots := p.m_nots }

/-- Modelled from the spec: the recursion of the rewriter.  `parent` holds the
conjuncts met above `node`, `reached` the rank reached above it and `count`
the number of branches emitted so far; the result is the tree for `node` and
the count after it.  The rows of a rank above 0 are emitted first.  Then,
while `count` is below the target, the `Or` node added last is multiplied out:
its two children are built one after the other under the conjuncts that
remain.  Otherwise the branch is closed.  `fuel` bounds the depth of the
recursion; `none` when it is used up. -/
def build (targetCrossProductTermCount : Nat) :
    Nat → Partition → Option Nat → PlainMatchTree → Nat → Option (RowMatchNode × Nat)
  | 0, _, _, _, _ => none
  | fuel + 1, parent, reached, node, count =>
    match (parent.add node).m_ors with
    | (left, right) :: ors =>
      if count < targetCrossProductTermCount then
        match build targetCrossProductTermCount fuel ((parent.add node).below ors)
            (rankAfter reached (parent.add node).upperRows) left count with
        | none => none
        | some (leftTree, count1) =>
          match build targetCrossProductTermCount fuel ((parent.add node).below ors)
              (rankAfter reached (parent.add node).upperRows) right count1 with
          | none => none
          | some (rightTree, count2) =>
            some (RowMatchNode.conjoin ((parent.add node).emittedUpperRows reached)
              (RowMatchNode.orJoin leftTree rightTree), count2)
      else
        some ((parent.add node).branch targetCrossProductTermCount reached, count + 1)
    | [] => some ((parent.add node).branch targetCrossProductTermCount reached, count + 1)

/-- Modelled from the spec: `MatchTreeRewriter::Rewrite(root, targetRowCount,
targetCrossProductTermCount, allocator)`, whose code is outside the files
embedded here.  The specification attaches no effect to `targetRowCount` and
the fixtures show none; the arena is taken to have room for every node. -/
def Rewrite (root : PlainMatchTree) (_targetRowCount targetCrossProductTermCount : Nat) :
    Option RowMatchNode :=
  match build targetCrossProductTermCount root.size Partition.empty none root 0 with
  | some (tree, _) => some tree
  | none => none

end MatchTreeRewriter

/-! ### The fixtures of the test -/

/-- The fixture of lines 52 to 64 of `MatchTreeRewriterTest.cpp`: Single row.
Expect it to be copied verbatim. There is no OR-tree in this input tree, so
the targetCrossProductTermCount is set to zero. -/
def singleRow : InputOutput :=
  { m_input :=
      .Row ⟨0, 0, 0, false⟩
    m_output :=
      .And (.Row ⟨0, 0, 0, false⟩)
      (.Report none)
    m_targetRowCount := 4
    m_targetCrossProductTermCount := 0 }

/-- The fixture of lines 70 to 93 of `MatchTreeRewriterTest.cpp`: Four rows.
Expect higher rank rows first. There is no OR-tree in this input tree, so
the targetCrossProductTermCount is set to zero. -/
def fourRows : InputOutput :=
  { m_input :=
      .And (.Row ⟨0, 0, 0, false⟩)
      (.And (.Row ⟨1, 3, 0, false⟩)
        (.And (.Row ⟨2, 6, 0, false⟩)
          (.Row ⟨3, 6, 0, false⟩)))
    m_output :=
      .And (.Row ⟨3, 6, 0, false⟩)
      (.And (.Row ⟨2, 6, 0, false⟩)
        (.And (.Row ⟨1, 3, 0, false⟩)
          (.And (.Row ⟨0, 0, 0, false⟩)
            (.Report none))))
    m_targetRowCount := 4
    m_targetCrossProductTermCount := 0 }

/-- The fixture of lines 99 to 121 of `MatchTreeRewriterTest.cpp`: One row and
one not. Expect not node to be at end. There is no OR-tree in this input
tree, so the targetCrossProductTermCount is set to zero. -/
def oneRowOneNot : InputOutput :=
  { m_input :=
      .And (.Not (.Row ⟨2, 6, 0, false⟩))
      (.Row ⟨0, 0, 0, false⟩)
    m_output :=
      .And (.Row ⟨0, 0, 0, false⟩)
      (.Report (some (.Not (.Row ⟨2, 0, 6, false⟩))))
    m_targetRowCount := 4
    m_targetCrossProductTermCount := 0 }

/-- The fixture of lines 128 to 178 of `MatchTreeRewriterTest.cpp`: Simple or of
two ands. Expect same or with rows in descending rank order. There is one
OR-tree in this input tree, so the targetCrossProductTermCount is set to
two. -/
def orOfTwoAnds : InputOutput :=
  { m_input :=
      .Or (.And (.Row ⟨0, 0, 0, false⟩)
        (.And (.Row ⟨1, 3, 0, false⟩)
          (.And (.Row ⟨2, 6, 0, false⟩)
            (.Row ⟨3, 6, 0, false⟩))))
      (.And (.Row ⟨4, 0, 0, false⟩)
        (.And (.Row ⟨5, 3, 0, false⟩)
          (.And (.Row ⟨6, 6, 0, false⟩)
            (.Row ⟨7, 6, 0, false⟩))))
    m_output :=
      .Or (.And (.Row ⟨3, 6, 0, false⟩)
        (.And (.Row ⟨2, 6, 0, false⟩)
          (.And (.Row ⟨1, 3, 0, false⟩)
            (.And (.Row ⟨0, 0, 0, false⟩)
              (.Report none)))))
      (.And (.Row ⟨7, 6, 0, false⟩)
        (.And (.Row ⟨6, 6, 0, false⟩)
          (.And (.Row ⟨5, 3, 0, false⟩)
            (.And (.Row ⟨4, 0, 0, false⟩)
              (.Report none)))))
    m_targetRowCount := 4
    m_targetCrossProductTermCount := 2 }

/-- The fixture of lines 186 to 262 of `MatchTreeRewriterTest.cpp`: Distribute
three rows and a not over the or of two ands. Expect row 2 and 1 before the
or. Expect row 0 and 3 at the end of each branch of the or. There is one OR-
tree in this input tree, so the targetCrossProductTermCount is set to two. -/
def distributeOverOrOfTwoAnds : InputOutput :=
  { m_input :=
      .And (.And (.Row ⟨0, 0, 0, false⟩)
        (.And (.Row ⟨1, 3, 0, false⟩)
          (.And (.Row ⟨2, 6, 0, false⟩)
            (.Not (.Row ⟨3, 6, 0, false⟩)))))
      (.Or (.And (.Row ⟨4, 0, 0, false⟩)
          (.And (.Row ⟨5, 3, 0, false⟩)
            (.And (.Row ⟨6, 6, 0, false⟩)
              (.Row ⟨7, 6, 0, false⟩))))
        (.And (.Row ⟨8, 0, 0, false⟩)
          (.And (.Row ⟨9, 3, 0, false⟩)
            (.And (.Row ⟨10, 6, 0, false⟩)
              (.Row ⟨11, 6, 0, false⟩)))))
    m_output :=
      .And (.Row ⟨2, 6, 0, false⟩)
      (.And (.Row ⟨1, 3, 0, false⟩)
        (.Or (.And (.Row ⟨7, 3, 3, false⟩)
            (.And (.Row ⟨6, 3, 3, false⟩)
              (.And (.Row ⟨5, 3, 0, false⟩)
                (.And (.Row ⟨4, 0, 0, false⟩)
                  (.And (.Row ⟨0, 0, 0, false⟩)
                    (.Report (some (.Not (.Row ⟨3, 0, 6, false⟩)))))))))
          (.And (.Row ⟨11, 3, 3, false⟩)
            (.And (.Row ⟨10, 3, 3, false⟩)
              (.And (.Row ⟨9, 3, 0, false⟩)
                (.And (.Row ⟨8, 0, 0, false⟩)
                  (.And (.Row ⟨0, 0, 0, false⟩)
                    (.Report (some (.Not (.Row ⟨3, 0, 6, false⟩)))))))))))
    m_targetRowCount := 4
    m_targetCrossProductTermCount := 2 }

/-- The fixture of lines 268 to 370 of `MatchTreeRewriterTest.cpp`: Distribute
three rows and a not over two ors of two rows. There is two OR-trees in this
input tree, so the targetCrossProductTermCount is set to four. -/
def distributeOverTwoOrs : InputOutput :=
  { m_input :=
      .And (.And (.Row ⟨0, 0, 0, false⟩)
        (.And (.Row ⟨1, 3, 0, false⟩)
          (.And (.Row ⟨2, 6, 0, false⟩)
            (.Not (.Row ⟨3, 6, 0, false⟩)))))
      (.And (.Or (.Row ⟨4, 3, 0, false⟩)
          (.Row ⟨5, 3, 0, false⟩))
        (.Or (.Row ⟨6, 3, 0, false⟩)
          (.Row ⟨7, 3, 0, false⟩)))
    m_output :=
      .And (.Row ⟨2, 6, 0, false⟩)
      (.And (.Row ⟨1, 3, 0, false⟩)
        (.Or (.And (.Row ⟨6, 3, 0, false⟩)
            (.Or (.And (.Row ⟨4, 3, 0, false⟩)
                (.And (.Row ⟨0, 0, 0, false⟩)
                  (.Report (some (.Not (.Row ⟨3, 0, 6, false⟩))))))
              (.And (.Row ⟨5, 3, 0, false⟩)
                (.And (.Row ⟨0, 0, 0, false⟩)
                  (.Report (some (.Not (.Row ⟨3, 0, 6, false⟩))))))))
          (.And (.Row ⟨7, 3, 0, false⟩)
            (.Or (.And (.Row ⟨4, 3, 0, false⟩)
                (.And (.Row ⟨0, 0, 0, false⟩)
                  (.Report (some (.Not (.Row ⟨3, 0, 6, false⟩))))))
              (.And (.Row ⟨5, 3, 0, false⟩)
                (.And (.Row ⟨0, 0, 0, false⟩)
                  (.Report (some (.Not (.Row ⟨3, 0, 6, false⟩))))))))))
    m_targetRowCount := 8
    m_targetCrossProductTermCount := 4 }

/-- The fixture of lines 376 to 507 of `MatchTreeRewriterTest.cpp`: Multiply out
three ors of three rows. Since the cross product term count is 4, only 4 out
of 27 terms are generated. -/
def threeOrsCount4 : InputOutput :=
  { m_input :=
      .And (.Or (.Row ⟨1, 0, 0, false⟩)
        (.Or (.Row ⟨2, 0, 0, false⟩)
          (.Row ⟨3, 0, 0, false⟩)))
      (.And (.Or (.Row ⟨4, 0, 0, false⟩)
          (.Or (.Row ⟨5, 0, 0, false⟩)
            (.Row ⟨6, 0, 0, false⟩)))
        (.Or (.Row ⟨7, 0, 0, false⟩)
          (.Or (.Row ⟨8, 0, 0, false⟩)
            (.Row ⟨9, 0, 0, false⟩))))
    m_output :=
      .Or (.And (.Row ⟨1, 0, 0, false⟩)
        (.And (.Row ⟨4, 0, 0, false⟩)
          (.And (.Row ⟨7, 0, 0, false⟩)
            (.Report none))))
      (.Or (.And (.Row ⟨2, 0, 0, false⟩)
          (.And (.Row ⟨4, 0, 0, false⟩)
            (.And (.Row ⟨7, 0, 0, false⟩)
              (.Report none))))
        (.Or (.And (.Row ⟨3, 0, 0, false⟩)
            (.And (.Row ⟨4, 0, 0, false⟩)
              (.And (.Row ⟨7, 0, 0, false⟩)
                (.Report none))))
          (.Or (.And (.Row ⟨1, 0, 0, false⟩)
              (.And (.Row ⟨5, 0, 0, false⟩)
                (.And (.Row ⟨7, 0, 0, false⟩)
                  (.Report none))))
            (.Or (.And (.Row ⟨5, 0, 0, false⟩)
                (.And (.Row ⟨7, 0, 0, false⟩)
                  (.And (.Or (.Row ⟨2, 0, 0, false⟩)
                      (.Row ⟨3, 0, 0, false⟩))
                    (.Report none))))
              (.Or (.And (.Row ⟨6, 0, 0, false⟩)
                  (.And (.Row ⟨7, 0, 0, false⟩)
                    (.And (.Or (.Row ⟨1, 0, 0, false⟩)
                        (.Or (.Row ⟨2, 0, 0, false⟩)
                          (.Row ⟨3, 0, 0, false⟩)))
                      (.Report none))))
                (.And (.Or (.Row ⟨8, 0, 0, false⟩)
                    (.Row ⟨9, 0, 0, false⟩))
                  (.And (.Or (.Row ⟨4, 0, 0, false⟩)
                      (.Or (.Row ⟨5, 0, 0, false⟩)
                        (.Row ⟨6, 0, 0, false⟩)))
                    (.And (.Or (.Row ⟨1, 0, 0, false⟩)
                        (.Or (.Row ⟨2, 0, 0, false⟩)
                          (.Row ⟨3, 0, 0, false⟩)))
                      (.Report none)))))))))
    m_targetRowCount := 4
    m_targetCrossProductTermCount := 4 }

/-- The fixture of lines 513 to 649 of `MatchTreeRewriterTest.cpp`: Multiply out
three ors of three rows. The target fanout is 5. After 5 terms are
generated, we have to generated the 6th term, so finally 6 terms are
generated. -/
def threeOrsCount5 : InputOutput :=
  { m_input :=
      .And (.Or (.Row ⟨1, 0, 0, false⟩)
        (.Or (.Row ⟨2, 0, 0, false⟩)
          (.Row ⟨3, 0, 0, false⟩)))
      (.And (.Or (.Row ⟨4, 0, 0, false⟩)
          (.Or (.Row ⟨5, 0, 0, false⟩)
            (.Row ⟨6, 0, 0, false⟩)))
        (.Or (.Row ⟨7, 0, 0, false⟩)
          (.Or (.Row ⟨8, 0, 0, false⟩)
            (.Row ⟨9, 0, 0, false⟩))))
    m_output :=
      .Or (.And (.Row ⟨1, 0, 0, false⟩)
        (.And (.Row ⟨4, 0, 0, false⟩)
          (.And (.Row ⟨7, 0, 0, false⟩)
            (.Report none))))
      (.Or (.And (.Row ⟨2, 0, 0, false⟩)
          (.And (.Row ⟨4, 0, 0, false⟩)
            (.And (.Row ⟨7, 0, 0, false⟩)
              (.Report none))))
        (.Or (.And (.Row ⟨3, 0, 0, false⟩)
            (.And (.Row ⟨4, 0, 0, false⟩)
              (.And (.Row ⟨7, 0, 0, false⟩)
                (.Report none))))
          (.Or (.And (.Row ⟨1, 0, 0, false⟩)
              (.And (.Row ⟨5, 0, 0, false⟩)
                (.And (.Row ⟨7, 0, 0, false⟩)
                  (.Report none))))
            (.Or (.And (.Row ⟨2, 0, 0, false⟩)
                (.And (.Row ⟨5, 0, 0, false⟩)
                  (.And (.Row ⟨7, 0, 0, false⟩)
                    (.Report none))))
              (.Or (.And (.Row ⟨3, 0, 0, false⟩)
                  (.And (.Row ⟨5, 0, 0, false⟩)
                    (.And (.Row ⟨7, 0, 0, false⟩)
                      (.Report none))))
                (.Or (.And (.Row ⟨6, 0, 0, false⟩)
                    (.And (.Row ⟨7, 0, 0, false⟩)
                      (.And (.Or (.Row ⟨1, 0, 0, false⟩)
                          (.Or (.Row ⟨2, 0, 0, false⟩)
                            (.Row ⟨3, 0, 0, false⟩)))
                        (.Report none))))
                  (.And (.Or (.Row ⟨8, 0, 0, false⟩)
                      (.Row ⟨9, 0, 0, false⟩))
                    (.And (.Or (.Row ⟨4, 0, 0, false⟩)
                        (.Or (.Row ⟨5, 0, 0, false⟩)
                          (.Row ⟨6, 0, 0, false⟩)))
                      (.And (.Or (.Row ⟨1, 0, 0, false⟩)
                          (.Or (.Row ⟨2, 0, 0, false⟩)
                            (.Row ⟨3, 0, 0, false⟩)))
                        (.Report none))))))))))
    m_targetRowCount := 4
    m_targetCrossProductTermCount := 5 }

/-- The fixture of lines 654 to 790 of `MatchTreeRewriterTest.cpp`: Multiply out
three ors of three rows. The target cross product term count is 6, so 6 of
out 27 terms are generated. -/
def threeOrsCount6 : InputOutput :=
  { m_input :=
      .And (.Or (.Row ⟨1, 0, 0, false⟩)
        (.Or (.Row ⟨2, 0, 0, false⟩)
          (.Row ⟨3, 0, 0, false⟩)))
      (.And (.Or (.Row ⟨4, 0, 0, false⟩)
          (.Or (.Row ⟨5, 0, 0, false⟩)
            (.Row ⟨6, 0, 0, false⟩)))
        (.Or (.Row ⟨7, 0, 0, false⟩)
          (.Or (.Row ⟨8, 0, 0, false⟩)
            (.Row ⟨9, 0, 0, false⟩))))
    m_output :=
      .Or (.And (.Row ⟨1, 0, 0, false⟩)
        (.And (.Row ⟨4, 0, 0, false⟩)
          (.And (.Row ⟨7, 0, 0, false⟩)
            (.Report none))))
      (.Or (.And (.Row ⟨2, 0, 0, false⟩)
          (.And (.Row ⟨4, 0, 0, false⟩)
            (.And (.Row ⟨7, 0, 0, false⟩)
              (.Report none))))
        (.Or (.And (.Row ⟨3, 0, 0, false⟩)
            (.And (.Row ⟨4, 0, 0, false⟩)
              (.And (.Row ⟨7, 0, 0, false⟩)
                (.Report none))))
          (.Or (.And (.Row ⟨1, 0, 0, false⟩)
              (.And (.Row ⟨5, 0, 0, false⟩)
                (.And (.Row ⟨7, 0, 0, false⟩)
                  (.Report none))))
            (.Or (.And (.Row ⟨2, 0, 0, false⟩)
                (.And (.Row ⟨5, 0, 0, false⟩)
                  (.And (.Row ⟨7, 0, 0, false⟩)
                    (.Report none))))
              (.Or (.And (.Row ⟨3, 0, 0, false⟩)
                  (.And (.Row ⟨5, 0, 0, false⟩)
                    (.And (.Row ⟨7, 0, 0, false⟩)
                      (.Report none))))
                (.Or (.And (.Row ⟨6, 0, 0, false⟩)
                    (.And (.Row ⟨7, 0, 0, false⟩)
                      (.And (.Or (.Row ⟨1, 0, 0, false⟩)
                          (.Or (.Row ⟨2, 0, 0, false⟩)
                            (.Row ⟨3, 0, 0, false⟩)))
                        (.Report none))))
                  (.And (.Or (.Row ⟨8, 0, 0, false⟩)
                      (.Row ⟨9, 0, 0, false⟩))
                    (.And (.Or (.Row ⟨4, 0, 0, false⟩)
                        (.Or (.Row ⟨5, 0, 0, false⟩)
                          (.Row ⟨6, 0, 0, false⟩)))
                      (.And (.Or (.Row ⟨1, 0, 0, false⟩)
                          (.Or (.Row ⟨2, 0, 0, false⟩)
                            (.Row ⟨3, 0, 0, false⟩)))
                        (.Report none))))))))))
    m_targetRowCount := 4
    m_targetCrossProductTermCount := 6 }

/-- The fixture of lines 796 to 884 of `MatchTreeRewriterTest.cpp`: Distribute
three rows and a not over two ors of two rows. Since the target cross
product term count is 2, only R4 and R5 are multiplied out and combined with
R0. -/
def distributeOverTwoOrsCount2 : InputOutput :=
  { m_input :=
      .And (.And (.Row ⟨0, 0, 0, false⟩)
        (.And (.Row ⟨1, 3, 0, false⟩)
          (.And (.Row ⟨2, 6, 0, false⟩)
            (.Not (.Row ⟨3, 6, 0, false⟩)))))
      (.And (.Or (.Row ⟨4, 3, 0, false⟩)
          (.Row ⟨5, 3, 0, false⟩))
        (.Or (.Row ⟨6, 3, 0, false⟩)
          (.Row ⟨7, 3, 0, false⟩)))
    m_output :=
      .And (.Row ⟨2, 6, 0, false⟩)
      (.And (.Row ⟨1, 3, 0, false⟩)
        (.Or (.And (.Row ⟨6, 3, 0, false⟩)
            (.Or (.And (.Row ⟨4, 3, 0, false⟩)
                (.And (.Row ⟨0, 0, 0, false⟩)
                  (.Report (some (.Not (.Row ⟨3, 0, 6, false⟩))))))
              (.And (.Row ⟨5, 3, 0, false⟩)
                (.And (.Row ⟨0, 0, 0, false⟩)
                  (.Report (some (.Not (.Row ⟨3, 0, 6, false⟩))))))))
          (.And (.Row ⟨7, 3, 0, false⟩)
            (.And (.Row ⟨0, 0, 0, false⟩)
              (.And (.Or (.Row ⟨4, 0, 3, false⟩)
                  (.Row ⟨5, 0, 3, false⟩))
                (.Report (some (.Not (.Row ⟨3, 0, 6, false⟩)))))))))
    m_targetRowCount := 8
    m_targetCrossProductTermCount := 2 }

/-- The fixture of lines 891 to 973 of `MatchTreeRewriterTest.cpp`: A
RowMatchTree with a Not node in Or tree. Set targetCrossProductTermCount to
zero to check that the entire Or tree should be put under a report node. -/
def notInOrTreeCount0 : InputOutput :=
  { m_input :=
      .And (.And (.Row ⟨0, 0, 0, false⟩)
        (.And (.Row ⟨1, 3, 0, false⟩)
          (.And (.Row ⟨2, 6, 0, false⟩)
            (.Not (.Row ⟨3, 6, 0, false⟩)))))
      (.Or (.And (.Row ⟨4, 0, 0, false⟩)
          (.And (.Row ⟨5, 3, 0, false⟩)
            (.And (.Row ⟨6, 6, 0, false⟩)
              (.Not (.Row ⟨7, 6, 0, false⟩)))))
        (.And (.Row ⟨8, 0, 0, false⟩)
          (.And (.Row ⟨9, 3, 0, false⟩)
            (.And (.Row ⟨10, 6, 0, false⟩)
              (.Not (.Row ⟨11, 6, 0, false⟩))))))
    m_output :=
      .And (.Row ⟨2, 6, 0, false⟩)
      (.And (.Row ⟨1, 3, 0, false⟩)
        (.And (.Row ⟨0, 0, 0, false⟩)
          (.Report (some (.And (.Or (.And (.Row ⟨4, 0, 0, false⟩)
                  (.And (.Row ⟨5, 0, 3, false⟩)
                    (.And (.Row ⟨6, 0, 6, false⟩)
                      (.Not (.Row ⟨7, 0, 6, false⟩)))))
                (.And (.Row ⟨8, 0, 0, false⟩)
                  (.And (.Row ⟨9, 0, 3, false⟩)
                    (.And (.Row ⟨10, 0, 6, false⟩)
                      (.Not (.Row ⟨11, 0, 6, false⟩))))))
              (.Not (.Row ⟨3, 0, 6, false⟩)))))))
    m_targetRowCount := 4
    m_targetCrossProductTermCount := 0 }

/-- The table `c_rewriteCases` of `MatchTreeRewriterTest.cpp`, which the test
`TEST(MatchTreeRewriter, Basic)` runs through `VerifyCase`. -/
def c_rewriteCases : List InputOutput :=
  [singleRow, fourRows, oneRowOneNot, orOfTwoAnds, distributeOverOrOfTwoAnds,
    distributeOverTwoOrs, threeOrsCount4, threeOrsCount5, threeOrsCount6,
    distributeOverTwoOrsCount2, notInOrTreeCount0]

/-! ## Reading match trees -/

namespace PlainMatchTree

/-- The rows that are conjuncts of a tree: the `Row` leaves reached through
`And` nodes only, from left to right. -/
def conjunctRows : PlainMatchTree → List AbstractRow
  | .And left right => left.conjunctRows ++ right.conjunctRows
  | .Row row => [row]
  | _ => []

/-- The `Or` nodes that are conjuncts of a tree, as pairs of their children,
from left to right. -/
def conjunctOrs : PlainMatchTree → List (PlainMatchTree × PlainMatchTree)
  | .And left right => left.conjunctOrs ++ right.conjunctOrs
  | .Or left right => [(left, right)]
  | _ => []

/-- The children of the `Not` nodes that are conjuncts of a tree, from left to
right. -/
def conjunctNots : PlainMatchTree → List PlainMatchTree
  | .And left right => left.conjunctNots ++ right.conjunctNots
  | .Not child => [child]
  | _ => []

/-- The tree holds an `Or` node. -/
def containsOr : PlainMatchTree → Bool
  | .And left right => left.containsOr || right.containsOr
  | .Or _ _ => true
  | .Not child => child.containsOr
  | .Row _ => false

/-- The number of conjunctions of the full sum of products of a tree. -/
def productSpace : PlainMatchTree → Nat
  | .And left right => left.productSpace * right.productSpace
  | .Or left right => left.productSpace + right.productSpace
  | .Not _ => 1
  | .Row _ => 1

/-- A row, or an `Or` node whose children in the text format are rows. -/
def isRowChain : PlainMatchTree → Bool
  | .Row _ => true
  | .Or (.Row _) rest => rest.isRowChain
  | _ => false

/-- A conjunction of rows, of `Not` nodes and of `Or` nodes whose children in
the text format are rows. -/
def isFlatProduct : PlainMatchTree → Bool
  | .And left right => left.isFlatProduct && right.isFlatProduct
  | .Or left right => (PlainMatchTree.Or left right).isRowChain
  | .Not _ => true
  | .Row _ => true

end PlainMatchTree

namespace RowMatchNode

/-- The ranks of the rows that are conjuncts of a node, from left to right:
the ranks of the `Row` children that the text format lists for an `And`
node. -/
def conjunctRanks : RowMatchNode → List Nat
  | .And left right => left.conjunctRanks ++ right.conjunctRanks
  | .Row row => [row.m_rank]
  | _ => []

/-- In every `And` node of the tree, below `Report` nodes too, the `Row`
children stand in non-increasing order of rank. -/
def andRowsSorted : RowMatchNode → Bool
  | .And left right =>
    decide ((RowMatchNode.And left right).conjunctRanks.Pairwise fun a b => b ≤ a) &&
      left.andRowsSorted && right.andRowsSorted
  | .Or left right => left.andRowsSorted && right.andRowsSorted
  | .Not child => child.andRowsSorted
  | .Report none => true
  | .Report (some child) => child.andRowsSorted
  | .Row _ => true

/-- For every path from the root of the tree to a leaf, the number of `Report`
nodes on the path. -/
def reportsOnPaths : RowMatchNode → List Nat
  | .And left right => left.reportsOnPaths ++ right.reportsOnPaths
  | .Or left right => left.reportsOnPaths ++ right.reportsOnPaths
  | .Not child => child.reportsOnPaths
  | .Report none => [1]
  | .Report (some child) => child.reportsOnPaths.map (· + 1)
  | .Row _ => [0]

/-- For every way through the tree, the number of `Report` nodes passed: an
`And` node is passed child after child, an `Or` node through one of its
children. -/
def reportsPassed : RowMatchNode → List Nat
  | .And left right =>
    left.reportsPassed.flatMap fun a => right.reportsPassed.map fun b => a + b
  | .Or left right => left.reportsPassed ++ right.reportsPassed
  | .Not child => child.reportsPassed
  | .Report none => [1]
  | .Report (some child) => child.reportsPassed.map (· + 1)
  | .Row _ => [0]

/-- Every branch of the tree ends in a `Report` node: the last child of an
`And` node does, and both children of an `Or` node do. -/
def endsInReport : RowMatchNode → Bool
  | .And _ right => right.endsInReport
  | .Or left right => left.endsInReport && right.endsInReport
  | .Report _ => true
  | _ => false

/-- The `Report` nodes of the tree, from left to right. -/
def reports : RowMatchNode → List RowMatchNode
  | .And left right => left.reports ++ right.reports
  | .Or left right => left.reports ++ right.reports
  | .Not child => child.reports
  | .Report child => [RowMatchNode.Report child]
  | .Row _ => []

/-- An `Or` node stands outside the `Report` nodes of the tree. -/
def hasOrOutsideReport : RowMatchNode → Bool
  | .And left right => left.hasOrOutsideReport || right.hasOrOutsideReport
  | .Or _ _ => true
  | .Not child => child.hasOrOutsideReport
  | .Report _ => false
  | .Row _ => false

/-- A conjunct of the node is an `Or` node. -/
def hasOrConjunct : RowMatchNode → Bool
  | .And left right => left.hasOrConjunct || right.hasOrConjunct
  | .Or _ _ => true
  | _ => false

/-- A conjunct of the node is a `Report` node. -/
def hasReportConjunct : RowMatchNode → Bool
  | .And left right => left.hasReportConjunct || right.hasReportConjunct
  | .Report _ => true
  | _ => false

/-- The number of fully multiplied-out branches of a rewritten tree: the
conjunctions that hold the `Report` node of a branch and no `Or` node beside
it. -/
def fullBranches : RowMatchNode → Nat
  | .And left right =>
    if (RowMatchNode.And left right).hasReportConjunct then
      if (RowMatchNode.And left right).hasOrConjunct then 0 else 1
    else left.fullBranches + right.fullBranches
  | .Or left right => left.fullBranches + right.fullBranches
  | .Report _ => 1
  | _ => 0

/-- The children that the text format lists for an `Or` node; the node itself
when it is no `Or` node. -/
def disjuncts : RowMatchNode → List RowMatchNode
  | .Or left right => left.disjuncts ++ right.disjuncts
  | node => [node]

/-- The children that the text format lists for an `And` node; the node itself
when it is no `And` node. -/
def conjuncts : RowMatchNode → List RowMatchNode
  | .And left right => left.conjuncts ++ right.conjuncts
  | node => [node]

/-- The two trees are the same, node for node. -/
def same : RowMatchNode → RowMatchNode → Bool
  | .And a b, .And c d => a.same c && b.same d
  | .Or a b, .Or c d => a.same c && b.same d
  | .Not a, .Not c => a.same c
  | .Report none, .Report none => true
  | .Report (some a), .Report (some c) => a.same c
  | .Row a, .Row c => decide (a = c)
  | _, _ => false

/-- The tree `part` stands somewhere in the tree, below `Report` nodes too. -/
def holds : RowMatchNode → RowMatchNode → Bool
  | .And left right, part =>
    part.same (RowMatchNode.And left right) || left.holds part || right.holds part
  | .Or left right, part =>
    part.same (RowMatchNode.Or left right) || left.holds part || right.holds part
  | .Not child, part => part.same (RowMatchNode.Not child) || child.holds part
  | .Report none, part => part.same (RowMatchNode.Report none)
  | .Report (some child), part =>
    part.same (RowMatchNode.Report (some child)) || child.holds part
  | .Row row, part => part.same (RowMatchNode.Row row)

end RowMatchNode

/-- A single row or a conjunction of rows only. -/
def PlainMatchTree.isRowConjunction : PlainMatchTree → Bool
  | .And left right => left.isRowConjunction && right.isRowConjunction
  | .Row _ => true
  | _ => false

/-- The rows by descending rank. -/
def MatchTreeRewriter.Descending (rows : List AbstractRow) : Prop :=
  rows.Pairwise fun a b => b.m_rank ≤ a.m_rank

/-- The sum of the sizes of the `Or` nodes of a list of pairs of children. -/
def MatchTreeRewriter.orsSize : List (PlainMatchTree × PlainMatchTree) → Nat
  | [] => 0
  | pair :: rest => pair.1.size + pair.2.size + 1 + orsSize rest

/-- A conjunction of rows and of `Not` nodes over a row. -/
def PlainMatchTree.isLiteralConjunction : PlainMatchTree → Bool
  | .And left right => left.isLiteralConjunction && right.isLiteralConjunction
  | .Not (.Row _) => true
  | .Row _ => true
  | _ => false

/-- The rows below the `Not` nodes that are conjuncts of a tree, from left to
right. -/
def PlainMatchTree.negatedRows : PlainMatchTree → List AbstractRow
  | .And left right => left.negatedRows ++ right.negatedRows
  | .Not (.Row row) => [row]
  | _ => []

/-- The shape of a match tree; a `Report` node has the shape `other`. -/
def RowMatchNode.shape : RowMatchNode → TreeShape
  | .And left right => TreeShape.binary true left.shape right.shape
  | .Or left right => TreeShape.binary false left.shape right.shape
  | .Not child => TreeShape.unary child.shape
  | .Row _ => TreeShape.leaf
  | .Report _ => TreeShape.other

/-- The number of conjunctions of the full product of a list of `Or` nodes,
given as pairs of their children. -/
def MatchTreeRewriter.orsWidth : List (PlainMatchTree × PlainMatchTree) → Nat
  | [] => 1
  | pair :: rest => (pair.1.productSpace + pair.2.productSpace) * orsWidth rest

/-! ## The destructor of the blocking queue -/

/-- The destructor `~BlockingQueue()`: its two `LogAssertB` in the order of
the source.  `Except.error msg` is the assertion that fails, with its
message; `Except.ok ()` is a destructor that passes both. -/
def BlockingQueue.destruct {T : Type} (q : BlockingQueue T) : Except String Unit :=
  if !q.m_shutdown then
    .error "Queue destructed without calling shutdown."
  else if !q.m_finished then
    .error "Queue destructed without finishing shutdown."
  else
    .ok ()

/-- Modelled from the spec: the enumeration `ICommand::Type`, whose
declaration is not part of the sources at hand: "`GetType() ∈ {Synchronous,
Asynchronous, Exit}`".  The loop tests for `Exit` and for `Asynchronous` and
treats every other value alike. -/
inductive CommandType where
  | Synchronous
  | Asynchronous
  | Exit
  deriving DecidableEq, Repr

/-- An exception thrown into the loop: a `RecoverableError` (or a class
derived from it) with the text of `what()`, or an exception of any other
class. -/
inductive Thrown where
  | RecoverableError (what : String)
  | other (what : String)
  deriving DecidableEq, Repr

/-- A task as the loop sees it: the value of `GetType()` and what a call of
`Execute()` on the REPL thread does, `none` for a call that returns and
`some e` for a call that throws `e`.  `m_line` is the input line the task was
made from. -/
structure ICommand where
  m_line : String
  GetType : CommandType
  Execute : Option Thrown
  deriving DecidableEq, Repr

/-- The task factory as the loop sees it, over the type `σ` of its states:
`GetNextTaskId()` reads the state, and `CreateTask(line)` returns a task or
throws and leaves the factory in a new state. -/
structure TaskFactory (σ : Type) where
  GetNextTaskId : σ → Nat
  CreateTask : σ → String → Except Thrown ICommand × σ

/-- What the loop does, in order: the prompt `<id>: ` written to `std::cout`,
a call of `factory.CreateTask(line)`, a call of `task->Execute()` on the REPL
thread, a call of `taskPool.TryEnqueue(task)`, the line `Error: <what>`
written to `std::cout`, and the call of `taskPool.Shutdown()`. -/
inductive REPLEvent where
  | prompt (id : Nat)
  | createTask (line : String)
  | execute (task : ICommand)
  | tryEnqueue (task : ICommand)
  | error (what : String)
  | shutdown
  deriving DecidableEq, Repr

/-- The state of a run of the loop: the state of the factory, the lines of
`std::cin` not yet read, and the events so far. -/
structure REPLState (σ : Type) where
  factory : σ
  cin : List String
  trace : List REPLEvent

/-- How an iteration of the loop ends: the loop goes on with the next
iteration, the `break` leaves the loop, or an exception that the `catch`
clause does not catch leaves `Go`. -/
inductive REPLControl where
  | next
  | leave
  | propagate (e : Thrown)
  deriving DecidableEq, Repr

namespace REPL

variable {σ : Type}

/-- One more event at the end of the trace. -/
def log (s : REPLState σ) (event : REPLEvent) : REPLState σ :=
  { s with trace := s.trace ++ [event] }

/-- The call `std::getline(std::cin, line)` on a fresh `std::string line`: the
next line, or the empty string once the input is at its end. -/
def getline (s : REPLState σ) : String × REPLState σ :=
  match s.cin with
  | [] => ("", s)
  | line :: rest => (line, { s with cin := rest })

/-- The `try` block of the loop.  `Except.ok true`: the block ran into the
`break`; `Except.ok false`: it ran to its end; `Except.error e`: it threw
`e`. -/
def tryBlock (factory : TaskFactory σ) (s : REPLState σ) :
    REPLState σ × Except Thrown Bool :=
  let s1 := log s (.prompt (factory.GetNextTaskId s.factory))
  let (line, s2) := getline s1
  let (created, state) := factory.CreateTask s2.factory line
  let s3 := log { s2 with factory := state } (.createTask line)
  match created with
  | .error e => (s3, .error e)
  | .ok task =>
    if task.GetType = CommandType.Exit then
      match task.Execute with
      | some e => (log s3 (.execute task), .error e)
      | none => (log s3 (.execute task), .ok true)
    else if task.GetType = CommandType.Asynchronous then
      (log s3 (.tryEnqueue task), .ok false)
    else
      match task.Execute with
      | some e => (log s3 (.execute task), .error e)
      | none => (log s3 (.execute task), .ok false)

/-- The state of the run once the iteration that starts in `s` has called
`CreateTask`: the prompt is written, one line is read and the factory is in
its new state. -/
def afterCreateTask (factory : TaskFactory σ) (s : REPLState σ) : REPLState σ :=
  { factory := (factory.CreateTask s.factory (getline s).1).2
    cin := s.cin.tail
    trace := s.trace ++
      [.prompt (factory.GetNextTaskId s.factory), .createTask (getline s).1] }

/-- What `CreateTask` returns or throws in the iteration that starts in
`s`. -/
def created (factory : TaskFactory σ) (s : REPLState σ) : Except Thrown ICommand :=
  (factory.CreateTask s.factory (getline s).1).1

/-- One iteration of `for (;;)`: the `try` block and the clause
`catch (RecoverableError e)`, which writes the error and lets the loop go
on. -/
def iteration (factory : TaskFactory σ) (s : REPLState σ) : REPLState σ × REPLControl :=
  match tryBlock factory s with
  | (s1, .ok true) => (s1, .leave)
  | (s1, .ok false) => (s1, .next)
  | (s1, .error (.RecoverableError what)) => (log s1 (.error what), .next)
  | (s1, .error (.other what)) => (s1, .propagate (.other what))

/-- The loop `for (;;)`, for at most `fuel` iterations: `none` when the loop
is still running after them, otherwise the state in which the loop was left
and the exception that left it, if any. -/
def loop (factory : TaskFactory σ) :
    Nat → REPLState σ → Option (REPLState σ × Option Thrown)
  | 0, _ => none
  | fuel + 1, s =>
    match iteration factory s with
    | (s1, .next) => loop factory fuel s1
    | (s1, .leave) => some (s1, none)
    | (s1, .propagate e) => some (s1, some e)

/-- The function `REPL::Go` from the point where the index has started: the
loop, and `taskPool.Shutdown()` after it when the loop was left by its
`break`.  An exception that leaves the loop leaves `Go` before the call of
`Shutdown()`. -/
def Go (factory : TaskFactory σ) (fuel : Nat) (s : REPLState σ) :
    Option (REPLState σ × Option Thrown) :=
  match loop factory fuel s with
  | none => none
  | some (s1, none) => some (log s1 .shutdown, none)
  | some (s1, some e) => some (s1, some e)

end REPL

/-- An event of an iteration after which the loop goes on: a task handed to
the pool is `Asynchronous`, a task executed on the REPL thread is not, an
`Exit` task executed has thrown, and the pool is not shut down. -/
def REPLEvent.insideLoop : REPLEvent → Bool
  | .tryEnqueue task => task.GetType = CommandType.Asynchronous
  | .execute task =>
    task.GetType ≠ CommandType.Asynchronous &&
      (task.GetType ≠ CommandType.Exit || task.Execute.isSome)
  | .shutdown => false
  | _ => true

/-- A factory for the examples: its state is the id of the next task; the
line `quit` makes an `Exit` task, a line that starts with `a` an
`Asynchronous` task, the line `fail` a `Synchronous` task whose `Execute()`
throws a `RecoverableError`, the empty line no task but a `RecoverableError`,
and any other line a `Synchronous` task. -/
def exampleFactory : TaskFactory Nat :=
  { GetNextTaskId := fun id => id
    CreateTask := fun id line =>
      if line = "" then
        (.error (.RecoverableError "no command"), id)
      else if line = "quit" then
        (.ok ⟨line, .Exit, none⟩, id + 1)
      else if line = "fail" then
        (.ok ⟨line, .Synchronous, some (.RecoverableError "failed")⟩, id + 1)
      else if line.front = 'a' then
        (.ok ⟨line, .Asynchronous, none⟩, id + 1)
      else
        (.ok ⟨line, .Synchronous, none⟩, id + 1) }

/-- The start of a run of the loop on the given lines of input. -/
def exampleREPL (lines : List String) : REPLState Nat :=
  { factory := 0, cin := lines, trace := [] }

/-! ## The other operations of a document handle

The functions of `DocumentHandle` that go through the DocTable descriptor of
the slice or through `Shard::AssertFact` hand the callee the slice buffer and
the index of the document, never the slice itself.  Neither callee is part of
the sources at hand; each is taken as it is given, as a function of the slice
buffer it is handed. -/

/-- Modelled from the spec: `DocTableDescriptor`, which "holds offsets and
sizes, not owned memory"; its member functions are not part of the sources at
hand and are taken as given: each reads or writes the slice buffer that the
caller passes, at the index of the document. -/
structure DocTableDescriptor where
  GetDocId : SliceBuffer → Nat → Nat
  SetDocId : SliceBuffer → Nat → Nat → SliceBuffer
  AllocateVariableSizeBlob : SliceBuffer → Nat → Nat → Nat → Nat × SliceBuffer
  GetVariableSizeBlob : SliceBuffer → Nat → Nat → Nat
  GetFixedSizeBlob : SliceBuffer → Nat → Nat → Nat

namespace DocumentHandle

/-- The constructor `DocumentHandle(Slice* slice, DocIndex index)`, which is
also what `DocumentHandleInternal(Slice*, DocIndex)` and
`Factories::CreateDocumentHandle` run. -/
def construct (slice : Slice) (index : Nat) : DocumentHandle :=
  { m_slice := slice, m_index := index }

/-- The copy constructor and `DocumentHandleInternal(DocumentHandle const &)`:
the two members are copied. -/
def copy (handle : DocumentHandle) : DocumentHandle :=
  { m_slice := handle.m_slice, m_index := handle.m_index }

/-- The constructor `DocumentHandleInternal(Slice*, DocIndex, DocId)`;
`docTable` is the descriptor that `m_slice->GetDocTable()` returns. -/
def constructWithDocId (docTable : DocTableDescriptor) (slice : Slice) (index id : Nat) :
    DocumentHandle :=
  { m_slice := { slice with m_buffer := docTable.SetDocId slice.GetSliceBuffer index id }
    m_index := index }

/-- The function `DocumentHandle::AllocateVariableSizeBlob(id, byteSize)`: the
pointer returned and the handle after the call. -/
def AllocateVariableSizeBlob (docTable : DocTableDescriptor) (h : DocumentHandle)
    (id byteSize : Nat) : Nat × DocumentHandle :=
  ((docTable.AllocateVariableSizeBlob h.m_slice.GetSliceBuffer h.m_index id byteSize).1,
    { h with m_slice :=
      { h.m_slice with
        m_buffer :=
          (docTable.AllocateVariableSizeBlob h.m_slice.GetSliceBuffer h.m_index id
            byteSize).2 } })

/-- The function `DocumentHandle::GetVariableSizeBlob(id) const`. -/
def GetVariableSizeBlob (docTable : DocTableDescriptor) (h : DocumentHandle) (id : Nat) : Nat :=
  docTable.GetVariableSizeBlob h.m_slice.GetSliceBuffer h.m_index id

/-- The function `DocumentHandle::GetFixedSizeBlob(id) const`. -/
def GetFixedSizeBlob (docTable : DocTableDescriptor) (h : DocumentHandle) (id : Nat) : Nat :=
  docTable.GetFixedSizeBlob h.m_slice.GetSliceBuffer h.m_index id

/-- The function `DocumentHandle::GetDocId() const`. -/
def GetDocId (docTable : DocTableDescriptor) (h : DocumentHandle) : Nat :=
  docTable.GetDocId h.m_slice.GetSliceBuffer h.m_index

/-- The function `DocumentHandle::AssertFact(fact, value)`; `assertFact` is
`Shard::AssertFact(fact, value, index, sliceBuffer)`, which is not part of the
sources at hand, as a function to the slice buffer after the call. -/
def AssertFact (assertFact : Nat → Bool → Nat → SliceBuffer → SliceBuffer)
    (h : DocumentHandle) (fact : Nat) (value : Bool) : DocumentHandle :=
  { h with m_slice :=
      { h.m_slice with
        m_buffer := assertFact fact value h.m_index h.m_slice.GetSliceBuffer } }

/-- The slice at the point of `Expire()` where `ClearBit` has returned and
`ExpireDocument()` is about to be called. -/
def sliceAfterClearBit (h : DocumentHandle) : Slice :=
  { h.m_slice with
    m_buffer :=
      (h.m_slice.GetRowTable h.m_slice.GetShard.GetDocumentActiveRowId.m_rank).ClearBit
        h.m_slice.GetSliceBuffer h.m_slice.GetShard.GetDocumentActiveRowId.m_index
        h.m_index }

/-- The function `DocumentHandle::Expire()` over two of its callees, in the
order of its statements: `ClearBit` on the row of the document-active bit,
then the call that stands for `m_slice->ExpireDocument()`, which is handed the
slice as `ClearBit` has left it, then the test of the value it returned and,
where that value is `true`, the call that stands for
`Slice::DecrementRefCount(m_slice)`. -/
def ExpireWith (expireDocument : Slice → Bool × Slice) (decrementRefCount : Slice → Slice)
    (h : DocumentHandle) : DocumentHandle :=
  let documentActiveRow := h.m_slice.GetShard.GetDocumentActiveRowId
  let rowTable := h.m_slice.GetRowTable documentActiveRow.m_rank
  let slice1 : Slice :=
    { h.m_slice with
      m_buffer := rowTable.ClearBit h.m_slice.GetSliceBuffer documentActiveRow.m_index h.m_index }
  let (isSliceExpired, slice2) := expireDocument slice1
  if isSliceExpired then
    { h with m_slice := decrementRefCount slice2 }
  else
    { h with m_slice := slice2 }

end DocumentHandle

/-- A stand-in for `Slice::ExpireDocument` that records what it finds: it
reads the document-active bit of the document `index` in the slice it is
handed, stores the bit read in the counter of expired documents and returns
`fullyExpired`. -/
def probeExpireDocument (index : Nat) (fullyExpired : Bool) (slice : Slice) : Bool × Slice :=
  (fullyExpired,
    { slice with
      m_expiredCount :=
        (slice.GetRowTable slice.GetShard.GetDocumentActiveRowId.m_rank).GetBit
          slice.GetSliceBuffer slice.GetShard.GetDocumentActiveRowId.m_index index })

/-- The handle of the document 70 of a slice like `exampleSlice` in which
every other document is expired already. -/
def exampleLastHandle : DocumentHandle :=
  { m_slice := { exampleSlice with m_expiredCount := 255 }, m_index := 70 }

/-- A DocTable descriptor for the examples: the DocId of the document `i` is
the word at offset `5000 + i`, and there are no blobs. -/
def exampleDocTable : DocTableDescriptor :=
  { GetDocId := fun buffer index => buffer (5000 + index)
    SetDocId := fun buffer index id => Function.update buffer (5000 + index) id
    AllocateVariableSizeBlob := fun buffer _ _ _ => (0, buffer)
    GetVariableSizeBlob := fun _ _ _ => 0
    GetFixedSizeBlob := fun _ _ _ => 0 }

/-! ## The meaning of match trees and of compiled trees -/

/-- The bitwise complement of a 64-bit word. -/
def complement64 (word : Nat) : Nat :=
  (2 ^ 64 - 1) ^^^ (word % 2 ^ 64)

/-- The 64-bit word that a match tree without `Report` node stands for when
the row `r` holds the word `words r`: `And` is the bitwise and, `Or` the
bitwise or, `Not` the bitwise complement and `Row` the word of the row.
`none` for a tree with a `Report` node. -/
def RowMatchNode.eval (words : AbstractRow → Nat) : RowMatchNode → Option Nat
  | .And left right =>
    match left.eval words, right.eval words with
    | some a, some b => some (a &&& b)
    | _, _ => none
  | .Or left right =>
    match left.eval words, right.eval words with
    | some a, some b => some (a ||| b)
    | _, _ => none
  | .Not child =>
    match child.eval words with
    | some a => some (complement64 a)
    | none => none
  | .Row row => some (words row % 2 ^ 64)
  | .Report _ => none

/-- The 64-bit word that a compiled tree computes when the row `r` holds the
word `words r`, in the words of the specification: `AndTree`, `OrTree` and
`Not` combine bitwise and `LoadRow` loads the word of the row.  `none` for a
tree with a node of another kind. -/
def CompileNode.eval (words : AbstractRow → Nat) : CompileNode → Option Nat
  | .AndTree left right =>
    match left.eval words, right.eval words with
    | some a, some b => some (a &&& b)
    | _, _ => none
  | .OrTree left right =>
    match left.eval words, right.eval words with
    | some a, some b => some (a ||| b)
    | _, _ => none
  | .Not child =>
    match child.eval words with
    | some a => some (complement64 a)
    | none => none
  | .LoadRow row => some (words row % 2 ^ 64)
  | .AndRowJz _ _ => none
  | .RankDown _ _ => none
  | .Report _ => none

/-- The truth value of a plain match tree when the row with index `i` is
true exactly when `assign i` is: a row counts by its index alone. -/
def PlainMatchTree.truth (assign : Nat → Bool) : PlainMatchTree → Bool
  | .And left right => left.truth assign && right.truth assign
  | .Or left right => left.truth assign || right.truth assign
  | .Not child => !child.truth assign
  | .Row row => assign row.m_rowIndex

/-- The truth value of a match tree when the row with index `i` is true
exactly when `assign i` is: `Report` over a child is read as the child and an
empty `Report` as true. -/
def RowMatchNode.truth (assign : Nat → Bool) : RowMatchNode → Bool
  | .And left right => left.truth assign && right.truth assign
  | .Or left right => left.truth assign || right.truth assign
  | .Not child => !child.truth assign
  | .Report none => true
  | .Report (some child) => child.truth assign
  | .Row row => assign row.m_rowIndex

/-- The truth value of the conjunction of the conjuncts that a partition
holds. -/
def MatchTreeRewriter.Partition.truth (assign : Nat → Bool)
    (p : MatchTreeRewriter.Partition) : Bool :=
  p.m_rows.all (fun row => assign row.m_rowIndex) &&
    (p.m_ors.all (fun pair => pair.1.truth assign || pair.2.truth assign) &&
      p.m_nots.all (fun child => !child.truth assign))

/-! ## The rank-down compiler

Of `RankDownCompiler` only the declaration (`src/Plan/src/RankDownCompiler.h`)
is part of the sources at hand: `Compile(root)`, `CreateTree(initialRank)`,
`CompileInternal(root, leftMostChild)` and the members `m_currentRank` and
`m_accumulator`.  What the compiler does is modelled from section 4.H/I/J of
the specification, item 4: it "walks the rewritten tree from root,
maintaining `currentRank`"; "at each row it meets whose rank is less than
`currentRank`, it inserts a `RankDown` node to transition down one rank at a
time"; it "accumulates conjunctive children into a left-leaning `AndRowJz`
chain"; at an `Or` node it "compiles each child independently and picks the
maximum of their required initial ranks", and `CreateTree(initialRank)` "then
wraps with the appropriate `RankDown`s"; and "once `currentRank` reaches 0,
all further nodes compile via a straight structural translation" (item 5).

The text format of a match tree lists the children of an `And` node one after
the other and does not show how the binary `And` nodes are nested.  The walk
goes through the children in the order of the text format, whatever the
nesting. -/

/-- The rows at the leaves of a match tree, those below its `Report` nodes
included, from left to right. -/
def RowMatchNode.allRows : RowMatchNode → List AbstractRow
  | .And left right => left.allRows ++ right.allRows
  | .Not child => child.allRows
  | .Or left right => left.allRows ++ right.allRows
  | .Report none => []
  | .Report (some child) => child.allRows
  | .Row row => [row]

/-- The nodes of a match tree, each as the subtree below it: the node itself,
then the nodes of its children from left to right. -/
def RowMatchNode.subtrees : RowMatchNode → List RowMatchNode
  | .And left right => .And left right :: (left.subtrees ++ right.subtrees)
  | .Not child => .Not child :: child.subtrees
  | .Or left right => .Or left right :: (left.subtrees ++ right.subtrees)
  | .Report none => [.Report none]
  | .Report (some child) => .Report (some child) :: child.subtrees
  | .Row row => [.Row row]

/-- The conjunction of two trees as one chain: the conjuncts of the first
tree, in the order of the text format and whatever their nesting, in front of
the second tree. -/
def RowMatchNode.andOnto : RowMatchNode → RowMatchNode → RowMatchNode
  | .And left right, rest => left.andOnto (right.andOnto rest)
  | node, rest => .And node rest

/-- The tree with every conjunction on the way of the walk as a chain: the
children that the text format lists for an `And` node follow one another, each
as the left child of an `And` node whose right child holds the children after
it.  The children of an `Or` node are chained in the same way; a subtree
below a `Not` node, below a `Report` node or in front of the last child of a
conjunction is left as it is. -/
def RowMatchNode.chained : RowMatchNode → RowMatchNode
  | .And left right => left.andOnto right.chained
  | .Or left right => .Or left.chained right.chained
  | node => node

namespace RankDownCompiler

/-- Modelled from the spec: the `RankDown` nodes inserted in front of `node`
to go down by `steps` ranks to `rank`, "one rank at a time (never skipping)":
one node for each rank on the way, with that rank as `newRank`. -/
def rankDownSteps (rank : Nat) : Nat → CompileNode → CompileNode
  | 0, node => node
  | steps + 1, node => CompileNode.RankDown (rank + steps) (rankDownSteps rank steps node)

/-- Modelled from the spec: the `RankDown` nodes that take the matcher from
`currentRank` down to `rank` in front of `node`; none when `rank` is not
below `currentRank`. -/
def rankDown (currentRank rank : Nat) (node : CompileNode) : CompileNode :=
  rankDownSteps rank (currentRank - rank) node

/-- Modelled from the spec: the "required initial rank" of a subtree, the
value of `m_currentRank` when `Compile` has run on it: the highest rank of a
row of the subtree (for an `Or` node "the maximum of their required initial
ranks"), and 0 for a subtree without a row. -/
def requiredRank (node : RowMatchNode) : Nat :=
  (node.allRows.map fun row => row.m_rank).foldr max 0

/-- Modelled from the spec: the walk of the compiler over a chained subtree
that it enters at the rank `currentRank`.  It returns the compiled tree and
the nodes that it has entered, each with the value of `currentRank` at the
entry, in the order of the walk.  A row is met at the current rank, comes
after the `RankDown` nodes that lead to its rank and is and-ed into the
`AndRowJz` chain, and the walk goes on behind it at the rank of the row; the
children of an `Or` node are compiled each on its own and entered at the
maximum of their required ranks; a conjunct that is not a row, the child of a
`Not` node and the child of a `Report` node are translated by the rank-zero
compiler, and every node of them is entered at rank 0.  `Except.error` is the
abort of the rank-zero compiler. -/
def CompileInternal (currentRank : Nat) :
    RowMatchNode → Except String (CompileNode × List (Nat × RowMatchNode))
  | .And (.Row row) right =>
    match CompileInternal (min currentRank row.m_rank) right with
    | .ok (next, entered) =>
      .ok (rankDown currentRank row.m_rank (CompileNode.AndRowJz row next),
        (currentRank, .And (.Row row) right) :: (currentRank, .Row row) :: entered)
    | .error e => .error e
  | .And left right =>
    match RankZeroCompiler.Compile left, CompileInternal 0 right with
    | .ok l, .ok (r, entered) =>
      .ok (rankDown currentRank 0 (CompileNode.AndTree l r),
        (currentRank, .And left right) ::
          (left.subtrees.map (fun node => (0, node)) ++ entered))
    | .error e, _ => .error e
    | .ok _, .error e => .error e
  | .Or left right =>
    match CompileInternal (max (requiredRank left) (requiredRank right)) left,
        CompileInternal (max (requiredRank left) (requiredRank right)) right with
    | .ok (l, enteredLeft), .ok (r, enteredRight) =>
      .ok (rankDown currentRank (max (requiredRank left) (requiredRank right))
          (CompileNode.OrTree l r),
        (currentRank, .Or left right) :: (enteredLeft ++ enteredRight))
    | .error e, _ => .error e
    | .ok _, .error e => .error e
  | .Not child =>
    match RankZeroCompiler.Compile (.Not child) with
    | .ok c =>
      .ok (rankDown currentRank 0 c,
        (currentRank, .Not child) :: child.subtrees.map (fun node => (0, node)))
    | .error e => .error e
  | .Report none =>
    .ok (rankDown currentRank 0 (CompileNode.Report none), [(currentRank, .Report none)])
  | .Report (some child) =>
    match RankZeroCompiler.Compile child with
    | .ok c =>
      .ok (rankDown currentRank 0 (CompileNode.Report (some c)),
        (currentRank, .Report (some child)) :: child.subtrees.map (fun node => (0, node)))
    | .error e => .error e
  | .Row row =>
    .ok (rankDown currentRank row.m_rank (CompileNode.LoadRow row), [(currentRank, .Row row)])

/-- Modelled from the spec: `Compile(root)` followed by
`CreateTree(initialRank)`: the walk over the tree, its conjunctions taken as
chains, entered at the rank `initialRank`. -/
def Compile (initialRank : Nat) (root : RowMatchNode) :
    Except String (CompileNode × List (Nat × RowMatchNode)) :=
  CompileInternal initialRank root.chained

end RankDownCompiler

/-- A compiled tree that is entered at the rank `currentRank` goes down rank
by rank: every `RankDown` node lowers the rank by exactly one, its `newRank`
being one below the rank at which it is entered; every row is read at the
rank of the row, by `AndRowJz` as by `LoadRow`; and every `Report` node is
entered at rank 0.  The two sides of a tree node are entered at the rank of
the node. -/
def CompileNode.descendsByOne (currentRank : Nat) : CompileNode → Bool
  | .AndRowJz row next =>
    decide (row.m_rank = currentRank) && next.descendsByOne currentRank
  | .AndTree left right =>
    left.descendsByOne currentRank && right.descendsByOne currentRank
  | .LoadRow row => decide (row.m_rank = currentRank)
  | .Not child => child.descendsByOne currentRank
  | .OrTree left right =>
    left.descendsByOne currentRank && right.descendsByOne currentRank
  | .RankDown newRank child =>
    decide (currentRank = newRank + 1) && child.descendsByOne newRank
  | .Report none => decide (currentRank = 0)
  | .Report (some child) => decide (currentRank = 0) && child.descendsByOne currentRank

/-- The number of `RankDown` nodes of a compiled tree. -/
def CompileNode.rankDownCount : CompileNode → Nat
  | .AndRowJz _ next => next.rankDownCount
  | .AndTree left right => left.rankDownCount + right.rankDownCount
  | .LoadRow _ => 0
  | .Not child => child.rankDownCount
  | .OrTree left right => left.rankDownCount + right.rankDownCount
  | .RankDown _ child => child.rankDownCount + 1
  | .Report none => 0
  | .Report (some child) => child.rankDownCount

/-- The ranks of a match tree descend the way the walk of the rank-down
compiler needs them: no row after a row of an `And` chain has a higher rank
than it, and the rows from a conjunct that is not a row onwards, below a
`Not` node and below a `Report` node all have rank 0; and the subtrees handed
to the rank-zero compiler hold no `Report` node. -/
def RowMatchNode.ranksDescend : RowMatchNode → Bool
  | .And (.Row row) right =>
    right.allRows.all (fun r => decide (r.m_rank ≤ row.m_rank)) && right.ranksDescend
  | .And left right =>
    !left.containsReport && left.allRows.all (fun r => decide (r.m_rank = 0)) &&
      right.allRows.all (fun r => decide (r.m_rank = 0)) && right.ranksDescend
  | .Or left right => left.ranksDescend && right.ranksDescend
  | .Not child => !child.containsReport && child.allRows.all (fun r => decide (r.m_rank = 0))
  | .Report none => true
  | .Report (some child) =>
    !child.containsReport && child.allRows.all (fun r => decide (r.m_rank = 0))
  | .Row _ => true


/-- The output of the fixture of four rows with its `And` nodes nested to the
left: the same children in the text format, `And [Row 3, Row 2, Row 1, Row 0,
Report]`. -/
def fourRowsLeftNested : RowMatchNode :=
  .And (.And (.And (.And (.Row ⟨3, 6, 0, false⟩) (.Row ⟨2, 6, 0, false⟩))
    (.Row ⟨1, 3, 0, false⟩)) (.Row ⟨0, 0, 0, false⟩)) (.Report none)

/-! ## Readings for the bound on the branches -/

/-- The number of `Or` nodes of a tree outside its `Not` subtrees. -/
def PlainMatchTree.orCount : PlainMatchTree → Nat
  | .And left right => left.orCount + right.orCount
  | .Or left right => 1 + left.orCount + right.orCount
  | .Not _ => 0
  | .Row _ => 0

/-- The number of `Or` nodes, outside `Not` subtrees, of the `Or` nodes that
are pending in a partition. -/
def MatchTreeRewriter.orsCount : List (PlainMatchTree × PlainMatchTree) → Nat
  | [] => 0
  | pair :: rest => 1 + pair.1.orCount + pair.2.orCount + orsCount rest

/-- An input whose `Or` node has an `Or` node as its left child: the rows 1
and 2, or else the row 3, all of rank 0. -/
def nestedOrInput : PlainMatchTree :=
  .Or (.Or (.Row ⟨1, 0, 0, false⟩) (.Row ⟨2, 0, 0, false⟩)) (.Row ⟨3, 0, 0, false⟩)

/-- The tree that the model of the rewriter returns for `nestedOrInput` with
the target count 1: three branches, each of them fully multiplied out. -/
def nestedOrOutput : RowMatchNode :=
  .Or (.And (.Row ⟨1, 0, 0, false⟩) (.Report none))
    (.Or (.And (.Row ⟨2, 0, 0, false⟩) (.Report none))
      (.And (.Row ⟨3, 0, 0, false⟩) (.Report none)))

namespace BlockingQueue

variable {T : Type}

/-- `TryEnqueue` waits exactly when the queue is at capacity and not shut
down. -/
theorem TryEnqueue_waits_iff (q : BlockingQueue T) (value : T) :
    q.TryEnqueue value = none ↔ (q.m_capacity ≤ q.m_queue.length ∧ q.m_shutdown = false) := by
  unfold TryEnqueue
  cases hs : q.m_shutdown <;> by_cases hc : q.m_capacity ≤ q.m_queue.length <;> simp [hc]

/-- `TryDequeue` waits exactly when the queue is empty and not shut down; in
particular the branch that would read `front()` of an empty deque is dead. -/
theorem TryDequeue_waits_iff (q : BlockingQueue T) (value : T) :
    q.TryDequeue value = none ↔ (q.m_queue = [] ∧ q.m_shutdown = false) := by
  unfold TryDequeue
  rcases q with ⟨c, f, s, l⟩
  cases s <;> cases l <;> simp
  all_goals split <;> simp

/-- What a returning `TryEnqueue` returns. -/
theorem TryEnqueue_eq_some (q : BlockingQueue T) (value : T) (b : Bool)
    (q1 : BlockingQueue T) (h : q.TryEnqueue value = some (b, q1)) :
    (b = false ∧ q.m_shutdown = true ∧ q1 = q) ∨
      (b = true ∧ q.m_shutdown = false ∧ q.m_queue.length < q.m_capacity ∧
        q1 = { q with m_queue := q.m_queue ++ [value] }) := by
  unfold TryEnqueue at h
  cases hs : q.m_shutdown <;> by_cases hc : q.m_capacity ≤ q.m_queue.length <;>
    simp [hs, hc] at h
  · right
    obtain ⟨hb, hq⟩ := h
    subst hb hq
    exact ⟨rfl, rfl, by omega, rfl⟩
  · left
    obtain ⟨hb, hq⟩ := h
    subst hb hq
    exact ⟨rfl, rfl, rfl⟩
  · left
    obtain ⟨hb, hq⟩ := h
    subst hb hq
    exact ⟨rfl, rfl, rfl⟩

/-- What a returning `TryDequeue` returns. -/
theorem TryDequeue_eq_some (q : BlockingQueue T) (value : T) (b : Bool) (v : T)
    (q1 : BlockingQueue T) (h : q.TryDequeue value = some (b, v, q1)) :
    (b = false ∧ v = value ∧ q.m_shutdown = true ∧ q.m_queue = [] ∧
        q1 = { q with m_finished := true }) ∨
      (b = true ∧ q.m_queue = v :: q1.m_queue ∧ q1.m_shutdown = q.m_shutdown ∧
        q1.m_capacity = q.m_capacity ∧
        q1.m_finished = (q.m_finished || (q.m_shutdown && q1.m_queue.isEmpty))) := by
  unfold TryDequeue at h
  rcases q with ⟨c, f, s, l⟩
  cases s <;> cases l <;> simp at h
  · right
    obtain ⟨hb, hv, hq⟩ := h
    subst hb hv hq
    simp
  · left
    obtain ⟨hb, hv, hq⟩ := h
    subst hb hv hq
    simp
  · right
    split at h <;> simp at h <;> obtain ⟨hb, hv, hq⟩ := h <;> subst hb hv hq <;> simp_all

end BlockingQueue

namespace QueueRun

variable {T : Type}

/-- A freshly constructed queue satisfies the invariant. -/
theorem inv_start (capacity : Nat) : (start capacity : QueueRun T).Inv := by
  simp [Inv, start, BlockingQueue.construct]

/-- Every step keeps the invariant. -/
theorem inv_step (r : QueueRun T) (op : QueueOp T) (h : r.Inv) : (r.step op).Inv := by
  obtain ⟨hacc, hfin⟩ := h
  cases op with
  | enqueue v =>
    simp only [step]
    cases he : r.queue.TryEnqueue v with
    | none => exact ⟨hacc, hfin⟩
    | some res =>
      obtain ⟨b, q1⟩ := res
      rcases BlockingQueue.TryEnqueue_eq_some _ _ _ _ he with ⟨hb, _, hq⟩ | ⟨hb, hs, _, hq⟩
      · subst hb hq
        exact ⟨hacc, hfin⟩
      · subst hb hq
        refine ⟨by simp [hacc], ?_⟩
        intro hf
        have := (hfin hf).1
        simp [hs] at this
  | dequeue value =>
    simp only [step]
    cases hd : r.queue.TryDequeue value with
    | none => exact ⟨hacc, hfin⟩
    | some res =>
      obtain ⟨b, x, q1⟩ := res
      rcases BlockingQueue.TryDequeue_eq_some _ _ _ _ _ hd with
        ⟨hb, _, hs, hq, hq1⟩ | ⟨hb, hq, hs, _, hf1⟩
      · subst hb hq1
        exact ⟨hacc, fun _ => ⟨hs, hq⟩⟩
      · subst hb
        refine ⟨by simp [hacc, hq], ?_⟩
        intro hf
        simp only at hf
        rw [hf1] at hf
        simp only [hs]
        cases hfq : r.queue.m_finished with
        | true =>
          have := (hfin hfq).2
          simp [hq] at this
        | false =>
          simp [hfq] at hf
          exact ⟨hf.1, by simpa using hf.2⟩
  | shutdown =>
    simp only [step, BlockingQueue.Shutdown]
    cases hl : r.queue.m_queue with
    | nil => simp [Inv, hacc, hl]
    | cons a l =>
      refine ⟨by simp [hacc, hl], ?_⟩
      intro hf
      have := (hfin (by simpa using hf)).2
      simp [hl] at this

/-- Every run keeps the invariant. -/
theorem inv_run (ops : List (QueueOp T)) (r : QueueRun T) (h : r.Inv) : (r.run ops).Inv := by
  induction ops generalizing r with
  | nil => exact h
  | cons op ops ih => exact ih (r.step op) (inv_step r op h)

/-- Once the queue is shut down, a step keeps it shut down, does not lengthen
it and accepts nothing. -/
theorem step_after_shutdown (r : QueueRun T) (op : QueueOp T)
    (h : r.queue.m_shutdown = true) :
    (r.step op).queue.m_shutdown = true ∧
      (r.step op).queue.m_queue.length ≤ r.queue.m_queue.length ∧
      (r.step op).accepted = r.accepted := by
  cases op with
  | enqueue v =>
    simp only [step]
    cases he : r.queue.TryEnqueue v with
    | none => exact ⟨h, le_refl _, rfl⟩
    | some res =>
      obtain ⟨b, q1⟩ := res
      rcases BlockingQueue.TryEnqueue_eq_some _ _ _ _ he with ⟨hb, _, hq⟩ | ⟨hb, hs, _, hq⟩
      · subst hb hq
        exact ⟨h, le_refl _, rfl⟩
      · rw [h] at hs
        cases hs
  | dequeue value =>
    simp only [step]
    cases hd : r.queue.TryDequeue value with
    | none => exact ⟨h, le_refl _, rfl⟩
    | some res =>
      obtain ⟨b, x, q1⟩ := res
      rcases BlockingQueue.TryDequeue_eq_some _ _ _ _ _ hd with
        ⟨hb, _, hs, hq, hq1⟩ | ⟨hb, hq, hs, _, hf1⟩
      · subst hb hq1
        exact ⟨h, le_refl _, rfl⟩
      · subst hb
        exact ⟨by simp [hs, h], by simp [hq], rfl⟩
  | shutdown =>
    simp only [step, BlockingQueue.Shutdown]
    cases hl : r.queue.m_queue <;> simp

/-- A finished queue that is shut down and empty is left as it is by every
step. -/
theorem step_finished (r : QueueRun T) (op : QueueOp T) (hf : r.queue.m_finished = true)
    (hs : r.queue.m_shutdown = true) (hq : r.queue.m_queue = []) :
    (r.step op).queue = r.queue := by
  rcases r with ⟨⟨c, f, s, l⟩, acc, del⟩
  simp only at hf hs hq
  subst hf hs hq
  cases op <;> simp [step, BlockingQueue.TryEnqueue, BlockingQueue.TryDequeue,
    BlockingQueue.Shutdown]

/-- A finished queue that is shut down and empty is left as it is by every
run. -/
theorem run_finished (ops : List (QueueOp T)) (r : QueueRun T)
    (hf : r.queue.m_finished = true) (hs : r.queue.m_shutdown = true)
    (hq : r.queue.m_queue = []) :
    (r.run ops).queue = r.queue := by
  induction ops generalizing r with
  | nil => rfl
  | cons op ops ih =>
    have h1 := step_finished r op hf hs hq
    have := ih (r.step op) (by rw [h1]; exact hf) (by rw [h1]; exact hs) (by rw [h1]; exact hq)
    simpa [run, h1] using this

end QueueRun

/-! ### The contracts of the calls -/

/-- C1: `TryDequeue` returns (rather than waits) unless the queue is empty and
not shut down; when it returns, the flag is `false` exactly when the queue was
shut down and empty, in which case the caller's variable is left alone; and
when the flag is `true` the value handed back is the former front of the
queue, the queue after the call being the former queue without it.  So a
queue that is shut down but not empty still yields its items. -/
theorem TryDequeue_false_iff_shutdown_and_empty {T : Type} (q : BlockingQueue T)
    (value : T) :
    (q.TryDequeue value = none ↔ (q.m_queue = [] ∧ q.m_shutdown = false)) ∧
    ∀ (b : Bool) (v : T) (q1 : BlockingQueue T),
      q.TryDequeue value = some (b, v, q1) →
        (b = false ↔ (q.m_shutdown = true ∧ q.m_queue = [])) ∧
        (b = false → v = value ∧ q1.m_queue = q.m_queue) ∧
        (b = true → q.m_queue = v :: q1.m_queue) := by
  refine ⟨BlockingQueue.TryDequeue_waits_iff q value, ?_⟩
  intro b v q1 h
  rcases BlockingQueue.TryDequeue_eq_some q value b v q1 h with
    ⟨hb, hv, hs, hq, hq1⟩ | ⟨hb, hq, _, _, _⟩
  · subst hb hq1
    exact ⟨⟨fun _ => ⟨hs, hq⟩, fun _ => rfl⟩, fun _ => ⟨hv, rfl⟩, fun hc => by cases hc⟩
  · subst hb
    refine ⟨⟨fun hc => (by cases hc), fun hc => ?_⟩, fun hc => (by cases hc), fun _ => hq⟩
    rw [hc.2] at hq
    cases hq

/-- C1, at a queue that is shut down and still holds 7 and 8: the call
returns `true` with 7 and leaves 8 queued. -/
theorem TryDequeue_false_iff_shutdown_and_empty_witness :
    (BlockingQueue.mk 1 false true [7, 8]).TryDequeue 0
        = some (true, 7, BlockingQueue.mk 1 false true [8]) ∧
      ((true = false ↔
          ((BlockingQueue.mk 1 false true [7, 8]).m_shutdown = true ∧
            (BlockingQueue.mk 1 false true [7, 8]).m_queue = [])) ∧
        (true = false → 7 = 0 ∧
          (BlockingQueue.mk 1 false true [8]).m_queue
            = (BlockingQueue.mk 1 false true [7, 8]).m_queue) ∧
        (true = true →
          (BlockingQueue.mk 1 false true [7, 8]).m_queue
            = 7 :: (BlockingQueue.mk 1 false true [8]).m_queue)) :=
  ⟨by decide,
    (TryDequeue_false_iff_shutdown_and_empty (BlockingQueue.mk 1 false true [7, 8]) 0).2
      true 7 (BlockingQueue.mk 1 false true [8]) (by decide)⟩

/-- C2: `TryEnqueue` returns (rather than waits) unless the queue is at
capacity and not shut down; when it returns, the flag is `false` exactly when
the queue was shut down, so never because of the capacity alone; and when the
flag is `true` the queue after the call is the former queue with the value at
its back. -/
theorem TryEnqueue_false_iff_shutdown {T : Type} (q : BlockingQueue T) (value : T) :
    (q.TryEnqueue value = none ↔ (q.m_capacity ≤ q.m_queue.length ∧ q.m_shutdown = false)) ∧
    ∀ (b : Bool) (q1 : BlockingQueue T),
      q.TryEnqueue value = some (b, q1) →
        (b = false ↔ q.m_shutdown = true) ∧
        (b = false → q1 = q) ∧
        (b = true → q1.m_queue = q.m_queue ++ [value]) := by
  refine ⟨BlockingQueue.TryEnqueue_waits_iff q value, ?_⟩
  intro b q1 h
  rcases BlockingQueue.TryEnqueue_eq_some q value b q1 h with ⟨hb, hs, hq⟩ | ⟨hb, hs, _, hq⟩
  · subst hb hq
    exact ⟨⟨fun _ => hs, fun _ => rfl⟩, fun _ => rfl, fun hc => by cases hc⟩
  · subst hb hq
    refine ⟨⟨fun hc => (by cases hc), fun hc => ?_⟩, fun hc => (by cases hc), fun _ => rfl⟩
    rw [hs] at hc
    cases hc

/-- C2, at a queue of capacity 2 that holds 7: the call returns `true` and 8
is at the back afterwards. -/
theorem TryEnqueue_false_iff_shutdown_witness :
    (BlockingQueue.mk 2 false false [7]).TryEnqueue 8
        = some (true, BlockingQueue.mk 2 false false [7, 8]) ∧
      ((true = false ↔ (BlockingQueue.mk 2 false false [7]).m_shutdown = true) ∧
        (true = false →
          BlockingQueue.mk 2 false false [7, 8] = BlockingQueue.mk 2 false false [7]) ∧
        (true = true →
          (BlockingQueue.mk 2 false false [7, 8]).m_queue
            = (BlockingQueue.mk 2 false false [7]).m_queue ++ [8])) :=
  ⟨by decide,
    (TryEnqueue_false_iff_shutdown (BlockingQueue.mk 2 false false [7]) 8).2
      true (BlockingQueue.mk 2 false false [7, 8]) (by decide)⟩

/-- C3: after every sequence of atomic `TryEnqueue`, `TryDequeue` and
`Shutdown` steps on a freshly constructed queue, the values delivered by the
successful dequeues are, in order, an initial segment of the values accepted
by the successful enqueues, and the two sequences are equal whenever the
queue is shut down and finished. -/
theorem delivered_is_initial_segment_of_accepted {T : Type} (capacity : Nat)
    (ops : List (QueueOp T)) :
    ((QueueRun.start capacity).run ops).delivered
        <+: ((QueueRun.start capacity).run ops).accepted ∧
      (((QueueRun.start capacity).run ops).queue.m_shutdown = true ∧
          ((QueueRun.start capacity).run ops).queue.m_finished = true →
        ((QueueRun.start capacity).run ops).delivered
          = ((QueueRun.start capacity).run ops).accepted) := by
  obtain ⟨hacc, hfin⟩ := QueueRun.inv_run ops _ (QueueRun.inv_start (T := T) capacity)
  refine ⟨⟨_, hacc.symm⟩, ?_⟩
  intro h
  rw [hacc, (hfin h.2).2, List.append_nil]

/-- C3, at a queue of capacity 1: two enqueues (the second waits), a dequeue,
the second enqueue again, shutdown, a dequeue and one more dequeue. -/
theorem delivered_is_initial_segment_of_accepted_witness :
    ((QueueRun.start 1).run
        [QueueOp.enqueue 7, QueueOp.enqueue 8, QueueOp.dequeue 0, QueueOp.enqueue 8,
          QueueOp.shutdown, QueueOp.dequeue 0, QueueOp.dequeue 0]).delivered = [7, 8] ∧
      (((QueueRun.start 1).run
          [QueueOp.enqueue 7, QueueOp.enqueue 8, QueueOp.dequeue 0, QueueOp.enqueue 8,
            QueueOp.shutdown, QueueOp.dequeue 0, QueueOp.dequeue 0]).queue.m_shutdown = true ∧
        ((QueueRun.start 1).run
          [QueueOp.enqueue 7, QueueOp.enqueue 8, QueueOp.dequeue 0, QueueOp.enqueue 8,
            QueueOp.shutdown, QueueOp.dequeue 0, QueueOp.dequeue 0]).queue.m_finished = true) ∧
      ((QueueRun.start 1).run
        [QueueOp.enqueue 7, QueueOp.enqueue 8, QueueOp.dequeue 0, QueueOp.enqueue 8,
          QueueOp.shutdown, QueueOp.dequeue 0, QueueOp.dequeue 0]).delivered
        = ((QueueRun.start 1).run
        [QueueOp.enqueue 7, QueueOp.enqueue 8, QueueOp.dequeue 0, QueueOp.enqueue 8,
          QueueOp.shutdown, QueueOp.dequeue 0, QueueOp.dequeue 0]).accepted :=
  ⟨by decide, by decide,
    (delivered_is_initial_segment_of_accepted 1
      [QueueOp.enqueue 7, QueueOp.enqueue 8, QueueOp.dequeue 0, QueueOp.enqueue 8,
        QueueOp.shutdown, QueueOp.dequeue 0, QueueOp.dequeue 0]).2 (by decide)⟩

/-- C4: in every state that a run from a freshly constructed queue reaches and
in which `m_finished` is true (the states in which `Shutdown` returns),
`m_shutdown` is true and the queue is empty; and whatever steps follow, the
queue stays in that very state, in which `TryEnqueue` returns `false` and
`TryDequeue` returns `false` without touching the caller's variable. -/
theorem finished_queue_refuses_all_calls {T : Type} (capacity : Nat)
    (ops later : List (QueueOp T))
    (hfinished : ((QueueRun.start capacity).run ops).queue.m_finished = true) :
    ((QueueRun.start capacity).run ops).queue.ShutdownReturns = true ∧
      ((QueueRun.start capacity).run ops).queue.m_shutdown = true ∧
      ((QueueRun.start capacity).run ops).queue.m_queue = [] ∧
      (((QueueRun.start capacity).run ops).run later).queue
        = ((QueueRun.start capacity).run ops).queue ∧
      (∀ v : T, (((QueueRun.start capacity).run ops).run later).queue.TryEnqueue v
        = some (false, (((QueueRun.start capacity).run ops).run later).queue)) ∧
      (∀ value : T, (((QueueRun.start capacity).run ops).run later).queue.TryDequeue value
        = some (false, value, (((QueueRun.start capacity).run ops).run later).queue)) := by
  obtain ⟨_, hfin⟩ := QueueRun.inv_run ops _ (QueueRun.inv_start (T := T) capacity)
  obtain ⟨hs, hq⟩ := hfin hfinished
  have hsame := QueueRun.run_finished later _ hfinished hs hq
  refine ⟨hfinished, hs, hq, hsame, ?_, ?_⟩
  · intro v
    rw [hsame]
    generalize ((QueueRun.start capacity).run ops).queue = q at hfinished hs hq
    rcases q with ⟨c, f, s, l⟩
    simp only at hfinished hs hq
    subst hfinished hs hq
    simp [BlockingQueue.TryEnqueue]
  · intro value
    rw [hsame]
    generalize ((QueueRun.start capacity).run ops).queue = q at hfinished hs hq
    rcases q with ⟨c, f, s, l⟩
    simp only at hfinished hs hq
    subst hfinished hs hq
    simp [BlockingQueue.TryDequeue]

/-- C4, at a queue of capacity 2: 7 is enqueued, the queue is shut down and 7
is dequeued, which finishes the queue; an enqueue, a dequeue and a second
shutdown follow. -/
theorem finished_queue_refuses_all_calls_witness :
    ((QueueRun.start 2).run
        [QueueOp.enqueue 7, QueueOp.shutdown, QueueOp.dequeue 0]).queue
        = BlockingQueue.mk 2 true true [] ∧
      (((QueueRun.start 2).run [QueueOp.enqueue 7, QueueOp.shutdown, QueueOp.dequeue 0]).run
          [QueueOp.enqueue 8, QueueOp.dequeue 0, QueueOp.shutdown]).queue.TryEnqueue 9
        = some (false,
          (((QueueRun.start 2).run [QueueOp.enqueue 7, QueueOp.shutdown, QueueOp.dequeue 0]).run
            [QueueOp.enqueue 8, QueueOp.dequeue 0, QueueOp.shutdown]).queue) :=
  ⟨by decide,
    (finished_queue_refuses_all_calls 2
      [QueueOp.enqueue 7, QueueOp.shutdown, QueueOp.dequeue 0]
      [QueueOp.enqueue 8, QueueOp.dequeue 0, QueueOp.shutdown] (by decide)).2.2.2.2.1 9⟩

/-- C5: from a state in which `m_shutdown` is set, no sequence of
`TryEnqueue`, `TryDequeue` and `Shutdown` steps lengthens the queue, unsets
the flag or accepts a value; in particular an empty queue stays empty. -/
theorem queue_never_grows_after_shutdown {T : Type} (r : QueueRun T)
    (ops : List (QueueOp T)) (hshutdown : r.queue.m_shutdown = true) :
    (r.run ops).queue.m_shutdown = true ∧
      (r.run ops).queue.m_queue.length ≤ r.queue.m_queue.length ∧
      (r.queue.m_queue = [] → (r.run ops).queue.m_queue = []) ∧
      (r.run ops).accepted = r.accepted := by
  have key : (r.run ops).queue.m_shutdown = true ∧
      (r.run ops).queue.m_queue.length ≤ r.queue.m_queue.length ∧
      (r.run ops).accepted = r.accepted := by
    induction ops generalizing r with
    | nil => exact ⟨hshutdown, le_refl _, rfl⟩
    | cons op ops ih =>
      obtain ⟨h1, h2, h5⟩ := QueueRun.step_after_shutdown r op hshutdown
      obtain ⟨h3, h4, h6⟩ := ih (r.step op) h1
      exact ⟨h3, le_trans h4 h2, h6.trans h5⟩
  refine ⟨key.1, key.2.1, fun hempty => ?_, key.2.2⟩
  have hlen := key.2.1
  rw [hempty] at hlen
  exact List.eq_nil_of_length_eq_zero (Nat.le_zero.mp hlen)

/-- C5, at a queue of capacity 3 that is shut down while it holds 7: an
enqueue, a dequeue, another enqueue and a shutdown follow, and the queue,
empty after the dequeue, is empty at the end. -/
theorem queue_never_grows_after_shutdown_witness :
    (QueueRun.mk (BlockingQueue.mk 3 false true [7]) [7] []).queue.m_shutdown = true ∧
      ((QueueRun.mk (BlockingQueue.mk 3 false true [7]) [7] []).run
        [QueueOp.enqueue 8, QueueOp.dequeue 0, QueueOp.enqueue 9,
          QueueOp.shutdown]).queue.m_queue.length
        ≤ (QueueRun.mk (BlockingQueue.mk 3 false true [7]) [7] []).queue.m_queue.length ∧
      ((QueueRun.mk (BlockingQueue.mk 3 false true [7]) [7] []).run
        [QueueOp.enqueue 8, QueueOp.dequeue 0, QueueOp.enqueue 9,
          QueueOp.shutdown]).queue.m_queue = [] :=
  ⟨by decide,
    (queue_never_grows_after_shutdown
      (QueueRun.mk (BlockingQueue.mk 3 false true [7]) [7] [])
      [QueueOp.enqueue 8, QueueOp.dequeue 0, QueueOp.enqueue 9, QueueOp.shutdown]
      (by decide)).2.1,
    by decide⟩

/-! ## Properties of the rank-zero compiler -/

namespace RankZeroCompiler

/-- On the tree of a plain match tree, `Compile` returns the structural
translation. -/
theorem Compile_toRowMatchNode (t : PlainMatchTree) :
    Compile t.toRowMatchNode = Except.ok t.structuralTranslation := by
  induction t with
  | And left right ihl ihr =>
    simp [PlainMatchTree.toRowMatchNode, PlainMatchTree.structuralTranslation, Compile, ihl, ihr]
  | Or left right ihl ihr =>
    simp [PlainMatchTree.toRowMatchNode, PlainMatchTree.structuralTranslation, Compile, ihl, ihr]
  | Not child ih =>
    simp [PlainMatchTree.toRowMatchNode, PlainMatchTree.structuralTranslation, Compile, ih]
  | Row row =>
    simp [PlainMatchTree.toRowMatchNode, PlainMatchTree.structuralTranslation, Compile]

/-- A tree without a `Report` node is the tree of a plain match tree. -/
theorem exists_plain_of_containsReport_eq_false :
    ∀ n : RowMatchNode, n.containsReport = false → ∃ t : PlainMatchTree, t.toRowMatchNode = n
  | .And left right, h => by
    simp [RowMatchNode.containsReport] at h
    obtain ⟨tl, hl⟩ := exists_plain_of_containsReport_eq_false left h.1
    obtain ⟨tr, hr⟩ := exists_plain_of_containsReport_eq_false right h.2
    exact ⟨PlainMatchTree.And tl tr, by simp [PlainMatchTree.toRowMatchNode, hl, hr]⟩
  | .Not child, h => by
    simp [RowMatchNode.containsReport] at h
    obtain ⟨tc, hc⟩ := exists_plain_of_containsReport_eq_false child h
    exact ⟨PlainMatchTree.Not tc, by simp [PlainMatchTree.toRowMatchNode, hc]⟩
  | .Or left right, h => by
    simp [RowMatchNode.containsReport] at h
    obtain ⟨tl, hl⟩ := exists_plain_of_containsReport_eq_false left h.1
    obtain ⟨tr, hr⟩ := exists_plain_of_containsReport_eq_false right h.2
    exact ⟨PlainMatchTree.Or tl tr, by simp [PlainMatchTree.toRowMatchNode, hl, hr]⟩
  | .Report child, h => by simp [RowMatchNode.containsReport] at h
  | .Row row, _ => ⟨PlainMatchTree.Row row, rfl⟩

/-- The tree of a plain match tree has no `Report` node. -/
theorem containsReport_toRowMatchNode (t : PlainMatchTree) :
    t.toRowMatchNode.containsReport = false := by
  induction t with
  | And left right ihl ihr =>
    simp [PlainMatchTree.toRowMatchNode, RowMatchNode.containsReport, ihl, ihr]
  | Or left right ihl ihr =>
    simp [PlainMatchTree.toRowMatchNode, RowMatchNode.containsReport, ihl, ihr]
  | Not child ih => simp [PlainMatchTree.toRowMatchNode, RowMatchNode.containsReport, ih]
  | Row row => simp [PlainMatchTree.toRowMatchNode, RowMatchNode.containsReport]

/-- The trees without a `Report` node are the trees of the plain match
trees. -/
theorem containsReport_eq_false_iff (n : RowMatchNode) :
    n.containsReport = false ↔ ∃ t : PlainMatchTree, t.toRowMatchNode = n := by
  constructor
  · exact exists_plain_of_containsReport_eq_false n
  · rintro ⟨t, rfl⟩
    exact containsReport_toRowMatchNode t

/-- On a tree with a `Report` node, `Compile` ends in the abort of its
`default:` branch. -/
theorem Compile_of_containsReport :
    ∀ n : RowMatchNode, n.containsReport = true →
      Compile n = Except.error "Unsupported node type."
  | .And left right, h => by
    simp [RowMatchNode.containsReport] at h
    cases hcl : left.containsReport with
    | true => simp [Compile, Compile_of_containsReport left hcl]
    | false =>
      obtain ⟨tl, hl⟩ := (containsReport_eq_false_iff left).1 hcl
      have hr := Compile_of_containsReport right (by simpa [hcl] using h)
      simp [Compile, ← hl, Compile_toRowMatchNode, hr]
  | .Not child, h => by
    simp [RowMatchNode.containsReport] at h
    simp [Compile, Compile_of_containsReport child h]
  | .Or left right, h => by
    simp [RowMatchNode.containsReport] at h
    cases hcl : left.containsReport with
    | true => simp [Compile, Compile_of_containsReport left hcl]
    | false =>
      obtain ⟨tl, hl⟩ := (containsReport_eq_false_iff left).1 hcl
      have hr := Compile_of_containsReport right (by simpa [hcl] using h)
      simp [Compile, ← hl, Compile_toRowMatchNode, hr]
  | .Report child, _ => by simp [Compile]
  | .Row row, h => by simp [RowMatchNode.containsReport] at h

end RankZeroCompiler

/-- The structural translation keeps the shape of the tree. -/
theorem PlainMatchTree.shape_structuralTranslation (t : PlainMatchTree) :
    t.structuralTranslation.shape = t.shape := by
  induction t with
  | And left right ihl ihr =>
    simp [PlainMatchTree.structuralTranslation, CompileNode.shape, PlainMatchTree.shape, ihl, ihr]
  | Or left right ihl ihr =>
    simp [PlainMatchTree.structuralTranslation, CompileNode.shape, PlainMatchTree.shape, ihl, ihr]
  | Not child ih =>
    simp [PlainMatchTree.structuralTranslation, CompileNode.shape, PlainMatchTree.shape, ih]
  | Row row => simp [PlainMatchTree.structuralTranslation, CompileNode.shape, PlainMatchTree.shape]

/-- The structural translation keeps the rows of the leaves and their order. -/
theorem PlainMatchTree.loadedRows_structuralTranslation (t : PlainMatchTree) :
    t.structuralTranslation.loadedRows = t.rows := by
  induction t with
  | And left right ihl ihr =>
    simp [PlainMatchTree.structuralTranslation, CompileNode.loadedRows, PlainMatchTree.rows,
      ihl, ihr]
  | Or left right ihl ihr =>
    simp [PlainMatchTree.structuralTranslation, CompileNode.loadedRows, PlainMatchTree.rows,
      ihl, ihr]
  | Not child ih =>
    simp [PlainMatchTree.structuralTranslation, CompileNode.loadedRows, PlainMatchTree.rows, ih]
  | Row row =>
    simp [PlainMatchTree.structuralTranslation, CompileNode.loadedRows, PlainMatchTree.rows]

/-- C6: for every match tree built only from `And`, `Or`, `Not` and `Row`
nodes, `RankZeroCompiler::Compile` returns the tree of the structural
translation (`And` to `AndTree`, `Or` to `OrTree`, `Not` to `Not`, `Row` to
`LoadRow`), and the tree it returns has the shape of the input, left and right
kept, with the rows of the input at its leaves in the same order. -/
theorem Compile_eq_structuralTranslation (t : PlainMatchTree) :
    RankZeroCompiler.Compile t.toRowMatchNode = Except.ok t.structuralTranslation ∧
      ∀ c : CompileNode, RankZeroCompiler.Compile t.toRowMatchNode = Except.ok c →
        c.shape = t.shape ∧ c.loadedRows = t.rows ∧ t.toRowMatchNode.rows = c.loadedRows := by
  refine ⟨RankZeroCompiler.Compile_toRowMatchNode t, ?_⟩
  intro c hc
  rw [RankZeroCompiler.Compile_toRowMatchNode t] at hc
  cases hc
  refine ⟨t.shape_structuralTranslation, t.loadedRows_structuralTranslation, ?_⟩
  rw [t.loadedRows_structuralTranslation]
  induction t with
  | And left right ihl ihr =>
    simp [PlainMatchTree.toRowMatchNode, RowMatchNode.rows, PlainMatchTree.rows, ihl, ihr]
  | Or left right ihl ihr =>
    simp [PlainMatchTree.toRowMatchNode, RowMatchNode.rows, PlainMatchTree.rows, ihl, ihr]
  | Not child ih =>
    simp [PlainMatchTree.toRowMatchNode, RowMatchNode.rows, PlainMatchTree.rows, ih]
  | Row row => simp [PlainMatchTree.toRowMatchNode, RowMatchNode.rows, PlainMatchTree.rows]

/-- C6, at the tree `And(Or(Row 1, Not(Row 2)), Row 3)`. -/
theorem Compile_eq_structuralTranslation_witness :
    RankZeroCompiler.Compile
        (RowMatchNode.And
          (RowMatchNode.Or (RowMatchNode.Row ⟨1, 0, 0, false⟩)
            (RowMatchNode.Not (RowMatchNode.Row ⟨2, 3, 0, false⟩)))
          (RowMatchNode.Row ⟨3, 6, 0, true⟩))
      = Except.ok
        (CompileNode.AndTree
          (CompileNode.OrTree (CompileNode.LoadRow ⟨1, 0, 0, false⟩)
            (CompileNode.Not (CompileNode.LoadRow ⟨2, 3, 0, false⟩)))
          (CompileNode.LoadRow ⟨3, 6, 0, true⟩)) :=
  (Compile_eq_structuralTranslation
    (PlainMatchTree.And
      (PlainMatchTree.Or (PlainMatchTree.Row ⟨1, 0, 0, false⟩)
        (PlainMatchTree.Not (PlainMatchTree.Row ⟨2, 3, 0, false⟩)))
      (PlainMatchTree.Row ⟨3, 6, 0, true⟩))).1

/-- C7: `RankZeroCompiler::Compile` ends in the abort "Unsupported node type."
exactly on the trees that hold a `Report` node somewhere, and returns a
compiled tree on every other tree. -/
theorem Compile_aborts_iff_containsReport (n : RowMatchNode) :
    (RankZeroCompiler.Compile n = Except.error "Unsupported node type." ↔
        n.containsReport = true) ∧
      ((∃ c : CompileNode, RankZeroCompiler.Compile n = Except.ok c) ↔
        n.containsReport = false) := by
  cases h : n.containsReport with
  | true =>
    have herr := RankZeroCompiler.Compile_of_containsReport n h
    refine ⟨⟨fun _ => rfl, fun _ => herr⟩, ⟨?_, fun hc => by cases hc⟩⟩
    rintro ⟨c, hc⟩
    rw [herr] at hc
    cases hc
  | false =>
    obtain ⟨t, rfl⟩ := (RankZeroCompiler.containsReport_eq_false_iff n).1 h
    have hok := RankZeroCompiler.Compile_toRowMatchNode t
    refine ⟨⟨?_, fun hc => by cases hc⟩, ⟨fun _ => rfl, fun _ => ⟨_, hok⟩⟩⟩
    intro herr
    rw [hok] at herr
    cases herr

/-- C7, at a tree whose `Report` node lies below an `Or` in the right branch
of an `And`: the call aborts. -/
theorem Compile_aborts_iff_containsReport_witness :
    RankZeroCompiler.Compile
        (RowMatchNode.And (RowMatchNode.Row ⟨1, 0, 0, false⟩)
          (RowMatchNode.Or (RowMatchNode.Row ⟨2, 0, 0, false⟩)
            (RowMatchNode.Not (RowMatchNode.Report none))))
      = Except.error "Unsupported node type." :=
  (Compile_aborts_iff_containsReport
    (RowMatchNode.And (RowMatchNode.Row ⟨1, 0, 0, false⟩)
      (RowMatchNode.Or (RowMatchNode.Row ⟨2, 0, 0, false⟩)
        (RowMatchNode.Not (RowMatchNode.Report none))))).1.2 rfl

/-! ## Properties of document handles -/

namespace RowTableDescriptor

/-- The bit that `GetBit` returns is the bit `bitPosition` of the word at
`wordOffset`. -/
theorem GetBit_eq_testBit (t : RowTableDescriptor) (buffer : SliceBuffer)
    (rowIndex docIndex : Nat) :
    t.GetBit buffer rowIndex docIndex
      = ((buffer (t.wordOffset rowIndex docIndex)).testBit (t.bitPosition docIndex)).toNat := by
  unfold GetBit
  rw [Nat.and_one_is_mod, Nat.shiftRight_eq_div_pow, Nat.toNat_testBit]

/-- A bit position lies inside a 64-bit word. -/
theorem bitPosition_lt (t : RowTableDescriptor) (docIndex : Nat) :
    t.bitPosition docIndex < 64 := by
  unfold bitPosition
  exact Nat.lt_succ_of_le Nat.and_le_right

/-- The mask of a bit position has that bit. -/
theorem testBit_mask (b : Nat) : (1 <<< b).testBit b = true := by
  rw [Nat.one_shiftLeft, Nat.testBit_two_pow_self]

/-- After `SetBit`, `GetBit` at the same row and document gives 1. -/
theorem GetBit_SetBit_same (t : RowTableDescriptor) (buffer : SliceBuffer)
    (rowIndex docIndex : Nat) :
    t.GetBit (t.SetBit buffer rowIndex docIndex) rowIndex docIndex = 1 := by
  rw [GetBit_eq_testBit]
  simp [SetBit, Nat.testBit_or, testBit_mask]

/-- A bit that is 1 is still 1 after `SetBit`, whatever the table, row and
document of the bit that is set. -/
theorem GetBit_SetBit_of_GetBit (t u : RowTableDescriptor) (buffer : SliceBuffer)
    (rowIndex docIndex row doc : Nat) (h : u.GetBit buffer row doc = 1) :
    u.GetBit (t.SetBit buffer rowIndex docIndex) row doc = 1 := by
  rw [GetBit_eq_testBit] at h ⊢
  unfold SetBit
  by_cases hw : u.wordOffset row doc = t.wordOffset rowIndex docIndex
  · rw [hw, Function.update_same, Nat.testBit_or]
    rw [hw] at h
    cases hb : (buffer (t.wordOffset rowIndex docIndex)).testBit (u.bitPosition doc) with
    | true => simp
    | false => simp [hb] at h
  · rw [Function.update_noteq hw]
    exact h

/-- After `ClearBit`, `GetBit` at the same row and document gives 0. -/
theorem GetBit_ClearBit_same (t : RowTableDescriptor) (buffer : SliceBuffer)
    (rowIndex docIndex : Nat) :
    t.GetBit (t.ClearBit buffer rowIndex docIndex) rowIndex docIndex = 0 := by
  rw [GetBit_eq_testBit]
  unfold ClearBit
  rw [Function.update_same, Nat.testBit_and, Nat.testBit_xor, Nat.testBit_two_pow_sub_one,
    testBit_mask]
  simp [bitPosition_lt]

end RowTableDescriptor

namespace Shard

/-- The bits that are 1 before `Shard::AddPosting` are 1 after it. -/
theorem GetBit_AddPosting_of_GetBit (shard : Shard) (index : Nat) (u : RowTableDescriptor)
    (row doc : Nat) (rows : List RowId) (buffer : SliceBuffer)
    (h : u.GetBit buffer row doc = 1) :
    u.GetBit (rows.foldl
      (fun buffer row => (shard.GetRowTable row.m_rank).SetBit buffer row.m_index index)
      buffer) row doc = 1 := by
  induction rows generalizing buffer with
  | nil => exact h
  | cons r rows ih =>
    exact ih _ (RowTableDescriptor.GetBit_SetBit_of_GetBit _ u buffer _ _ row doc h)

/-- After the loop of `Shard::AddPosting` over a sequence of rows, the bit of
the document is 1 in each row of the sequence. -/
theorem GetBit_foldl_SetBit (shard : Shard) (index : Nat) (rows : List RowId)
    (buffer : SliceBuffer) (row : RowId) (hrow : row ∈ rows) :
    (shard.GetRowTable row.m_rank).GetBit (rows.foldl
      (fun buffer row => (shard.GetRowTable row.m_rank).SetBit buffer row.m_index index)
      buffer) row.m_index index = 1 := by
  induction rows generalizing buffer with
  | nil => cases hrow
  | cons r rows ih =>
    rcases List.mem_cons.1 hrow with heq | hmem
    · subst heq
      exact GetBit_AddPosting_of_GetBit shard index _ _ _ rows _
        (RowTableDescriptor.GetBit_SetBit_same _ buffer _ _)
    · exact ih _ hmem

end Shard

namespace DocumentHandle

/-- `Activate` changes neither the row tables nor the document-active row of
the shard, nor the index of the handle. -/
theorem Activate_frame (h : DocumentHandle) :
    h.Activate.m_slice.GetShard.m_rowTables = h.m_slice.GetShard.m_rowTables ∧
      h.Activate.m_slice.GetShard.GetDocumentActiveRowId
        = h.m_slice.GetShard.GetDocumentActiveRowId ∧
      h.Activate.m_index = h.m_index := by
  simp [Activate, Slice.GetShard, Shard.TemporaryRecordDocument, Shard.GetDocumentActiveRowId]

/-- `Expire` changes neither the shard nor the index of the handle. -/
theorem Expire_frame (h : DocumentHandle) :
    h.Expire.m_slice.GetShard = h.m_slice.GetShard ∧ h.Expire.m_index = h.m_index := by
  unfold Expire
  simp only [Slice.ExpireDocument]
  split <;> simp [Slice.GetShard, Slice.DecrementRefCount]

/-- The slice buffer after `Expire` is the buffer before with the
document-active bit of the document cleared. -/
theorem Expire_buffer (h : DocumentHandle) :
    h.Expire.m_slice.GetSliceBuffer
      = (h.m_slice.GetRowTable h.m_slice.GetShard.GetDocumentActiveRowId.m_rank).ClearBit
          h.m_slice.GetSliceBuffer h.m_slice.GetShard.GetDocumentActiveRowId.m_index
          h.m_index := by
  unfold Expire
  simp only [Slice.ExpireDocument]
  split <;> simp [Slice.GetSliceBuffer, Slice.DecrementRefCount]

end DocumentHandle

/-- C8: after `h.AddPosting(t)`, `h.GetBit(r)` is true for every row `r` of
the sequence that the term table of the shard gives for `t`. -/
theorem AddPosting_sets_bits_of_term (h : DocumentHandle) (t : Term) (r : RowId)
    (hr : r ∈ h.m_slice.GetShard.m_termTable t) :
    (h.AddPosting t).GetBit r = true ∧
      (h.AddPosting t).m_slice.GetShard.m_termTable t = h.m_slice.GetShard.m_termTable t := by
  refine ⟨?_, rfl⟩
  have key := Shard.GetBit_foldl_SetBit h.m_slice.GetShard h.m_index
    (h.m_slice.GetShard.m_termTable t) h.m_slice.GetSliceBuffer r hr
  simp only [DocumentHandle.GetBit, DocumentHandle.AddPosting, Shard.AddPosting,
    Slice.GetShard, Slice.GetSliceBuffer] at key ⊢
  rw [key]
  rfl

/-- C8, at the document 70 of the example slice and the row 2 of rank 3: the
bit is 0 before the posting and 1 after it. -/
theorem AddPosting_sets_bits_of_term_witness :
    exampleHandle.GetBit ⟨3, 2, false⟩ = false ∧
      (exampleHandle.AddPosting ⟨17, 1, 0⟩).GetBit ⟨3, 2, false⟩ = true :=
  ⟨by decide,
    (AddPosting_sets_bits_of_term exampleHandle ⟨17, 1, 0⟩ ⟨3, 2, false⟩ (by decide)).1⟩

/-- C9: after `h.Activate()` the document-active bit of the document is set:
`h.GetBit` of the document-active row of the shard returns true. -/
theorem Activate_sets_documentActive_bit (h : DocumentHandle) :
    h.Activate.GetBit h.Activate.m_slice.GetShard.GetDocumentActiveRowId = true := by
  have key := RowTableDescriptor.GetBit_SetBit_same
    (h.m_slice.GetShard.GetRowTable h.m_slice.GetShard.GetDocumentActiveRowId.m_rank)
    h.m_slice.GetSliceBuffer h.m_slice.GetShard.GetDocumentActiveRowId.m_index h.m_index
  simp only [DocumentHandle.GetBit, DocumentHandle.Activate, Slice.GetShard,
    Slice.GetSliceBuffer, Slice.GetRowTable, Shard.TemporaryRecordDocument,
    Shard.GetDocumentActiveRowId, Shard.GetRowTable] at key ⊢
  rw [key]
  rfl

/-- C9, at the document 70 of the example slice: the document-active bit is 0
before the activation and 1 after it. -/
theorem Activate_sets_documentActive_bit_witness :
    exampleHandle.GetBit exampleHandle.m_slice.GetShard.GetDocumentActiveRowId = false ∧
      exampleHandle.Activate.GetBit
        exampleHandle.Activate.m_slice.GetShard.GetDocumentActiveRowId = true :=
  ⟨by decide, Activate_sets_documentActive_bit exampleHandle⟩

/-- C10: after `h.Activate()` followed by `h.Expire()` the document-active bit
of the document is cleared: `h.GetBit` of the document-active row of the shard
returns false. -/
theorem Expire_clears_documentActive_bit (h : DocumentHandle) :
    h.Activate.Expire.GetBit h.Activate.Expire.m_slice.GetShard.GetDocumentActiveRowId
      = false := by
  have hbuf := DocumentHandle.Expire_buffer h.Activate
  obtain ⟨hshard, hindex⟩ := DocumentHandle.Expire_frame h.Activate
  have key := RowTableDescriptor.GetBit_ClearBit_same
    (h.Activate.m_slice.GetRowTable h.Activate.m_slice.GetShard.GetDocumentActiveRowId.m_rank)
    h.Activate.m_slice.GetSliceBuffer
    h.Activate.m_slice.GetShard.GetDocumentActiveRowId.m_index h.Activate.m_index
  rw [← hbuf] at key
  unfold DocumentHandle.GetBit
  rw [hshard, hindex]
  simp only [Slice.GetRowTable] at key
  simp only [Slice.GetShard] at key ⊢
  rw [key]
  rfl

/-- C10, at the document 70 of the example slice: the document-active bit is
1 after the activation and 0 after the expiry that follows. -/
theorem Expire_clears_documentActive_bit_witness :
    exampleHandle.Activate.GetBit
        exampleHandle.Activate.m_slice.GetShard.GetDocumentActiveRowId = true ∧
      exampleHandle.Activate.Expire.GetBit
        exampleHandle.Activate.Expire.m_slice.GetShard.GetDocumentActiveRowId = false :=
  ⟨by decide, Expire_clears_documentActive_bit exampleHandle⟩

/-! ### The shutdown scenario -/

namespace QueueRun

variable {T : Type}

/-- A step keeps the capacity and keeps the queue within it. -/
theorem bounded_step (r : QueueRun T) (op : QueueOp T)
    (h : r.queue.m_queue.length ≤ r.queue.m_capacity) :
    (r.step op).queue.m_capacity = r.queue.m_capacity ∧
      (r.step op).queue.m_queue.length ≤ (r.step op).queue.m_capacity := by
  cases op with
  | enqueue v =>
    simp only [step]
    cases he : r.queue.TryEnqueue v with
    | none => exact ⟨rfl, h⟩
    | some res =>
      obtain ⟨b, q1⟩ := res
      rcases BlockingQueue.TryEnqueue_eq_some _ _ _ _ he with ⟨hb, _, hq⟩ | ⟨hb, _, hlen, hq⟩
      · subst hb hq
        exact ⟨rfl, h⟩
      · subst hb hq
        refine ⟨rfl, ?_⟩
        simp only [List.length_append, List.length_singleton]
        omega
  | dequeue value =>
    simp only [step]
    cases hd : r.queue.TryDequeue value with
    | none => exact ⟨rfl, h⟩
    | some res =>
      obtain ⟨b, x, q1⟩ := res
      rcases BlockingQueue.TryDequeue_eq_some _ _ _ _ _ hd with
        ⟨hb, _, _, _, hq1⟩ | ⟨hb, hq, _, hcap, _⟩
      · subst hb hq1
        exact ⟨rfl, h⟩
      · subst hb
        refine ⟨hcap, ?_⟩
        simp only
        rw [hcap]
        rw [hq] at h
        simp only [List.length_cons] at h
        omega
  | shutdown =>
    simp only [step, BlockingQueue.Shutdown]
    cases hl : r.queue.m_queue with
    | nil => simp
    | cons a l =>
      rw [hl] at h
      simpa using h

/-- A run keeps the capacity and keeps the queue within it. -/
theorem bounded_run (ops : List (QueueOp T)) (r : QueueRun T)
    (h : r.queue.m_queue.length ≤ r.queue.m_capacity) :
    (r.run ops).queue.m_capacity = r.queue.m_capacity ∧
      (r.run ops).queue.m_queue.length ≤ (r.run ops).queue.m_capacity := by
  induction ops generalizing r with
  | nil => exact ⟨rfl, h⟩
  | cons op ops ih =>
    obtain ⟨h1, h2⟩ := bounded_step r op h
    obtain ⟨h3, h4⟩ := ih (r.step op) h2
    exact ⟨h3.trans h1, h4⟩

/-- In a run from a freshly constructed queue, the values accepted and not yet
delivered are as many as the queue holds, which is at most the capacity. -/
theorem pending_le_capacity (capacity : Nat) (ops : List (QueueOp T)) :
    ((start capacity).run ops).accepted.length
      ≤ ((start capacity).run ops).delivered.length + capacity := by
  obtain ⟨hacc, _⟩ := inv_run ops _ (inv_start (T := T) capacity)
  obtain ⟨hcap, hlen⟩ := bounded_run ops (start capacity : QueueRun T) (Nat.zero_le _)
  rw [hcap] at hlen
  rw [hacc, List.length_append]
  exact Nat.add_le_add_left hlen _

end QueueRun

namespace MatchTreeRewriter

/-- The rows after `insertRow` are the rows before it and the row inserted. -/
theorem insertRow_perm (row : AbstractRow) (rows : List AbstractRow) :
    (insertRow row rows).Perm (row :: rows) := by
  induction rows with
  | nil => simp [insertRow]
  | cons first rest ih =>
    unfold insertRow
    split
    · exact List.Perm.refl _
    · exact (List.Perm.cons first ih).trans (List.Perm.swap row first rest)

/-- `insertRow` keeps rows by descending rank. -/
theorem insertRow_descending (row : AbstractRow) (rows : List AbstractRow)
    (h : Descending rows) : Descending (insertRow row rows) := by
  induction rows with
  | nil => simp [insertRow, Descending]
  | cons first rest ih =>
    unfold insertRow
    have hfirst := (List.pairwise_cons.1 h).1
    have hrest := (List.pairwise_cons.1 h).2
    split
    · rename_i hle
      refine List.pairwise_cons.2 ⟨?_, h⟩
      intro b hb
      rcases List.mem_cons.1 hb with rfl | hb
      · exact hle
      · exact le_trans (hfirst b hb) hle
    · rename_i hle
      refine List.pairwise_cons.2 ⟨?_, ih hrest⟩
      intro b hb
      rcases List.mem_cons.1 ((insertRow_perm row rest).subset hb) with rfl | hb
      · omega
      · exact hfirst b hb

/-- The row inserted stands before the rows of its rank; the rows of the other ranks
are left as they are. -/
theorem insertRow_filter_rank (row : AbstractRow) (rows : List AbstractRow) (k : Nat) :
    (insertRow row rows).filter (fun r => decide (r.m_rank = k))
      = if row.m_rank = k then row :: rows.filter (fun r => decide (r.m_rank = k))
        else rows.filter (fun r => decide (r.m_rank = k)) := by
  induction rows with
  | nil => by_cases hk : row.m_rank = k <;> simp [insertRow, hk]
  | cons first rest ih =>
    unfold insertRow
    split
    · by_cases hk : row.m_rank = k <;> simp [List.filter_cons, hk]
    · rename_i hle
      by_cases hk : row.m_rank = k
      · have hfirst : ¬ first.m_rank = k := by omega
        simp [List.filter_cons, hfirst, ih, hk]
      · simp [List.filter_cons, ih, hk]

/-- The rows of a partition after `add` are the rows that are conjuncts of the node
and the rows before it. -/
theorem add_m_rows_perm (node : PlainMatchTree) (p : Partition) :
    (p.add node).m_rows.Perm (node.conjunctRows ++ p.m_rows) := by
  induction node generalizing p with
  | And left right ihl ihr =>
    simp only [Partition.add, PlainMatchTree.conjunctRows]
    refine (ihr (p.add left)).trans ?_
    refine ((ihl p).append_left right.conjunctRows).trans ?_
    have hswap := List.Perm.append_right p.m_rows
      (@List.perm_append_comm _ right.conjunctRows left.conjunctRows)
    simpa [List.append_assoc] using hswap
  | Or left right => simp [Partition.add, PlainMatchTree.conjunctRows]
  | Not child => simp [Partition.add, PlainMatchTree.conjunctRows]
  | Row row =>
    simp only [Partition.add, PlainMatchTree.conjunctRows]
    exact insertRow_perm row p.m_rows

/-- `add` keeps the rows of a partition by descending rank. -/
theorem add_descending (node : PlainMatchTree) (p : Partition) (h : Descending p.m_rows) :
    Descending (p.add node).m_rows := by
  induction node generalizing p with
  | And left right ihl ihr => exact ihr _ (ihl p h)
  | Or left right => exact h
  | Not child => exact h
  | Row row => exact insertRow_descending row p.m_rows h

/-- The rows of one rank after `add`: those that are conjuncts of the node, last
first, before those of the partition. -/
theorem add_filter_rank (node : PlainMatchTree) (p : Partition) (k : Nat) :
    (p.add node).m_rows.filter (fun r => decide (r.m_rank = k))
      = (node.conjunctRows.filter (fun r => decide (r.m_rank = k))).reverse ++
        p.m_rows.filter (fun r => decide (r.m_rank = k)) := by
  induction node generalizing p with
  | And left right ihl ihr =>
    simp only [Partition.add, PlainMatchTree.conjunctRows]
    rw [ihr, ihl, List.filter_append, List.reverse_append, List.append_assoc]
  | Or left right => simp [Partition.add, PlainMatchTree.conjunctRows]
  | Not child => simp [Partition.add, PlainMatchTree.conjunctRows]
  | Row row =>
    simp only [Partition.add, PlainMatchTree.conjunctRows]
    rw [insertRow_filter_rank]
    by_cases hk : row.m_rank = k <;> simp [hk]

/-- The `Or` nodes of a partition after `add`: those that are conjuncts of the node,
last first, before those of the partition. -/
theorem add_m_ors (node : PlainMatchTree) (p : Partition) :
    (p.add node).m_ors = node.conjunctOrs.reverse ++ p.m_ors := by
  induction node generalizing p with
  | And left right ihl ihr =>
    simp only [Partition.add, PlainMatchTree.conjunctOrs]
    rw [ihr, ihl, List.reverse_append, List.append_assoc]
  | Or left right => simp [Partition.add, PlainMatchTree.conjunctOrs]
  | Not child => simp [Partition.add, PlainMatchTree.conjunctOrs]
  | Row row => simp [Partition.add, PlainMatchTree.conjunctOrs]

/-- The `Not` nodes of a partition after `add`: those that are conjuncts of the
node, last first, before those of the partition. -/
theorem add_m_nots (node : PlainMatchTree) (p : Partition) :
    (p.add node).m_nots = node.conjunctNots.reverse ++ p.m_nots := by
  induction node generalizing p with
  | And left right ihl ihr =>
    simp only [Partition.add, PlainMatchTree.conjunctNots]
    rw [ihr, ihl, List.reverse_append, List.append_assoc]
  | Or left right => simp [Partition.add, PlainMatchTree.conjunctNots]
  | Not child => simp [Partition.add, PlainMatchTree.conjunctNots]
  | Row row => simp [Partition.add, PlainMatchTree.conjunctNots]

/-- The size of two lists of `Or` nodes. -/
theorem orsSize_append (a b : List (PlainMatchTree × PlainMatchTree)) :
    orsSize (a ++ b) = orsSize a + orsSize b := by
  induction a with
  | nil => simp [orsSize]
  | cons pair rest ih => simp [orsSize, ih]; omega

/-- The size of a list of `Or` nodes does not depend on their order. -/
theorem orsSize_reverse (a : List (PlainMatchTree × PlainMatchTree)) :
    orsSize a.reverse = orsSize a := by
  induction a with
  | nil => rfl
  | cons pair rest ih => simp [orsSize, orsSize_append, ih]; omega

/-- A tree has a node. -/
theorem size_pos (node : PlainMatchTree) : 0 < node.size := by
  cases node <;> simp [PlainMatchTree.size]

/-- The `Or` nodes that are conjuncts of a tree are not larger than the tree. -/
theorem orsSize_conjunctOrs_le (node : PlainMatchTree) :
    orsSize node.conjunctOrs ≤ node.size := by
  induction node with
  | And left right ihl ihr =>
    simp only [PlainMatchTree.conjunctOrs, PlainMatchTree.size, orsSize_append]
    omega
  | Or left right => simp [PlainMatchTree.conjunctOrs, PlainMatchTree.size, orsSize]
  | Not child => simp [PlainMatchTree.conjunctOrs, orsSize]
  | Row row => simp [PlainMatchTree.conjunctOrs, orsSize]

/-- With fuel for the `Or` nodes that are pending, the recursion returns a
tree. -/
theorem build_isSome (t : Nat) :
    ∀ (fuel : Nat) (parent : Partition) (reached : Option Nat) (node : PlainMatchTree)
      (count : Nat), orsSize parent.m_ors + node.size ≤ fuel →
      ∃ result, build t fuel parent reached node count = some result := by
  intro fuel
  induction fuel with
  | zero =>
    intro parent reached node count h
    have := size_pos node
    omega
  | succ fuel ih =>
    intro parent reached node count h
    have hsize : orsSize (parent.add node).m_ors ≤ orsSize parent.m_ors + node.size := by
      rw [add_m_ors, orsSize_append, orsSize_reverse]
      have := orsSize_conjunctOrs_le node
      omega
    unfold build
    cases hors : (parent.add node).m_ors with
    | nil => exact ⟨_, rfl⟩
    | cons pair ors =>
      obtain ⟨left, right⟩ := pair
      rw [hors] at hsize
      simp only [orsSize] at hsize
      by_cases hc : count < t
      · simp only [hc, if_true]
        obtain ⟨⟨leftTree, count1⟩, hl⟩ := ih ((parent.add node).below ors)
          (rankAfter reached (parent.add node).upperRows) left count
          (by simp only [Partition.below]; have := size_pos right; omega)
        obtain ⟨⟨rightTree, count2⟩, hr⟩ := ih ((parent.add node).below ors)
          (rankAfter reached (parent.add node).upperRows) right count1
          (by simp only [Partition.below]; have := size_pos left; omega)
        rw [hl]
        simp only
        rw [hr]
        exact ⟨_, rfl⟩
      · simp only [hc, if_false]
        exact ⟨_, rfl⟩

/-- The rewriter returns a tree for every input. -/
theorem Rewrite_isSome (root : PlainMatchTree) (targetRowCount t : Nat) :
    ∃ tree, Rewrite root targetRowCount t = some tree := by
  obtain ⟨⟨tree, count⟩, h⟩ := build_isSome t root.size Partition.empty none root 0
    (by simp [Partition.empty, orsSize])
  exact ⟨tree, by simp [Rewrite, h]⟩

/-- A property of the trees of the recursion: it holds of every tree returned
when it holds of the branch that closes a partition and passes from the two
trees of an `Or` node that is multiplied out to the tree built from them, the
state of the recursion satisfying `inv`. -/
theorem build_induction (t : Nat) (inv : Partition → PlainMatchTree → Prop)
    (prop : RowMatchNode → Prop)
    (hbelow : ∀ parent node left right ors, inv parent node →
      (parent.add node).m_ors = (left, right) :: ors →
      inv ((parent.add node).below ors) left ∧ inv ((parent.add node).below ors) right)
    (hbranch : ∀ parent node reached, inv parent node →
      prop ((parent.add node).branch t reached))
    (hor : ∀ parent node reached leftTree rightTree, inv parent node →
      prop leftTree → prop rightTree →
      prop (RowMatchNode.conjoin ((parent.add node).emittedUpperRows reached)
        (RowMatchNode.orJoin leftTree rightTree))) :
    ∀ (fuel : Nat) (parent : Partition) (reached : Option Nat) (node : PlainMatchTree)
      (count : Nat) (tree : RowMatchNode) (count1 : Nat), inv parent node →
      build t fuel parent reached node count = some (tree, count1) → prop tree := by
  intro fuel
  induction fuel with
  | zero =>
    intro parent reached node count tree count1 _ h
    simp [build] at h
  | succ fuel ih =>
    intro parent reached node count tree count1 hinv h
    unfold build at h
    cases hors : (parent.add node).m_ors with
    | nil =>
      rw [hors] at h
      simp only [Option.some.injEq, Prod.mk.injEq] at h
      rw [← h.1]
      exact hbranch parent node reached hinv
    | cons pair ors =>
      obtain ⟨left, right⟩ := pair
      rw [hors] at h
      simp only at h
      by_cases hc : count < t
      · simp only [hc, if_true] at h
        obtain ⟨hil, hir⟩ := hbelow parent node left right ors hinv hors
        cases hl : build t fuel ((parent.add node).below ors)
            (rankAfter reached (parent.add node).upperRows) left count with
        | none => rw [hl] at h; simp at h
        | some resl =>
          obtain ⟨leftTree, cl⟩ := resl
          rw [hl] at h
          simp only at h
          cases hr : build t fuel ((parent.add node).below ors)
              (rankAfter reached (parent.add node).upperRows) right cl with
          | none => rw [hr] at h; simp at h
          | some resr =>
            obtain ⟨rightTree, cr⟩ := resr
            rw [hr] at h
            simp only [Option.some.injEq, Prod.mk.injEq] at h
            rw [← h.1]
            exact hor parent node reached leftTree rightTree hinv
              (ih _ _ _ _ _ _ hil hl) (ih _ _ _ _ _ _ hir hr)
      · simp only [hc, if_false, Option.some.injEq, Prod.mk.injEq] at h
        rw [← h.1]
        exact hbranch parent node reached hinv

/-- What `Rewrite` returns is what the recursion returns from the empty
partition. -/
theorem Rewrite_eq_some (root : PlainMatchTree) (targetRowCount t : Nat) (tree : RowMatchNode)
    (h : Rewrite root targetRowCount t = some tree) :
    ∃ count, build t root.size Partition.empty none root 0 = some (tree, count) := by
  unfold Rewrite at h
  cases hb : build t root.size Partition.empty none root 0 with
  | none => rw [hb] at h; simp at h
  | some res =>
    obtain ⟨tree1, count⟩ := res
    rw [hb] at h
    simp only [Option.some.injEq] at h
    exact ⟨count, by rw [h]⟩

end MatchTreeRewriter

namespace RowMatchNode

/-- The ranks of the rows that are conjuncts of a conjunction. -/
theorem conjunctRanks_conjoin (front : List RowMatchNode) (last : RowMatchNode) :
    (conjoin front last).conjunctRanks = front.flatMap conjunctRanks ++ last.conjunctRanks := by
  induction front with
  | nil => simp [conjoin]
  | cons first rest ih =>
    have : conjoin (first :: rest) last = RowMatchNode.And first (conjoin rest last) := rfl
    rw [this]
    simp [conjunctRanks, ih]

/-- A conjunction has its rows in non-increasing order of rank in every `And` node
when the ranks of its conjuncts are in that order and its members have the
property. -/
theorem andRowsSorted_conjoin (front : List RowMatchNode) (last : RowMatchNode)
    (hranks : (front.flatMap conjunctRanks ++ last.conjunctRanks).Pairwise fun a b => b ≤ a)
    (hfront : ∀ node ∈ front, node.andRowsSorted = true) (hlast : last.andRowsSorted = true) :
    (conjoin front last).andRowsSorted = true := by
  induction front with
  | nil => simpa [conjoin] using hlast
  | cons first rest ih =>
    have hcons : conjoin (first :: rest) last = RowMatchNode.And first (conjoin rest last) := rfl
    have hrest : (rest.flatMap conjunctRanks ++ last.conjunctRanks).Pairwise fun a b => b ≤ a := by
      rw [List.flatMap_cons, List.append_assoc] at hranks
      exact (List.pairwise_append.1 hranks).2.1
    have hall : ((RowMatchNode.And first (conjoin rest last)).conjunctRanks).Pairwise
        fun a b => b ≤ a := by
      rw [← hcons, conjunctRanks_conjoin]
      exact hranks
    rw [hcons]
    simp only [andRowsSorted, Bool.and_eq_true, decide_eq_true_eq]
    exact ⟨⟨hall, hfront first (List.mem_cons_self _ _)⟩,
      ih hrest fun node hn => hfront node (List.mem_cons_of_mem _ hn)⟩

/-- `orJoin` has the property of its two children. -/
theorem andRowsSorted_orJoin :
    ∀ left right : RowMatchNode,
      (orJoin left right).andRowsSorted = (left.andRowsSorted && right.andRowsSorted)
  | .Or first rest, right => by
    simp [orJoin, andRowsSorted, andRowsSorted_orJoin rest right, Bool.and_assoc]
  | .And _ _, _ => by simp [orJoin, andRowsSorted]
  | .Not _, _ => by simp [orJoin, andRowsSorted]
  | .Report _, _ => by simp [orJoin, andRowsSorted]
  | .Row _, _ => by simp [orJoin, andRowsSorted]

/-- An `Or` node has no row as conjunct. -/
theorem conjunctRanks_orJoin (left right : RowMatchNode) :
    (orJoin left right).conjunctRanks = [] := by
  cases left <;> simp [orJoin, conjunctRanks]

/-- A chain of nodes without a row as conjunct has no row as conjunct. -/
theorem conjunctRanks_andChain (first : RowMatchNode) (rest : List RowMatchNode)
    (h : ∀ node ∈ first :: rest, node.conjunctRanks = []) :
    (andChain first rest).conjunctRanks = [] := by
  induction rest generalizing first with
  | nil => simpa [andChain] using h
  | cons second rest ih =>
    have h1 := h first (List.mem_cons_self _ _)
    have h2 := ih second fun node hn => h node (List.mem_cons_of_mem _ hn)
    simp [andChain, conjunctRanks, h1, h2]

/-- A chain of nodes without a row as conjunct has its rows in order when its
members have. -/
theorem andRowsSorted_andChain (first : RowMatchNode) (rest : List RowMatchNode)
    (hranks : ∀ node ∈ first :: rest, node.conjunctRanks = [])
    (hsorted : ∀ node ∈ first :: rest, node.andRowsSorted = true) :
    (andChain first rest).andRowsSorted = true := by
  induction rest generalizing first with
  | nil => simpa [andChain] using hsorted
  | cons second rest ih =>
    have h1 := hranks first (List.mem_cons_self _ _)
    have h2 := conjunctRanks_andChain second rest
      fun node hn => hranks node (List.mem_cons_of_mem _ hn)
    have h3 := hsorted first (List.mem_cons_self _ _)
    have h4 := ih second (fun node hn => hranks node (List.mem_cons_of_mem _ hn))
      fun node hn => hsorted node (List.mem_cons_of_mem _ hn)
    simp [andChain, andRowsSorted, conjunctRanks, h1, h2, h3, h4]

/-- A `Report` node over nodes without a row as conjunct has its rows in order when
these nodes have. -/
theorem andRowsSorted_reportOver (children : List RowMatchNode)
    (hranks : ∀ node ∈ children, node.conjunctRanks = [])
    (hsorted : ∀ node ∈ children, node.andRowsSorted = true) :
    (reportOver children).andRowsSorted = true := by
  cases children with
  | nil => rfl
  | cons first rest =>
    simp only [reportOver, andRowsSorted]
    exact andRowsSorted_andChain first rest hranks hsorted

end RowMatchNode

/-- The rows that are conjuncts of a copy at rank 0 have rank 0. -/
theorem PlainMatchTree.conjunctRanks_atRankZero (tree : PlainMatchTree) :
    ∀ k ∈ tree.atRankZero.conjunctRanks, k = 0 := by
  induction tree with
  | And left right ihl ihr =>
    intro k hk
    simp only [PlainMatchTree.atRankZero, RowMatchNode.conjunctRanks, List.mem_append] at hk
    rcases hk with hk | hk
    · exact ihl k hk
    · exact ihr k hk
  | Or left right => simp [PlainMatchTree.atRankZero, RowMatchNode.conjunctRanks]
  | Not child => simp [PlainMatchTree.atRankZero, RowMatchNode.conjunctRanks]
  | Row row =>
    simp [PlainMatchTree.atRankZero, RowMatchNode.conjunctRanks, AbstractRow.atRank]

/-- A copy at rank 0 has its rows in non-increasing order of rank in every `And`
node. -/
theorem PlainMatchTree.andRowsSorted_atRankZero (tree : PlainMatchTree) :
    tree.atRankZero.andRowsSorted = true := by
  induction tree with
  | And left right ihl ihr =>
    have hzero := PlainMatchTree.conjunctRanks_atRankZero (PlainMatchTree.And left right)
    simp only [PlainMatchTree.atRankZero] at hzero
    simp only [PlainMatchTree.atRankZero, RowMatchNode.andRowsSorted, Bool.and_eq_true,
      decide_eq_true_eq]
    refine ⟨⟨?_, ihl⟩, ihr⟩
    refine List.pairwise_of_forall_mem_list ?_
    intro a _ b hb
    rw [hzero b hb]
    exact Nat.zero_le _
  | Or left right ihl ihr =>
    simp [PlainMatchTree.atRankZero, RowMatchNode.andRowsSorted, ihl, ihr]
  | Not child ih => simpa [PlainMatchTree.atRankZero, RowMatchNode.andRowsSorted] using ih
  | Row row => rfl

namespace MatchTreeRewriter

/-- The rank at which a row is consumed grows with its rank. -/
theorem consumedAt_rank_le (a b : AbstractRow) (reached : Option Nat)
    (h : b.m_rank ≤ a.m_rank) :
    (b.consumedAt reached).m_rank ≤ (a.consumedAt reached).m_rank := by
  cases reached with
  | none => exact h
  | some k =>
    simp only [AbstractRow.consumedAt, AbstractRow.atRank]
    omega

/-- The rows of a rank above 0 of a partition are by descending rank when its rows
are. -/
theorem upperRows_descending (p : Partition) (h : Descending p.m_rows) :
    Descending p.upperRows :=
  List.Pairwise.filter _ h

/-- The ranks of the rows emitted before an `Or` node. -/
theorem flatMap_conjunctRanks_emittedUpperRows (p : Partition) (reached : Option Nat) :
    (p.emittedUpperRows reached).flatMap RowMatchNode.conjunctRanks
      = p.upperRows.map fun row => (row.consumedAt reached).m_rank := by
  unfold Partition.emittedUpperRows
  induction p.upperRows with
  | nil => rfl
  | cons first rest ih => simp [RowMatchNode.conjunctRanks, ih]

/-- The rows emitted before an `Or` node stand in non-increasing order of rank. -/
theorem emittedUpperRows_ranks_sorted (p : Partition) (reached : Option Nat)
    (h : Descending p.m_rows) :
    ((p.emittedUpperRows reached).flatMap RowMatchNode.conjunctRanks).Pairwise
      fun a b => b ≤ a := by
  rw [flatMap_conjunctRanks_emittedUpperRows]
  refine List.Pairwise.map _ ?_ (upperRows_descending p h)
  intro a b hab
  exact consumedAt_rank_le a b reached hab

/-- The rows kept for the end of a branch have rank 0. -/
theorem flatMap_conjunctRanks_rankZeroRows (p : Partition) :
    ∀ k ∈ (p.rankZeroRows.map RowMatchNode.Row).flatMap RowMatchNode.conjunctRanks, k = 0 := by
  intro k hk
  simp only [List.mem_flatMap, List.mem_map, Partition.rankZeroRows, List.mem_filter,
    decide_eq_true_eq] at hk
  obtain ⟨node, ⟨row, ⟨_, hrank⟩, rfl⟩, hmem⟩ := hk
  simp only [RowMatchNode.conjunctRanks, List.mem_singleton] at hmem
  omega

/-- The `Or` nodes that are not multiplied out are no rows. -/
theorem flatMap_conjunctRanks_residualOr (ors : List (PlainMatchTree × PlainMatchTree)) :
    (ors.map residualOr).flatMap RowMatchNode.conjunctRanks = [] := by
  induction ors with
  | nil => rfl
  | cons pair rest ih =>
    simp only [List.map_cons, List.flatMap_cons, ih, List.append_nil]
    rfl

/-- An `Or` node that is not multiplied out has its rows in order in every `And`
node. -/
theorem andRowsSorted_residualOr (pair : PlainMatchTree × PlainMatchTree) :
    (residualOr pair).andRowsSorted = true := by
  simp [residualOr, RowMatchNode.andRowsSorted, PlainMatchTree.andRowsSorted_atRankZero]

/-- A `Not` node below a `Report` node has its rows in order in every `And` node. -/
theorem andRowsSorted_reportedNot (child : PlainMatchTree) :
    (reportedNot child).andRowsSorted = true := by
  simp [reportedNot, RowMatchNode.andRowsSorted, PlainMatchTree.andRowsSorted_atRankZero]

/-- The `Report` node of a branch has its rows in order in every `And` node. -/
theorem andRowsSorted_report (ors : List (PlainMatchTree × PlainMatchTree))
    (nots : List PlainMatchTree) :
    (RowMatchNode.reportOver (ors.map residualOr ++ nots.map reportedNot)).andRowsSorted
      = true := by
  apply RowMatchNode.andRowsSorted_reportOver
  · intro node hn
    simp only [List.mem_append, List.mem_map] at hn
    rcases hn with ⟨pair, _, rfl⟩ | ⟨child, _, rfl⟩ <;> rfl
  · intro node hn
    simp only [List.mem_append, List.mem_map] at hn
    rcases hn with ⟨pair, _, rfl⟩ | ⟨child, _, rfl⟩
    · exact andRowsSorted_residualOr pair
    · exact andRowsSorted_reportedNot child

/-- A `Report` node is no row. -/
theorem conjunctRanks_reportOver (children : List RowMatchNode) :
    (RowMatchNode.reportOver children).conjunctRanks = [] := by
  cases children <;> rfl

/-- The rows of a branch stand in non-increasing order of rank. -/
theorem front_ranks_sorted (p : Partition) (reached : Option Nat) (h : Descending p.m_rows) :
    ((p.emittedUpperRows reached ++ p.rankZeroRows.map RowMatchNode.Row).flatMap
      RowMatchNode.conjunctRanks).Pairwise fun a b => b ≤ a := by
  rw [List.flatMap_append]
  refine List.pairwise_append.2 ⟨emittedUpperRows_ranks_sorted p reached h, ?_, ?_⟩
  · refine List.pairwise_of_forall_mem_list ?_
    intro a _ b hb
    rw [flatMap_conjunctRanks_rankZeroRows p b hb]
    exact Nat.zero_le _
  · intro a _ b hb
    rw [flatMap_conjunctRanks_rankZeroRows p b hb]
    exact Nat.zero_le _

/-- The rows of a branch are leaves. -/
theorem front_andRowsSorted (p : Partition) (reached : Option Nat) :
    ∀ node ∈ p.emittedUpperRows reached ++ p.rankZeroRows.map RowMatchNode.Row,
      node.andRowsSorted = true := by
  intro node hn
  simp only [Partition.emittedUpperRows, List.mem_append, List.mem_map] at hn
  rcases hn with ⟨row, _, rfl⟩ | ⟨row, _, rfl⟩ <;> rfl

/-- The branch that closes a partition with descending rows has its rows in
non-increasing order of rank in every `And` node. -/
theorem andRowsSorted_branch (p : Partition) (t : Nat) (reached : Option Nat)
    (h : Descending p.m_rows) : (p.branch t reached).andRowsSorted = true := by
  unfold Partition.branch
  split
  · apply RowMatchNode.andRowsSorted_conjoin
    · rw [conjunctRanks_reportOver, List.append_nil]
      exact front_ranks_sorted p reached h
    · exact front_andRowsSorted p reached
    · exact andRowsSorted_report p.m_ors p.m_nots
  · apply RowMatchNode.andRowsSorted_conjoin
    · rw [conjunctRanks_reportOver, List.append_nil, List.flatMap_append,
        flatMap_conjunctRanks_residualOr, List.append_nil]
      exact front_ranks_sorted p reached h
    · intro node hn
      rcases List.mem_append.1 hn with hn | hn
      · exact front_andRowsSorted p reached node hn
      · obtain ⟨pair, _, rfl⟩ := List.mem_map.1 hn
        exact andRowsSorted_residualOr pair
    · have := andRowsSorted_report [] p.m_nots
      simpa using this

/-- Every tree of the recursion has its rows in non-increasing order of rank
in every `And` node, when the rows of the partition are descending. -/
theorem andRowsSorted_build (t fuel : Nat) (parent : Partition) (reached : Option Nat)
    (node : PlainMatchTree) (count : Nat) (tree : RowMatchNode) (count1 : Nat)
    (hrows : Descending parent.m_rows)
    (h : build t fuel parent reached node count = some (tree, count1)) :
    tree.andRowsSorted = true := by
  refine build_induction t (fun parent _ => Descending parent.m_rows)
    (fun tree => tree.andRowsSorted = true) ?_ ?_ ?_ fuel parent reached node count tree count1
    hrows h
  · intro parent node left right ors hinv _
    have hdesc : Descending ((parent.add node).below ors).m_rows :=
      List.Pairwise.filter _ (add_descending node parent hinv)
    exact ⟨hdesc, hdesc⟩
  · intro parent node reached hinv
    exact andRowsSorted_branch _ t reached (add_descending node parent hinv)
  · intro parent node reached leftTree rightTree hinv hl hr
    apply RowMatchNode.andRowsSorted_conjoin
    · rw [RowMatchNode.conjunctRanks_orJoin, List.append_nil]
      exact emittedUpperRows_ranks_sorted _ reached (add_descending node parent hinv)
    · intro n hn
      simp only [Partition.emittedUpperRows, List.mem_map] at hn
      obtain ⟨row, _, rfl⟩ := hn
      rfl
    · rw [RowMatchNode.andRowsSorted_orJoin, hl, hr]
      rfl

end MatchTreeRewriter

namespace MatchTreeRewriter

/-- Without an `Or` node to multiply out, or with the target count reached,
the recursion returns the branch that closes the partition. -/
theorem build_eq_branch (t fuel : Nat) (parent : Partition) (reached : Option Nat)
    (node : PlainMatchTree) (count : Nat)
    (h : (parent.add node).m_ors = [] ∨ ¬ count < t) :
    build t (fuel + 1) parent reached node count
      = some ((parent.add node).branch t reached, count + 1) := by
  unfold build
  cases hors : (parent.add node).m_ors with
  | nil => rfl
  | cons pair ors =>
    obtain ⟨left, right⟩ := pair
    rcases h with h | h
    · rw [hors] at h
      cases h
    · simp only [h, if_false]

/-- With a target count of 0, or for a root without an `Or` conjunct, the
rewriter returns the branch that closes the conjuncts of the root. -/
theorem Rewrite_eq_branch (root : PlainMatchTree) (targetRowCount t : Nat)
    (h : root.conjunctOrs = [] ∨ t = 0) :
    Rewrite root targetRowCount t = some ((Partition.empty.add root).branch t none) := by
  obtain ⟨fuel, hfuel⟩ : ∃ fuel, root.size = fuel + 1 :=
    ⟨root.size - 1, by have := size_pos root; omega⟩
  have hb := build_eq_branch t fuel Partition.empty none root 0 (by
    rcases h with h | h
    · left
      rw [add_m_ors, h]
      rfl
    · right
      omega)
  unfold Rewrite
  rw [hfuel, hb]

/-- Before any rank is reached the rows are emitted as they are. -/
theorem emittedUpperRows_none (p : Partition) :
    p.emittedUpperRows none = p.upperRows.map RowMatchNode.Row := by
  simp [Partition.emittedUpperRows, AbstractRow.consumedAt]

/-- The rows of a partition in the order in which a branch emits them. -/
theorem upper_append_zero_perm (p : Partition) :
    (p.upperRows ++ p.rankZeroRows).Perm p.m_rows := by
  have h := List.filter_append_perm (fun row : AbstractRow => decide (0 < row.m_rank)) p.m_rows
  have hzero : p.rankZeroRows
      = p.m_rows.filter (fun row => !decide (0 < row.m_rank)) := by
    unfold Partition.rankZeroRows
    congr 1
    funext row
    by_cases hr : row.m_rank = 0 <;> simp [hr]
    omega
  rw [hzero]
  exact h

/-- The rows of a partition in the order in which a branch emits them are by
descending rank. -/
theorem upper_append_zero_descending (p : Partition) (h : Descending p.m_rows) :
    Descending (p.upperRows ++ p.rankZeroRows) := by
  refine List.pairwise_append.2 ⟨upperRows_descending p h, List.Pairwise.filter _ h, ?_⟩
  intro a _ b hb
  simp only [Partition.rankZeroRows, List.mem_filter, decide_eq_true_eq] at hb
  omega

/-- The rows of one rank in the order in which a branch emits them are those of
the partition. -/
theorem upper_append_zero_filter_rank (p : Partition) (k : Nat) :
    (p.upperRows ++ p.rankZeroRows).filter (fun r => decide (r.m_rank = k))
      = p.m_rows.filter (fun r => decide (r.m_rank = k)) := by
  simp only [Partition.upperRows, Partition.rankZeroRows, List.filter_append, List.filter_filter]
  by_cases hk : k = 0
  · subst hk
    have h1 : (p.m_rows.filter fun a => decide (a.m_rank = 0) && decide (0 < a.m_rank)) = [] := by
      rw [List.filter_eq_nil_iff]
      intro a _
      simp only [Bool.and_eq_true, decide_eq_true_eq]
      omega
    have h2 : (p.m_rows.filter fun a => decide (a.m_rank = 0) && decide (a.m_rank = 0))
        = p.m_rows.filter fun a => decide (a.m_rank = 0) := by
      congr 1
      funext a
      simp
    rw [h1, h2, List.nil_append]
  · have h1 : (p.m_rows.filter fun a => decide (a.m_rank = k) && decide (a.m_rank = 0)) = [] := by
      rw [List.filter_eq_nil_iff]
      intro a _
      simp only [Bool.and_eq_true, decide_eq_true_eq]
      omega
    have h2 : (p.m_rows.filter fun a => decide (a.m_rank = k) && decide (0 < a.m_rank))
        = p.m_rows.filter fun a => decide (a.m_rank = k) := by
      apply List.filter_congr
      intro a _
      by_cases ha : a.m_rank = k <;> simp [ha]
      omega
    rw [h1, h2, List.append_nil]

/-- The branch that closes a partition without `Or` and `Not` nodes, before
any rank is reached: its rows and an empty `Report` node. -/
theorem branch_of_rows (p : Partition) (t : Nat) (hors : p.m_ors = []) (hnots : p.m_nots = []) :
    p.branch t none
      = RowMatchNode.conjoin ((p.upperRows ++ p.rankZeroRows).map RowMatchNode.Row)
          (RowMatchNode.Report none) := by
  unfold Partition.branch
  rw [hors, hnots, emittedUpperRows_none]
  split <;> simp [RowMatchNode.reportOver]

end MatchTreeRewriter

/-- The rows of a conjunction of rows and a `Report` node. -/
theorem RowMatchNode.rows_conjoin_rows (rows : List AbstractRow) (child : Option RowMatchNode) :
    (RowMatchNode.conjoin (rows.map RowMatchNode.Row) (RowMatchNode.Report child)).rows = rows := by
  induction rows with
  | nil => rfl
  | cons first rest ih =>
    have : RowMatchNode.conjoin ((first :: rest).map RowMatchNode.Row) (RowMatchNode.Report child)
        = RowMatchNode.And (RowMatchNode.Row first)
          (RowMatchNode.conjoin (rest.map RowMatchNode.Row) (RowMatchNode.Report child)) := rfl
    rw [this]
    simp [RowMatchNode.rows, ih]

/-- The conjuncts of a conjunction of rows: its rows, no `Or` node and no `Not`
node. -/
theorem PlainMatchTree.conjuncts_of_isRowConjunction (root : PlainMatchTree)
    (h : root.isRowConjunction = true) :
    root.conjunctRows = root.rows ∧ root.conjunctOrs = [] ∧ root.conjunctNots = [] := by
  induction root with
  | And left right ihl ihr =>
    simp only [PlainMatchTree.isRowConjunction, Bool.and_eq_true] at h
    obtain ⟨hl1, hl2, hl3⟩ := ihl h.1
    obtain ⟨hr1, hr2, hr3⟩ := ihr h.2
    simp [PlainMatchTree.conjunctRows, PlainMatchTree.conjunctOrs, PlainMatchTree.conjunctNots,
      PlainMatchTree.rows, hl1, hl2, hl3, hr1, hr2, hr3]
  | Or left right => simp [PlainMatchTree.isRowConjunction] at h
  | Not child => simp [PlainMatchTree.isRowConjunction] at h
  | Row row =>
    simp [PlainMatchTree.conjunctRows, PlainMatchTree.conjunctOrs, PlainMatchTree.conjunctNots,
      PlainMatchTree.rows]

namespace RowMatchNode

/-- A way through a conjunction passes as many `Report` nodes as its last member
when the members before pass none. -/
theorem reportsPassed_conjoin_zero (front : List RowMatchNode) (last : RowMatchNode)
    (hfront : ∀ node ∈ front, ∀ k ∈ node.reportsPassed, k = 0) (c : Nat)
    (hlast : ∀ k ∈ last.reportsPassed, k = c) :
    ∀ k ∈ (conjoin front last).reportsPassed, k = c := by
  induction front with
  | nil => simpa [conjoin] using hlast
  | cons first rest ih =>
    have hcons : conjoin (first :: rest) last = RowMatchNode.And first (conjoin rest last) := rfl
    rw [hcons]
    intro k hk
    simp only [reportsPassed, List.mem_flatMap, List.mem_map] at hk
    obtain ⟨a, ha, b, hb, rfl⟩ := hk
    rw [hfront first (List.mem_cons_self _ _) a ha,
      ih (fun node hn => hfront node (List.mem_cons_of_mem _ hn)) b hb]
    omega

/-- A way through a chain of nodes without `Report` node passes none. -/
theorem reportsPassed_andChain_zero (first : RowMatchNode) (rest : List RowMatchNode)
    (h : ∀ node ∈ first :: rest, ∀ k ∈ node.reportsPassed, k = 0) :
    ∀ k ∈ (andChain first rest).reportsPassed, k = 0 := by
  induction rest generalizing first with
  | nil => simpa [andChain] using h
  | cons second rest ih =>
    intro k hk
    simp only [andChain, reportsPassed, List.mem_flatMap, List.mem_map] at hk
    obtain ⟨a, ha, b, hb, rfl⟩ := hk
    rw [h first (List.mem_cons_self _ _) a ha,
      ih second (fun node hn => h node (List.mem_cons_of_mem _ hn)) b hb]

/-- A way through a `Report` node over nodes without `Report` node passes one. -/
theorem reportsPassed_reportOver (children : List RowMatchNode)
    (h : ∀ node ∈ children, ∀ k ∈ node.reportsPassed, k = 0) :
    ∀ k ∈ (reportOver children).reportsPassed, k = 1 := by
  cases children with
  | nil => simp [reportOver, reportsPassed]
  | cons first rest =>
    intro k hk
    simp only [reportOver, reportsPassed, List.mem_map] at hk
    obtain ⟨a, ha, rfl⟩ := hk
    rw [reportsPassed_andChain_zero first rest h a ha]

/-- The ways through `orJoin` are the ways through its two children. -/
theorem reportsPassed_orJoin :
    ∀ left right : RowMatchNode,
      (orJoin left right).reportsPassed = left.reportsPassed ++ right.reportsPassed
  | .Or first rest, right => by
    simp [orJoin, reportsPassed, reportsPassed_orJoin rest right]
  | .And _ _, _ => by simp [orJoin, reportsPassed]
  | .Not _, _ => by simp [orJoin, reportsPassed]
  | .Report _, _ => by simp [orJoin, reportsPassed]
  | .Row _, _ => by simp [orJoin, reportsPassed]

/-- A conjunction ends as its last member does. -/
theorem endsInReport_conjoin (front : List RowMatchNode) (last : RowMatchNode) :
    (conjoin front last).endsInReport = last.endsInReport := by
  induction front with
  | nil => rfl
  | cons first rest ih =>
    have hcons : conjoin (first :: rest) last = RowMatchNode.And first (conjoin rest last) := rfl
    rw [hcons]
    simpa [endsInReport] using ih

/-- `orJoin` ends in `Report` nodes when its two children do. -/
theorem endsInReport_orJoin :
    ∀ left right : RowMatchNode,
      (orJoin left right).endsInReport = (left.endsInReport && right.endsInReport)
  | .Or first rest, right => by
    simp [orJoin, endsInReport, endsInReport_orJoin rest right, Bool.and_assoc]
  | .And _ _, _ => by simp [orJoin, endsInReport]
  | .Not _, _ => by simp [orJoin, endsInReport]
  | .Report _, _ => by simp [orJoin, endsInReport]
  | .Row _, _ => by simp [orJoin, endsInReport]

/-- A `Report` node ends in a `Report` node. -/
theorem endsInReport_reportOver (children : List RowMatchNode) :
    (reportOver children).endsInReport = true := by
  cases children <;> rfl

end RowMatchNode

/-- A way through a copy at rank 0 passes no `Report` node. -/
theorem PlainMatchTree.reportsPassed_atRankZero (tree : PlainMatchTree) :
    ∀ k ∈ tree.atRankZero.reportsPassed, k = 0 := by
  induction tree with
  | And left right ihl ihr =>
    intro k hk
    simp only [PlainMatchTree.atRankZero, RowMatchNode.reportsPassed, List.mem_flatMap,
      List.mem_map] at hk
    obtain ⟨a, ha, b, hb, rfl⟩ := hk
    rw [ihl a ha, ihr b hb]
  | Or left right ihl ihr =>
    intro k hk
    simp only [PlainMatchTree.atRankZero, RowMatchNode.reportsPassed, List.mem_append] at hk
    rcases hk with hk | hk
    · exact ihl k hk
    · exact ihr k hk
  | Not child ih => simpa [PlainMatchTree.atRankZero, RowMatchNode.reportsPassed] using ih
  | Row row => simp [PlainMatchTree.atRankZero, RowMatchNode.reportsPassed]

namespace MatchTreeRewriter

/-- A row passes no `Report` node. -/
theorem reportsPassed_front (p : Partition) (reached : Option Nat) :
    ∀ node ∈ p.emittedUpperRows reached ++ p.rankZeroRows.map RowMatchNode.Row,
      ∀ k ∈ node.reportsPassed, k = 0 := by
  intro node hn
  simp only [Partition.emittedUpperRows, List.mem_append, List.mem_map] at hn
  rcases hn with ⟨row, _, rfl⟩ | ⟨row, _, rfl⟩ <;> simp [RowMatchNode.reportsPassed]

/-- A way through an `Or` node that is not multiplied out passes no `Report` node. -/
theorem reportsPassed_residualOr (pair : PlainMatchTree × PlainMatchTree) :
    ∀ k ∈ (residualOr pair).reportsPassed, k = 0 := by
  intro k hk
  simp only [residualOr, RowMatchNode.reportsPassed, List.mem_append] at hk
  rcases hk with hk | hk
  · exact pair.1.reportsPassed_atRankZero k hk
  · exact pair.2.reportsPassed_atRankZero k hk

/-- A way through a `Not` node below a `Report` node passes no further `Report`
node. -/
theorem reportsPassed_reportedNot (child : PlainMatchTree) :
    ∀ k ∈ (reportedNot child).reportsPassed, k = 0 := by
  intro k hk
  exact child.reportsPassed_atRankZero k hk

/-- A way through the `Report` node of a branch passes one `Report` node. -/
theorem reportsPassed_report (ors : List (PlainMatchTree × PlainMatchTree))
    (nots : List PlainMatchTree) :
    ∀ k ∈ (RowMatchNode.reportOver (ors.map residualOr ++ nots.map reportedNot)).reportsPassed,
      k = 1 := by
  apply RowMatchNode.reportsPassed_reportOver
  intro node hn
  simp only [List.mem_append, List.mem_map] at hn
  rcases hn with ⟨pair, _, rfl⟩ | ⟨child, _, rfl⟩
  · exact reportsPassed_residualOr pair
  · exact reportsPassed_reportedNot child

/-- Every way through the branch that closes a partition passes exactly one
`Report` node, the last child of the branch. -/
theorem reportsPassed_branch (p : Partition) (t : Nat) (reached : Option Nat) :
    (∀ k ∈ (p.branch t reached).reportsPassed, k = 1) ∧
      (p.branch t reached).endsInReport = true := by
  unfold Partition.branch
  split
  · refine ⟨RowMatchNode.reportsPassed_conjoin_zero _ _ (reportsPassed_front p reached) 1
      (reportsPassed_report p.m_ors p.m_nots), ?_⟩
    rw [RowMatchNode.endsInReport_conjoin, RowMatchNode.endsInReport_reportOver]
  · refine ⟨RowMatchNode.reportsPassed_conjoin_zero _ _ ?_ 1 ?_, ?_⟩
    · intro node hn
      rcases List.mem_append.1 hn with hn | hn
      · exact reportsPassed_front p reached node hn
      · obtain ⟨pair, _, rfl⟩ := List.mem_map.1 hn
        exact reportsPassed_residualOr pair
    · have := reportsPassed_report [] p.m_nots
      simpa using this
    · rw [RowMatchNode.endsInReport_conjoin, RowMatchNode.endsInReport_reportOver]

/-- Every way through a tree of the recursion passes exactly one `Report`
node, and every branch of the tree ends in one. -/
theorem reportsPassed_build (t fuel : Nat) (parent : Partition) (reached : Option Nat)
    (node : PlainMatchTree) (count : Nat) (tree : RowMatchNode) (count1 : Nat)
    (h : build t fuel parent reached node count = some (tree, count1)) :
    (∀ k ∈ tree.reportsPassed, k = 1) ∧ tree.endsInReport = true := by
  refine build_induction t (fun _ _ => True)
    (fun tree => (∀ k ∈ tree.reportsPassed, k = 1) ∧ tree.endsInReport = true) ?_ ?_ ?_
    fuel parent reached node count tree count1 trivial h
  · intro _ _ _ _ _ _ _
    exact ⟨trivial, trivial⟩
  · intro parent node reached _
    exact reportsPassed_branch _ t reached
  · intro parent node reached leftTree rightTree _ hl hr
    refine ⟨RowMatchNode.reportsPassed_conjoin_zero _ _ ?_ 1 ?_, ?_⟩
    · intro n hn
      simp only [Partition.emittedUpperRows, List.mem_map] at hn
      obtain ⟨row, _, rfl⟩ := hn
      simp [RowMatchNode.reportsPassed]
    · rw [RowMatchNode.reportsPassed_orJoin]
      intro k hk
      rcases List.mem_append.1 hk with hk | hk
      · exact hl.1 k hk
      · exact hr.1 k hk
    · rw [RowMatchNode.endsInReport_conjoin, RowMatchNode.endsInReport_orJoin, hl.2, hr.2]
      rfl

end MatchTreeRewriter

namespace MatchTreeRewriter

end MatchTreeRewriter

namespace RowMatchNode

/-- The test `same` decides whether two trees are equal. -/
theorem same_eq_true_iff : ∀ a b : RowMatchNode, a.same b = true ↔ a = b
  | .And a b, .And c d => by
    simp [same, same_eq_true_iff a c, same_eq_true_iff b d]
  | .Or a b, .Or c d => by
    simp [same, same_eq_true_iff a c, same_eq_true_iff b d]
  | .Not a, .Not c => by simp [same, same_eq_true_iff a c]
  | .Report none, .Report none => by simp [same]
  | .Report (some a), .Report (some c) => by simp [same, same_eq_true_iff a c]
  | .Row a, .Row c => by simp [same]
  | .And _ _, .Or _ _ => by simp [same]
  | .And _ _, .Not _ => by simp [same]
  | .And _ _, .Report _ => by simp [same]
  | .And _ _, .Row _ => by simp [same]
  | .Or _ _, .And _ _ => by simp [same]
  | .Or _ _, .Not _ => by simp [same]
  | .Or _ _, .Report _ => by simp [same]
  | .Or _ _, .Row _ => by simp [same]
  | .Not _, .And _ _ => by simp [same]
  | .Not _, .Or _ _ => by simp [same]
  | .Not _, .Report _ => by simp [same]
  | .Not _, .Row _ => by simp [same]
  | .Report _, .And _ _ => by simp [same]
  | .Report _, .Or _ _ => by simp [same]
  | .Report _, .Not _ => by simp [same]
  | .Report _, .Row _ => by simp [same]
  | .Report none, .Report (some _) => by simp [same]
  | .Report (some _), .Report none => by simp [same]
  | .Row _, .And _ _ => by simp [same]
  | .Row _, .Or _ _ => by simp [same]
  | .Row _, .Not _ => by simp [same]
  | .Row _, .Report _ => by simp [same]

/-- A conjunction of rows and a `Report` node has no `Or` node outside the `Report`
node. -/
theorem hasOrOutsideReport_conjoin_rows (rows : List AbstractRow)
    (children : List RowMatchNode) :
    (conjoin (rows.map RowMatchNode.Row) (reportOver children)).hasOrOutsideReport = false := by
  induction rows with
  | nil => cases children <;> rfl
  | cons first rest ih =>
    have hcons : conjoin ((first :: rest).map RowMatchNode.Row) (reportOver children)
        = RowMatchNode.And (RowMatchNode.Row first)
          (conjoin (rest.map RowMatchNode.Row) (reportOver children)) := rfl
    rw [hcons]
    simp [hasOrOutsideReport, ih]

/-- A conjunction of rows and a `Report` node is one fully multiplied-out branch. -/
theorem fullBranches_conjoin_rows (rows : List AbstractRow) (children : List RowMatchNode) :
    (conjoin (rows.map RowMatchNode.Row) (reportOver children)).fullBranches = 1 ∧
      (conjoin (rows.map RowMatchNode.Row) (reportOver children)).hasReportConjunct = true ∧
      (conjoin (rows.map RowMatchNode.Row) (reportOver children)).hasOrConjunct = false := by
  induction rows with
  | nil => cases children <;> exact ⟨rfl, rfl, rfl⟩
  | cons first rest ih =>
    have hcons : conjoin ((first :: rest).map RowMatchNode.Row) (reportOver children)
        = RowMatchNode.And (RowMatchNode.Row first)
          (conjoin (rest.map RowMatchNode.Row) (reportOver children)) := rfl
    rw [hcons]
    obtain ⟨_, h2, h3⟩ := ih
    simp [fullBranches, hasReportConjunct, hasOrConjunct, h2, h3]

end RowMatchNode

/-- A copy at rank 0 has the shape of the tree. -/
theorem PlainMatchTree.shape_atRankZero (tree : PlainMatchTree) :
    tree.atRankZero.shape = tree.shape := by
  induction tree with
  | And left right ihl ihr =>
    simp [PlainMatchTree.atRankZero, RowMatchNode.shape, PlainMatchTree.shape, ihl, ihr]
  | Or left right ihl ihr =>
    simp [PlainMatchTree.atRankZero, RowMatchNode.shape, PlainMatchTree.shape, ihl, ihr]
  | Not child ih =>
    simp [PlainMatchTree.atRankZero, RowMatchNode.shape, PlainMatchTree.shape, ih]
  | Row row => rfl

/-- The rows of a copy at rank 0 are the rows of the tree, each consumed at rank
0. -/
theorem PlainMatchTree.rows_atRankZero (tree : PlainMatchTree) :
    tree.atRankZero.rows = tree.rows.map fun row => row.atRank 0 := by
  induction tree with
  | And left right ihl ihr =>
    simp [PlainMatchTree.atRankZero, RowMatchNode.rows, PlainMatchTree.rows, ihl, ihr]
  | Or left right ihl ihr =>
    simp [PlainMatchTree.atRankZero, RowMatchNode.rows, PlainMatchTree.rows, ihl, ihr]
  | Not child ih =>
    simpa [PlainMatchTree.atRankZero, RowMatchNode.rows, PlainMatchTree.rows] using ih
  | Row row => rfl

/-- The conjuncts of a conjunction of rows and negated rows: no `Or` node, and the
negated rows as `Not` nodes. -/
theorem PlainMatchTree.conjuncts_of_isLiteralConjunction (root : PlainMatchTree)
    (h : root.isLiteralConjunction = true) :
    root.conjunctOrs = [] ∧
      root.conjunctNots = root.negatedRows.map PlainMatchTree.Row := by
  induction root with
  | And left right ihl ihr =>
    simp only [PlainMatchTree.isLiteralConjunction, Bool.and_eq_true] at h
    obtain ⟨hl1, hl2⟩ := ihl h.1
    obtain ⟨hr1, hr2⟩ := ihr h.2
    simp [PlainMatchTree.conjunctOrs, PlainMatchTree.conjunctNots, PlainMatchTree.negatedRows,
      hl1, hl2, hr1, hr2]
  | Or left right => simp [PlainMatchTree.isLiteralConjunction] at h
  | Not child =>
    cases child with
    | Row row => exact ⟨rfl, rfl⟩
    | And _ _ => simp [PlainMatchTree.isLiteralConjunction] at h
    | Or _ _ => simp [PlainMatchTree.isLiteralConjunction] at h
    | Not _ => simp [PlainMatchTree.isLiteralConjunction] at h
  | Row row => exact ⟨rfl, rfl⟩

namespace MatchTreeRewriter

/-- The branch that closes a partition when the target count is 0, before any
rank is reached: the rows, and the `Report` node over the `Or` nodes and the
`Not` nodes. -/
theorem branch_zero (p : Partition) :
    p.branch 0 none
      = RowMatchNode.conjoin ((p.upperRows ++ p.rankZeroRows).map RowMatchNode.Row)
          (RowMatchNode.reportOver (p.m_ors.map residualOr ++ p.m_nots.map reportedNot)) := by
  unfold Partition.branch
  rw [if_pos rfl, emittedUpperRows_none, List.map_append]

/-- The tree that the rewriter returns when the target count is 0. -/
theorem Rewrite_zero (root : PlainMatchTree) (targetRowCount : Nat) :
    Rewrite root targetRowCount 0
      = some (RowMatchNode.conjoin
          (((Partition.empty.add root).upperRows ++
            (Partition.empty.add root).rankZeroRows).map RowMatchNode.Row)
          (RowMatchNode.reportOver (root.conjunctOrs.reverse.map residualOr ++
            root.conjunctNots.reverse.map reportedNot))) := by
  rw [Rewrite_eq_branch root targetRowCount 0 (Or.inr rfl), branch_zero, add_m_ors, add_m_nots]
  simp [Partition.empty]

/-- The rows that a branch emits for the conjuncts of a root: the rows that
are conjuncts of the root, by descending rank. -/
theorem rows_of_root (root : PlainMatchTree) :
    ((Partition.empty.add root).upperRows ++
        (Partition.empty.add root).rankZeroRows).Perm root.conjunctRows ∧
      Descending ((Partition.empty.add root).upperRows ++
        (Partition.empty.add root).rankZeroRows) := by
  constructor
  · refine (upper_append_zero_perm _).trans ?_
    have := add_m_rows_perm root Partition.empty
    simpa [Partition.empty] using this
  · exact upper_append_zero_descending _ (add_descending root _ List.Pairwise.nil)

end MatchTreeRewriter

namespace RowMatchNode

/-- The branches of `orJoin` are those of its two children. -/
theorem fullBranches_orJoin :
    ∀ left right : RowMatchNode,
      (orJoin left right).fullBranches = left.fullBranches + right.fullBranches
  | .Or first rest, right => by
    simp [orJoin, fullBranches, fullBranches_orJoin rest right, Nat.add_assoc]
  | .And _ _, _ => by simp [orJoin, fullBranches]
  | .Not _, _ => by simp [orJoin, fullBranches]
  | .Report _, _ => by simp [orJoin, fullBranches]
  | .Row _, _ => by simp [orJoin, fullBranches]

/-- `orJoin` is an `Or` node. -/
theorem hasReportConjunct_orJoin (left right : RowMatchNode) :
    (orJoin left right).hasReportConjunct = false := by
  cases left <;> simp [orJoin, hasReportConjunct]

/-- A conjunction has a `Report` node as conjunct when one of its members has. -/
theorem hasReportConjunct_conjoin (front : List RowMatchNode) (last : RowMatchNode) :
    (conjoin front last).hasReportConjunct
      = (front.any hasReportConjunct || last.hasReportConjunct) := by
  induction front with
  | nil => simp [conjoin]
  | cons first rest ih =>
    have hcons : conjoin (first :: rest) last = RowMatchNode.And first (conjoin rest last) := rfl
    rw [hcons]
    simp [hasReportConjunct, ih, Bool.or_assoc]

/-- A conjunction has an `Or` node as conjunct when one of its members has. -/
theorem hasOrConjunct_conjoin (front : List RowMatchNode) (last : RowMatchNode) :
    (conjoin front last).hasOrConjunct = (front.any hasOrConjunct || last.hasOrConjunct) := by
  induction front with
  | nil => simp [conjoin]
  | cons first rest ih =>
    have hcons : conjoin (first :: rest) last = RowMatchNode.And first (conjoin rest last) := rfl
    rw [hcons]
    simp [hasOrConjunct, ih, Bool.or_assoc]

/-- A node with a `Report` node as conjunct is one branch, fully multiplied out
when it has no `Or` node as conjunct. -/
theorem fullBranches_of_hasReportConjunct (node : RowMatchNode)
    (h : node.hasReportConjunct = true) :
    node.fullBranches = if node.hasOrConjunct then 0 else 1 := by
  cases node with
  | And left right => simp [fullBranches, h]
  | Report child => simp [fullBranches, hasOrConjunct]
  | Or left right => simp [hasReportConjunct] at h
  | Not child => simp [hasReportConjunct] at h
  | Row row => simp [hasReportConjunct] at h

/-- A `Report` node is a `Report` node and no `Or` node. -/
theorem hasReportConjunct_reportOver (children : List RowMatchNode) :
    (reportOver children).hasReportConjunct = true ∧
      (reportOver children).hasOrConjunct = false := by
  cases children <;> exact ⟨rfl, rfl⟩

/-- The rows emitted before an `Or` node that is multiplied out add no
branch. -/
theorem fullBranches_conjoin_orJoin (rows : List AbstractRow) (f : AbstractRow → AbstractRow)
    (left right : RowMatchNode) :
    (conjoin (rows.map fun row => RowMatchNode.Row (f row)) (orJoin left right)).fullBranches
      = left.fullBranches + right.fullBranches := by
  induction rows with
  | nil => exact fullBranches_orJoin left right
  | cons first rest ih =>
    have hcons : conjoin ((first :: rest).map fun row => RowMatchNode.Row (f row))
          (orJoin left right)
        = RowMatchNode.And (RowMatchNode.Row (f first))
          (conjoin (rest.map fun row => RowMatchNode.Row (f row)) (orJoin left right)) := rfl
    have hrep : (conjoin (rest.map fun row => RowMatchNode.Row (f row))
        (orJoin left right)).hasReportConjunct = false := by
      rw [hasReportConjunct_conjoin, hasReportConjunct_orJoin, Bool.or_false,
        List.any_eq_false]
      intro node hn
      obtain ⟨row, _, rfl⟩ := List.mem_map.1 hn
      simp [hasReportConjunct]
    rw [hcons]
    simp [fullBranches, hasReportConjunct, hrep, ih]

end RowMatchNode

/-- The product space of a tree is not empty. -/
theorem PlainMatchTree.productSpace_pos (tree : PlainMatchTree) : 0 < tree.productSpace := by
  induction tree with
  | And left right ihl ihr => exact Nat.mul_pos ihl ihr
  | Or left right ihl ihr =>
    simp only [PlainMatchTree.productSpace]
    omega
  | Not child => exact Nat.one_pos
  | Row row => exact Nat.one_pos

namespace MatchTreeRewriter

/-- The product of a list of `Or` nodes is not empty. -/
theorem orsWidth_pos (ors : List (PlainMatchTree × PlainMatchTree)) : 0 < orsWidth ors := by
  induction ors with
  | nil => exact Nat.one_pos
  | cons pair rest ih =>
    have := pair.1.productSpace_pos
    exact Nat.mul_pos (by omega) ih

/-- The product of two lists of `Or` nodes. -/
theorem orsWidth_append (a b : List (PlainMatchTree × PlainMatchTree)) :
    orsWidth (a ++ b) = orsWidth a * orsWidth b := by
  induction a with
  | nil => simp [orsWidth]
  | cons pair rest ih => simp [orsWidth, ih, Nat.mul_assoc]

/-- The product of a list of `Or` nodes does not depend on their order. -/
theorem orsWidth_reverse (a : List (PlainMatchTree × PlainMatchTree)) :
    orsWidth a.reverse = orsWidth a := by
  induction a with
  | nil => rfl
  | cons pair rest ih =>
    simp [orsWidth, orsWidth_append, ih, Nat.mul_comm]

/-- The product of the `Or` nodes that are conjuncts of a tree is the product space
of the tree. -/
theorem orsWidth_conjunctOrs (tree : PlainMatchTree) :
    orsWidth tree.conjunctOrs = tree.productSpace := by
  induction tree with
  | And left right ihl ihr =>
    simp [PlainMatchTree.conjunctOrs, PlainMatchTree.productSpace, orsWidth_append, ihl, ihr]
  | Or left right => simp [PlainMatchTree.conjunctOrs, PlainMatchTree.productSpace, orsWidth]
  | Not child => rfl
  | Row row => rfl

/-- With a target count above 0, the branch that closes a partition is fully
multiplied out exactly when no `Or` node is left in the partition. -/
theorem fullBranches_branch (p : Partition) (t : Nat) (reached : Option Nat) (ht : 0 < t) :
    (p.branch t reached).fullBranches = if p.m_ors = [] then 1 else 0 := by
  unfold Partition.branch
  rw [if_neg (by omega)]
  rw [RowMatchNode.fullBranches_of_hasReportConjunct _ (by
    rw [RowMatchNode.hasReportConjunct_conjoin,
      (RowMatchNode.hasReportConjunct_reportOver _).1, Bool.or_true])]
  rw [RowMatchNode.hasOrConjunct_conjoin, (RowMatchNode.hasReportConjunct_reportOver _).2,
    Bool.or_false]
  cases hors : p.m_ors with
  | nil =>
    have hnone : (p.emittedUpperRows reached ++ p.rankZeroRows.map RowMatchNode.Row ++
        ([] : List (PlainMatchTree × PlainMatchTree)).map residualOr).any
          RowMatchNode.hasOrConjunct = false := by
      rw [List.any_eq_false]
      intro node hn
      simp only [Partition.emittedUpperRows, List.map_nil, List.append_nil, List.mem_append,
        List.mem_map] at hn
      rcases hn with ⟨row, _, rfl⟩ | ⟨row, _, rfl⟩ <;> simp [RowMatchNode.hasOrConjunct]
    rw [hnone]
    rfl
  | cons pair ors =>
    have hsome : (p.emittedUpperRows reached ++ p.rankZeroRows.map RowMatchNode.Row ++
        (pair :: ors).map residualOr).any RowMatchNode.hasOrConjunct = true := by
      rw [List.any_eq_true]
      exact ⟨residualOr pair, by simp, rfl⟩
    rw [hsome]
    rfl

/-- An `Or` node over rows has a row as left child and an `Or` node over rows, or
a row, as right child. -/
theorem isRowChain_or (left right : PlainMatchTree)
    (h : (PlainMatchTree.Or left right).isRowChain = true) :
    (∃ row, left = PlainMatchTree.Row row) ∧ right.isRowChain = true := by
  cases left with
  | Row row => exact ⟨⟨row, rfl⟩, by simpa [PlainMatchTree.isRowChain] using h⟩
  | And _ _ => simp [PlainMatchTree.isRowChain] at h
  | Or _ _ => simp [PlainMatchTree.isRowChain] at h
  | Not _ => simp [PlainMatchTree.isRowChain] at h

/-- The `Or` node that is the conjunct of an `Or` node over rows is that node. -/
theorem conjunctOrs_of_isRowChain (tree : PlainMatchTree) (h : tree.isRowChain = true) :
    ∀ pair ∈ tree.conjunctOrs, (PlainMatchTree.Or pair.1 pair.2).isRowChain = true := by
  cases tree with
  | Row row => simp [PlainMatchTree.conjunctOrs]
  | Or left right =>
    intro pair hp
    simp only [PlainMatchTree.conjunctOrs, List.mem_singleton] at hp
    subst hp
    exact h
  | And _ _ => simp [PlainMatchTree.isRowChain] at h
  | Not _ => simp [PlainMatchTree.isRowChain] at h

/-- The `Or` nodes that are conjuncts of a conjunction of rows, `Not` nodes and
`Or` nodes over rows are `Or` nodes over rows. -/
theorem conjunctOrs_of_isFlatProduct (tree : PlainMatchTree) (h : tree.isFlatProduct = true) :
    ∀ pair ∈ tree.conjunctOrs, (PlainMatchTree.Or pair.1 pair.2).isRowChain = true := by
  induction tree with
  | And left right ihl ihr =>
    simp only [PlainMatchTree.isFlatProduct, Bool.and_eq_true] at h
    intro pair hp
    simp only [PlainMatchTree.conjunctOrs, List.mem_append] at hp
    rcases hp with hp | hp
    · exact ihl h.1 pair hp
    · exact ihr h.2 pair hp
  | Or left right =>
    intro pair hp
    simp only [PlainMatchTree.conjunctOrs, List.mem_singleton] at hp
    subst hp
    exact h
  | Not child => simp [PlainMatchTree.conjunctOrs]
  | Row row => simp [PlainMatchTree.conjunctOrs]

/-- The count of the branches of the recursion, for `Or` nodes over rows and a
target count above 0.  The count grows by the number of branches built, of
which the fully multiplied-out ones are at most one more than the count still
to go, and at most as many as the product of the `Or` nodes that are
pending. -/
theorem fullBranches_build (t : Nat) (ht : 0 < t) :
    ∀ (fuel : Nat) (parent : Partition) (reached : Option Nat) (node : PlainMatchTree)
      (count : Nat) (tree : RowMatchNode) (count1 : Nat),
      (∀ pair ∈ (parent.add node).m_ors,
        (PlainMatchTree.Or pair.1 pair.2).isRowChain = true) →
      build t fuel parent reached node count = some (tree, count1) →
      count < count1 ∧ tree.fullBranches ≤ count1 - count ∧
        (t ≤ count → tree.fullBranches ≤ 1 ∧
          (tree.fullBranches = 1 → (parent.add node).m_ors = [])) ∧
        (count < t → tree.fullBranches ≤ t - count + 1) ∧
        tree.fullBranches ≤ orsWidth (parent.add node).m_ors ∧
        ((parent.add node).m_ors = [] → count1 = count + 1) := by
  intro fuel
  induction fuel with
  | zero =>
    intro parent reached node count tree count1 _ h
    simp [build] at h
  | succ fuel ih =>
    intro parent reached node count tree count1 hinv h
    have hleaf : tree = (parent.add node).branch t reached → count1 = count + 1 →
        count < count1 ∧ tree.fullBranches ≤ count1 - count ∧
        (t ≤ count → tree.fullBranches ≤ 1 ∧
          (tree.fullBranches = 1 → (parent.add node).m_ors = [])) ∧
        (count < t → tree.fullBranches ≤ t - count + 1) ∧
        tree.fullBranches ≤ orsWidth (parent.add node).m_ors ∧
        ((parent.add node).m_ors = [] → count1 = count + 1) := by
      intro htree hcount
      have hfb := fullBranches_branch (parent.add node) t reached ht
      rw [← htree] at hfb
      have hw := orsWidth_pos (parent.add node).m_ors
      by_cases hors : (parent.add node).m_ors = []
      · rw [if_pos hors] at hfb
        refine ⟨by omega, by omega, fun _ => ⟨by omega, fun _ => hors⟩, fun _ => by omega,
          by omega, fun _ => hcount⟩
      · rw [if_neg hors] at hfb
        refine ⟨by omega, by omega, fun _ => ⟨by omega, fun h1 => by omega⟩,
          fun _ => by omega, by omega, fun _ => hcount⟩
    unfold build at h
    cases hors : (parent.add node).m_ors with
    | nil =>
      rw [hors] at h
      simp only [Option.some.injEq, Prod.mk.injEq] at h
      have := hleaf h.1.symm h.2.symm
      rw [hors] at this
      exact this
    | cons pair ors =>
      obtain ⟨left, right⟩ := pair
      rw [hors] at h
      simp only at h
      by_cases hc : count < t
      · simp only [hc, if_true] at h
        have hpair := hinv (left, right) (by rw [hors]; exact List.mem_cons_self _ _)
        obtain ⟨⟨row, hrow⟩, hright⟩ := isRowChain_or left right hpair
        have hrest : ∀ pair ∈ ors, (PlainMatchTree.Or pair.1 pair.2).isRowChain = true :=
          fun pair hp => hinv pair (by rw [hors]; exact List.mem_cons_of_mem _ hp)
        have horsl : (((parent.add node).below ors).add left).m_ors = ors := by
          rw [add_m_ors, hrow]
          rfl
        have horsr : (((parent.add node).below ors).add right).m_ors
            = right.conjunctOrs.reverse ++ ors := by
          rw [add_m_ors]
          rfl
        cases hl : build t fuel ((parent.add node).below ors)
            (rankAfter reached (parent.add node).upperRows) left count with
        | none => rw [hl] at h; simp at h
        | some resl =>
          obtain ⟨leftTree, cl⟩ := resl
          rw [hl] at h
          simp only at h
          cases hr : build t fuel ((parent.add node).below ors)
              (rankAfter reached (parent.add node).upperRows) right cl with
          | none => rw [hr] at h; simp at h
          | some resr =>
            obtain ⟨rightTree, cr⟩ := resr
            rw [hr] at h
            simp only [Option.some.injEq, Prod.mk.injEq] at h
            obtain ⟨htree, hcount⟩ := h
            obtain ⟨hl1, hl2, _, hl4, hl5, hl6⟩ := ih _ _ _ _ _ _
              (by rw [horsl]; exact hrest) hl
            obtain ⟨hr1, hr2, hr3, hr4, hr5, _⟩ := ih _ _ _ _ _ _ (by
              rw [horsr]
              intro pair hp
              rcases List.mem_append.1 hp with hp | hp
              · exact conjunctOrs_of_isRowChain right hright pair (List.mem_reverse.1 hp)
              · exact hrest pair hp) hr
            have hfb : tree.fullBranches = leftTree.fullBranches + rightTree.fullBranches := by
              rw [← htree]
              exact RowMatchNode.fullBranches_conjoin_orJoin _ _ leftTree rightTree
            rw [horsl] at hl5 hl6
            rw [horsr, orsWidth_append, orsWidth_reverse, orsWidth_conjunctOrs] at hr5
            rw [horsr] at hr3
            subst hcount
            refine ⟨by omega, by omega, fun hle => by omega, fun _ => ?_, ?_,
              fun hnil => by cases hnil⟩
            · by_cases hcl : cl < t
              · have := hr4 hcl
                omega
              · obtain ⟨hle1, hone⟩ := hr3 (by omega)
                have hl4' := hl4 hc
                by_cases hzero : rightTree.fullBranches = 0
                · omega
                · have hnil := hone (by omega)
                  have horsnil : ors = [] := (List.append_eq_nil.1 hnil).2
                  have := hl6 horsnil
                  omega
            · simp only [orsWidth, hrow, PlainMatchTree.productSpace]
              have : (1 + right.productSpace) * orsWidth ors
                  = orsWidth ors + right.productSpace * orsWidth ors := by
                rw [Nat.add_mul, Nat.one_mul]
              omega
      · simp only [hc, if_false, Option.some.injEq, Prod.mk.injEq] at h
        have := hleaf h.1.symm h.2.symm
        rw [hors] at this
        exact this

/-- The count of `Or` nodes of two lists of pending `Or` nodes is the sum of
their counts. -/
theorem orsCount_append (a b : List (PlainMatchTree × PlainMatchTree)) :
    orsCount (a ++ b) = orsCount a + orsCount b := by
  induction a with
  | nil => simp [orsCount]
  | cons pair rest ih =>
    rw [List.cons_append]
    simp only [orsCount]
    rw [ih]
    omega

/-- The count of `Or` nodes does not depend on the order of the list. -/
theorem orsCount_reverse (a : List (PlainMatchTree × PlainMatchTree)) :
    orsCount a.reverse = orsCount a := by
  induction a with
  | nil => rfl
  | cons pair rest ih =>
    simp only [List.reverse_cons, orsCount_append, ih, orsCount]
    omega

/-- The `Or` nodes that are conjuncts of a tree hold the `Or` nodes of the
tree outside its `Not` subtrees. -/
theorem orsCount_conjunctOrs (tree : PlainMatchTree) :
    orsCount tree.conjunctOrs = tree.orCount := by
  induction tree with
  | And left right ihl ihr =>
    simp [PlainMatchTree.conjunctOrs, PlainMatchTree.orCount, orsCount_append, ihl, ihr]
  | Or left right => simp [PlainMatchTree.conjunctOrs, PlainMatchTree.orCount, orsCount]
  | Not child => rfl
  | Row row => rfl

/-- The count of the branches of the recursion for any input and a target
count above 0.  The count grows by the number of branches built, of which the
fully multiplied-out ones are at most one once the target count is reached,
at most the count still to go and the number of `Or` nodes that are pending
before it is reached, and at most as many as the product of the `Or` nodes
that are pending. -/
theorem fullBranches_build_le (t : Nat) (ht : 0 < t) :
    ∀ (fuel : Nat) (parent : Partition) (reached : Option Nat) (node : PlainMatchTree)
      (count : Nat) (tree : RowMatchNode) (count1 : Nat),
      build t fuel parent reached node count = some (tree, count1) →
      count < count1 ∧ tree.fullBranches ≤ count1 - count ∧
        (t ≤ count → tree.fullBranches ≤ 1) ∧
        (count < t → tree.fullBranches ≤ t - count + orsCount (parent.add node).m_ors) ∧
        tree.fullBranches ≤ orsWidth (parent.add node).m_ors := by
  intro fuel
  induction fuel with
  | zero =>
    intro parent reached node count tree count1 h
    simp [build] at h
  | succ fuel ih =>
    intro parent reached node count tree count1 h
    have hleaf : tree = (parent.add node).branch t reached → count1 = count + 1 →
        count < count1 ∧ tree.fullBranches ≤ count1 - count ∧
        (t ≤ count → tree.fullBranches ≤ 1) ∧
        (count < t → tree.fullBranches ≤ t - count + orsCount (parent.add node).m_ors) ∧
        tree.fullBranches ≤ orsWidth (parent.add node).m_ors := by
      intro htree hcount
      have hfb := fullBranches_branch (parent.add node) t reached ht
      rw [← htree] at hfb
      have hw := orsWidth_pos (parent.add node).m_ors
      by_cases hors : (parent.add node).m_ors = []
      · rw [if_pos hors] at hfb
        exact ⟨by omega, by omega, fun _ => by omega, fun _ => by omega, by omega⟩
      · rw [if_neg hors] at hfb
        exact ⟨by omega, by omega, fun _ => by omega, fun _ => by omega, by omega⟩
    unfold build at h
    cases hors : (parent.add node).m_ors with
    | nil =>
      rw [hors] at h
      simp only [Option.some.injEq, Prod.mk.injEq] at h
      have := hleaf h.1.symm h.2.symm
      rw [hors] at this
      exact this
    | cons pair ors =>
      obtain ⟨left, right⟩ := pair
      rw [hors] at h
      simp only at h
      by_cases hc : count < t
      · simp only [hc, if_true] at h
        have horsl : (((parent.add node).below ors).add left).m_ors
            = left.conjunctOrs.reverse ++ ors := by
          rw [add_m_ors]
          rfl
        have horsr : (((parent.add node).below ors).add right).m_ors
            = right.conjunctOrs.reverse ++ ors := by
          rw [add_m_ors]
          rfl
        cases hl : build t fuel ((parent.add node).below ors)
            (rankAfter reached (parent.add node).upperRows) left count with
        | none => rw [hl] at h; simp at h
        | some resl =>
          obtain ⟨leftTree, cl⟩ := resl
          rw [hl] at h
          simp only at h
          cases hr : build t fuel ((parent.add node).below ors)
              (rankAfter reached (parent.add node).upperRows) right cl with
          | none => rw [hr] at h; simp at h
          | some resr =>
            obtain ⟨rightTree, cr⟩ := resr
            rw [hr] at h
            simp only [Option.some.injEq, Prod.mk.injEq] at h
            obtain ⟨htree, hcount⟩ := h
            obtain ⟨hl1, hl2, _, hl4, hl5⟩ := ih _ _ _ _ _ _ hl
            obtain ⟨hr1, hr2, hr3, hr4, hr5⟩ := ih _ _ _ _ _ _ hr
            have hfb : tree.fullBranches = leftTree.fullBranches + rightTree.fullBranches := by
              rw [← htree]
              exact RowMatchNode.fullBranches_conjoin_orJoin _ _ leftTree rightTree
            rw [horsl, orsWidth_append, orsWidth_reverse, orsWidth_conjunctOrs] at hl5
            rw [horsr, orsWidth_append, orsWidth_reverse, orsWidth_conjunctOrs] at hr5
            rw [horsl, orsCount_append, orsCount_reverse, orsCount_conjunctOrs] at hl4
            rw [horsr, orsCount_append, orsCount_reverse, orsCount_conjunctOrs] at hr4
            subst hcount
            refine ⟨by omega, by omega, fun hle => by omega, fun _ => ?_, ?_⟩
            · simp only [orsCount]
              have hl4 := hl4 hc
              by_cases hcl : cl < t
              · have := hr4 hcl
                omega
              · have := hr3 (by omega)
                omega
            · simp only [orsWidth]
              rw [Nat.add_mul]
              omega
      · simp only [hc, if_false, Option.some.injEq, Prod.mk.injEq] at h
        have := hleaf h.1.symm h.2.symm
        rw [hors] at this
        exact this

end MatchTreeRewriter

/-- On each input of the table `c_rewriteCases` the model returns the output
that the test expects. -/
theorem Rewrite_c_rewriteCases :
    ∀ c ∈ c_rewriteCases,
      MatchTreeRewriter.Rewrite c.m_input c.m_targetRowCount c.m_targetCrossProductTermCount
        = some c.m_output := by
  intro c hc
  simp only [c_rewriteCases, List.mem_cons, List.mem_singleton, List.not_mem_nil,
    or_false] at hc
  rcases hc with rfl | rfl | rfl | rfl | rfl | rfl | rfl | rfl | rfl | rfl | rfl <;> rfl

/-! ### The claims on the rewriter -/

/-- C12: the rewriter returns a tree for every input; in every `And` node of
that tree the `Row` children stand in non-increasing order of rank; and for an
input that is a single row or a conjunction of rows only, with a target count
of 0, the tree is one `And` node whose children are the rows of the input by
descending rank, followed by one empty `Report` node. -/
theorem Rewrite_And_rows_descend (root : PlainMatchTree) (targetRowCount t : Nat) :
    (∃ tree, MatchTreeRewriter.Rewrite root targetRowCount t = some tree) ∧
      (∀ tree, MatchTreeRewriter.Rewrite root targetRowCount t = some tree →
        tree.andRowsSorted = true) ∧
      (root.isRowConjunction = true →
        ∃ rows : List AbstractRow, rows.Perm root.rows ∧ MatchTreeRewriter.Descending rows ∧
          MatchTreeRewriter.Rewrite root targetRowCount 0
            = some (RowMatchNode.conjoin (rows.map RowMatchNode.Row)
                (RowMatchNode.Report none))) := by
  refine ⟨MatchTreeRewriter.Rewrite_isSome root targetRowCount t, ?_, ?_⟩
  · intro tree h
    obtain ⟨count, hb⟩ := MatchTreeRewriter.Rewrite_eq_some root targetRowCount t tree h
    exact MatchTreeRewriter.andRowsSorted_build t root.size MatchTreeRewriter.Partition.empty
      none root 0 tree count List.Pairwise.nil hb
  · intro hrows
    obtain ⟨hr, hors, hnots⟩ := root.conjuncts_of_isRowConjunction hrows
    have hdesc : MatchTreeRewriter.Descending
        (MatchTreeRewriter.Partition.empty.add root).m_rows :=
      MatchTreeRewriter.add_descending root _ List.Pairwise.nil
    refine ⟨(MatchTreeRewriter.Partition.empty.add root).upperRows ++
      (MatchTreeRewriter.Partition.empty.add root).rankZeroRows, ?_, ?_, ?_⟩
    · refine (MatchTreeRewriter.upper_append_zero_perm _).trans ?_
      have := MatchTreeRewriter.add_m_rows_perm root MatchTreeRewriter.Partition.empty
      rw [hr] at this
      simpa [MatchTreeRewriter.Partition.empty] using this
    · exact MatchTreeRewriter.upper_append_zero_descending _ hdesc
    · rw [MatchTreeRewriter.Rewrite_eq_branch root targetRowCount 0 (Or.inr rfl)]
      rw [MatchTreeRewriter.branch_of_rows]
      · rw [MatchTreeRewriter.add_m_ors, hors]
        rfl
      · rw [MatchTreeRewriter.add_m_nots, hnots]
        rfl

/-- C12, at the fixture of four rows: the rewriter returns the tree that the
test expects, whose rows stand by descending rank before an empty `Report`. -/
theorem Rewrite_And_rows_descend_witness :
    MatchTreeRewriter.Rewrite fourRows.m_input 4 0 = some fourRows.m_output ∧
      fourRows.m_output.andRowsSorted = true ∧
      fourRows.m_output.conjunctRanks = [6, 6, 3, 0] :=
  ⟨rfl, (Rewrite_And_rows_descend fourRows.m_input 4 0).2.1 fourRows.m_output rfl, rfl⟩

/-- C13, refuted at the fixture of four rows: the rows 2 and 3, both of rank
6, stand in this order in the input and in the opposite order in the tree that
the rewriter returns and the test expects. -/
theorem Rewrite_swaps_rows_2_and_3_of_fourRows :
    MatchTreeRewriter.Rewrite fourRows.m_input 4 0 = some fourRows.m_output ∧
      fourRows.m_input.rows.filter (fun row => decide (row.m_rank = 6))
        = [⟨2, 6, 0, false⟩, ⟨3, 6, 0, false⟩] ∧
      fourRows.m_output.rows.filter (fun row => decide (row.m_rank = 6))
        = [⟨3, 6, 0, false⟩, ⟨2, 6, 0, false⟩] ∧
      fourRows.m_output.rows.filter (fun row => decide (row.m_rank = 6))
        ≠ fourRows.m_input.rows.filter (fun row => decide (row.m_rank = 6)) :=
  ⟨rfl, rfl, rfl, by decide⟩

/-- C13 as amended: for every input that is a single row or a conjunction of
rows, the rows of each rank stand in the returned tree in the reverse of the
order in which they stand in the input. -/
theorem Rewrite_reverses_rows_of_equal_rank (root : PlainMatchTree)
    (targetRowCount t : Nat) (tree : RowMatchNode) (k : Nat)
    (hrows : root.isRowConjunction = true)
    (h : MatchTreeRewriter.Rewrite root targetRowCount t = some tree) :
    tree.rows.filter (fun row => decide (row.m_rank = k))
      = (root.rows.filter (fun row => decide (row.m_rank = k))).reverse := by
  obtain ⟨hr, hors, hnots⟩ := root.conjuncts_of_isRowConjunction hrows
  rw [MatchTreeRewriter.Rewrite_eq_branch root targetRowCount t (Or.inl hors)] at h
  rw [MatchTreeRewriter.branch_of_rows _ t (by rw [MatchTreeRewriter.add_m_ors, hors]; rfl)
    (by rw [MatchTreeRewriter.add_m_nots, hnots]; rfl)] at h
  simp only [Option.some.injEq] at h
  rw [← h, RowMatchNode.rows_conjoin_rows, MatchTreeRewriter.upper_append_zero_filter_rank,
    MatchTreeRewriter.add_filter_rank, hr]
  simp [MatchTreeRewriter.Partition.empty]

/-- C13 as amended, at the fixture of four rows and the rank 6. -/
theorem Rewrite_reverses_rows_of_equal_rank_witness :
    fourRows.m_output.rows.filter (fun row => decide (row.m_rank = 6))
      = (fourRows.m_input.rows.filter (fun row => decide (row.m_rank = 6))).reverse :=
  Rewrite_reverses_rows_of_equal_rank fourRows.m_input 4 0 fourRows.m_output 6 rfl rfl

/-- C14, refuted at the fixture of a single row: the tree that the rewriter
returns and the test expects is `And [Row 0, Report]`, and the path from its
root to the leaf `Row 0` passes through no `Report` node. -/
theorem Rewrite_singleRow_has_path_without_Report :
    MatchTreeRewriter.Rewrite singleRow.m_input 4 0 = some singleRow.m_output ∧
      singleRow.m_output.reportsOnPaths = [0, 1] ∧
      ¬ ∀ k ∈ singleRow.m_output.reportsOnPaths, k = 1 :=
  ⟨rfl, rfl, by decide⟩

/-- C14 as amended: reading an `And` node as its children one after the other
and an `Or` node as a choice between its children, every way through a tree
that the rewriter returns passes through exactly one `Report` node, and every
branch of the tree ends in its `Report` node. -/
theorem Rewrite_passes_one_Report (root : PlainMatchTree) (targetRowCount t : Nat)
    (tree : RowMatchNode) (h : MatchTreeRewriter.Rewrite root targetRowCount t = some tree) :
    (∀ k ∈ tree.reportsPassed, k = 1) ∧ tree.endsInReport = true := by
  obtain ⟨count, hb⟩ := MatchTreeRewriter.Rewrite_eq_some root targetRowCount t tree h
  exact MatchTreeRewriter.reportsPassed_build t root.size MatchTreeRewriter.Partition.empty
    none root 0 tree count hb

/-- C14 as amended, at the fixture of three `Or` nodes with the target count
4. -/
theorem Rewrite_passes_one_Report_witness :
    (∀ k ∈ threeOrsCount4.m_output.reportsPassed, k = 1) ∧
      threeOrsCount4.m_output.endsInReport = true :=
  Rewrite_passes_one_Report threeOrsCount4.m_input 4 4 threeOrsCount4.m_output rfl

/-- C15: for every input that is a conjunction of rows and of `Not` nodes over
a row, the rewriter with a target count of 0 returns the un-negated rows by
descending rank followed by a `Report` node over the negated rows, each of
them below its `Not` node and consumed at rank 0: `Row(index, rank, 0,
recycled)` stands there as `Row(index, 0, rank, recycled)`. -/
theorem Rewrite_moves_negated_rows_below_Report (root : PlainMatchTree) (targetRowCount : Nat)
    (hroot : root.isLiteralConjunction = true) :
    (∃ rows : List AbstractRow, rows.Perm root.conjunctRows ∧
        MatchTreeRewriter.Descending rows ∧
        MatchTreeRewriter.Rewrite root targetRowCount 0
          = some (RowMatchNode.conjoin (rows.map RowMatchNode.Row)
              (RowMatchNode.reportOver (root.negatedRows.reverse.map fun row =>
                RowMatchNode.Not (RowMatchNode.Row (row.atRank 0)))))) ∧
      ∀ row : AbstractRow, row.m_consumedRank = 0 →
        row.atRank 0 = ⟨row.m_rowIndex, 0, row.m_rank, row.m_recycled⟩ := by
  obtain ⟨hors, hnots⟩ := root.conjuncts_of_isLiteralConjunction hroot
  obtain ⟨hperm, hdesc⟩ := MatchTreeRewriter.rows_of_root root
  refine ⟨⟨_, hperm, hdesc, ?_⟩, ?_⟩
  · rw [MatchTreeRewriter.Rewrite_zero, hors, hnots]
    simp only [List.reverse_nil, List.map_nil, List.nil_append, List.map_reverse, List.map_map]
    rfl
  · intro row hrow
    simp [AbstractRow.atRank, hrow]

/-- C15, at the fixture of one row and one `Not` node. -/
theorem Rewrite_moves_negated_rows_below_Report_witness :
    MatchTreeRewriter.Rewrite oneRowOneNot.m_input 4 0
        = some (RowMatchNode.And (RowMatchNode.Row ⟨0, 0, 0, false⟩)
            (RowMatchNode.Report
              (some (RowMatchNode.Not (RowMatchNode.Row ⟨2, 0, 6, false⟩))))) ∧
      (⟨2, 6, 0, false⟩ : AbstractRow).atRank 0 = ⟨2, 0, 6, false⟩ :=
  ⟨rfl, (Rewrite_moves_negated_rows_below_Report oneRowOneNot.m_input 4 rfl).2
    ⟨2, 6, 0, false⟩ rfl⟩

/-- C16, refuted at the fixture with a `Not` node in the `Or` tree and the
target count 0: the `Or` node of the input stands nowhere in the tree that the
rewriter returns and the test expects; the `Or` node below the `Report` node
has the rows 5, 6, 9 and 10 with their rank in the consumed-rank slot. -/
theorem Rewrite_changes_rows_of_Or_of_notInOrTreeCount0 :
    MatchTreeRewriter.Rewrite notInOrTreeCount0.m_input 4 0
        = some notInOrTreeCount0.m_output ∧
      ∃ left right : PlainMatchTree,
        notInOrTreeCount0.m_input.conjunctOrs = [(left, right)] ∧
        notInOrTreeCount0.m_output.holds (PlainMatchTree.Or left right).toRowMatchNode = false ∧
        (PlainMatchTree.Or left right).rows.map (fun row => row.m_rank)
          = [0, 3, 6, 6, 0, 3, 6, 6] ∧
        notInOrTreeCount0.m_output.reports.length = 1 ∧
        notInOrTreeCount0.m_output.holds (MatchTreeRewriter.residualOr (left, right)) = true ∧
        (MatchTreeRewriter.residualOr (left, right)).rows.map (fun row => row.m_rank)
          = [0, 0, 0, 0, 0, 0, 0, 0] :=
  ⟨rfl, _, _, rfl, rfl, rfl, rfl, rfl, rfl⟩

/-- C16 as amended: with a target count of 0 the rewriter multiplies nothing
out: the tree it returns is one branch, the rows that are conjuncts of the
input by descending rank and a `Report` node; no `Or` node stands outside the
`Report` node; and every `Or` node that is a conjunct of the input stands
below the `Report` node with its shape and the order of its rows kept, each
row consumed at rank 0 (`Row(index, rank, consumed, recycled)` stands there as
`Row(index, 0, consumed + rank, recycled)`). -/
theorem Rewrite_zero_places_Ors_below_Report (root : PlainMatchTree) (targetRowCount : Nat) :
    (∃ rows : List AbstractRow, rows.Perm root.conjunctRows ∧
        MatchTreeRewriter.Descending rows ∧
        MatchTreeRewriter.Rewrite root targetRowCount 0
          = some (RowMatchNode.conjoin (rows.map RowMatchNode.Row)
              (RowMatchNode.reportOver
                (root.conjunctOrs.reverse.map MatchTreeRewriter.residualOr ++
                  root.conjunctNots.reverse.map MatchTreeRewriter.reportedNot)))) ∧
      (∀ tree, MatchTreeRewriter.Rewrite root targetRowCount 0 = some tree →
        tree.hasOrOutsideReport = false ∧ tree.fullBranches = 1) ∧
      ∀ pair ∈ root.conjunctOrs,
        (MatchTreeRewriter.residualOr pair).shape = (PlainMatchTree.Or pair.1 pair.2).shape ∧
        (MatchTreeRewriter.residualOr pair).rows
          = (PlainMatchTree.Or pair.1 pair.2).rows.map fun row =>
              ⟨row.m_rowIndex, 0, row.m_consumedRank + row.m_rank, row.m_recycled⟩ := by
  obtain ⟨hperm, hdesc⟩ := MatchTreeRewriter.rows_of_root root
  refine ⟨⟨_, hperm, hdesc, MatchTreeRewriter.Rewrite_zero root targetRowCount⟩, ?_, ?_⟩
  · intro tree h
    rw [MatchTreeRewriter.Rewrite_zero] at h
    simp only [Option.some.injEq] at h
    rw [← h]
    exact ⟨RowMatchNode.hasOrOutsideReport_conjoin_rows _ _,
      (RowMatchNode.fullBranches_conjoin_rows _ _).1⟩
  · intro pair _
    constructor
    · simp [MatchTreeRewriter.residualOr, RowMatchNode.shape, PlainMatchTree.shape,
        PlainMatchTree.shape_atRankZero]
    · simp [MatchTreeRewriter.residualOr, RowMatchNode.rows, PlainMatchTree.rows,
        PlainMatchTree.rows_atRankZero, AbstractRow.atRank]

/-- C16 as amended, at the fixture with a `Not` node in the `Or` tree. -/
theorem Rewrite_zero_places_Ors_below_Report_witness :
    notInOrTreeCount0.m_output.hasOrOutsideReport = false ∧
      notInOrTreeCount0.m_output.fullBranches = 1 :=
  (Rewrite_zero_places_Ors_below_Report notInOrTreeCount0.m_input 4).2.1
    notInOrTreeCount0.m_output rfl

/-- C17, refuted at the fixture of three `Or` nodes with the target count 5:
the product space has 27 conjunctions, so the bound of the claim is
`max 1 (min 27 5) = 5`, and the tree that the rewriter returns and the test
expects has 6 fully multiplied-out branches. -/
theorem Rewrite_threeOrsCount5_emits_six_products :
    MatchTreeRewriter.Rewrite threeOrsCount5.m_input 4 5 = some threeOrsCount5.m_output ∧
      threeOrsCount5.m_input.productSpace = 27 ∧
      threeOrsCount5.m_output.fullBranches = 6 ∧
      ¬ threeOrsCount5.m_output.fullBranches
          ≤ max 1 (min threeOrsCount5.m_input.productSpace 5) :=
  ⟨rfl, rfl, rfl, by decide⟩

/-- C17 as amended: for every input and every target count `t`, the number of
fully multiplied-out branches of the tree that the rewriter returns is at
most `max 1 n + k`, where `n` is the smaller of the size of the product space
and `t`, and `k` is the number of `Or` nodes of the input outside its `Not`
subtrees; it is at most the size of the product space and at most
`max 1 t + k`.  For an input that is a conjunction of rows, of `Not` nodes and
of `Or` nodes over rows it is at most `max 1 n + 1` and at most `t + 1`. -/
theorem Rewrite_fullBranches_le (root : PlainMatchTree) (targetRowCount t : Nat)
    (tree : RowMatchNode)
    (h : MatchTreeRewriter.Rewrite root targetRowCount t = some tree) :
    tree.fullBranches ≤ max 1 (min root.productSpace t) + root.orCount ∧
      tree.fullBranches ≤ root.productSpace ∧
      tree.fullBranches ≤ max 1 t + root.orCount ∧
      (root.isFlatProduct = true →
        tree.fullBranches ≤ max 1 (min root.productSpace t) + 1 ∧
          tree.fullBranches ≤ t + 1) := by
  have hps := root.productSpace_pos
  have hors : (MatchTreeRewriter.Partition.empty.add root).m_ors
      = root.conjunctOrs.reverse := by
    rw [MatchTreeRewriter.add_m_ors]
    simp [MatchTreeRewriter.Partition.empty]
  have hzero : t = 0 → tree.fullBranches = 1 := by
    intro ht
    subst ht
    rw [MatchTreeRewriter.Rewrite_zero] at h
    simp only [Option.some.injEq] at h
    have := (RowMatchNode.fullBranches_conjoin_rows
      ((MatchTreeRewriter.Partition.empty.add root).upperRows ++
        (MatchTreeRewriter.Partition.empty.add root).rankZeroRows)
      (root.conjunctOrs.reverse.map MatchTreeRewriter.residualOr ++
        root.conjunctNots.reverse.map MatchTreeRewriter.reportedNot)).1
    rw [h] at this
    exact this
  have key : tree.fullBranches ≤ root.productSpace ∧
      tree.fullBranches ≤ max 1 t + root.orCount := by
    by_cases ht : t = 0
    · have := hzero ht
      have := Nat.le_max_left 1 t
      omega
    · obtain ⟨count, hb⟩ := MatchTreeRewriter.Rewrite_eq_some root targetRowCount t tree h
      obtain ⟨_, _, _, h4, h5⟩ := MatchTreeRewriter.fullBranches_build_le t (by omega)
        root.size MatchTreeRewriter.Partition.empty none root 0 tree count hb
      rw [hors, MatchTreeRewriter.orsWidth_reverse,
        MatchTreeRewriter.orsWidth_conjunctOrs] at h5
      rw [hors, MatchTreeRewriter.orsCount_reverse,
        MatchTreeRewriter.orsCount_conjunctOrs] at h4
      have := h4 (by omega)
      have := Nat.le_max_right 1 t
      exact ⟨h5, by omega⟩
  have hmin : ∀ k : Nat, tree.fullBranches ≤ root.productSpace →
      tree.fullBranches ≤ max 1 t + k →
      tree.fullBranches ≤ max 1 (min root.productSpace t) + k := by
    intro k h1 h2
    rcases Nat.le_total root.productSpace t with hle | hle
    · rw [Nat.min_eq_left hle]
      have := Nat.le_max_right 1 root.productSpace
      omega
    · rw [Nat.min_eq_right hle]
      exact h2
  refine ⟨hmin _ key.1 key.2, key.1, key.2, ?_⟩
  intro hroot
  have hflat : tree.fullBranches ≤ t + 1 := by
    by_cases ht : t = 0
    · have := hzero ht
      omega
    · obtain ⟨count, hb⟩ := MatchTreeRewriter.Rewrite_eq_some root targetRowCount t tree h
      obtain ⟨_, _, _, h4, _, _⟩ := MatchTreeRewriter.fullBranches_build t (by omega)
        root.size MatchTreeRewriter.Partition.empty none root 0 tree count (by
          rw [hors]
          intro pair hp
          exact MatchTreeRewriter.conjunctOrs_of_isFlatProduct root hroot pair
            (List.mem_reverse.1 hp)) hb
      have := h4 (by omega)
      omega
  refine ⟨hmin 1 key.1 ?_, hflat⟩
  have := Nat.le_max_right 1 t
  have := Nat.le_max_left 1 t
  omega

/-- C17 as amended, at two inputs.  The `Or` node of `nestedOrInput` has an
`Or` node as its left child: with the target count 1 the rewriter returns 3
fully multiplied-out branches, which is `max 1 (min 3 1)` and the 2 `Or`
nodes of the input.  The fixture of three `Or` nodes over rows with the target
count 5 has 6 branches, one more than `max 1 (min 27 5)`. -/
theorem Rewrite_fullBranches_le_witness :
    (nestedOrInput.isFlatProduct = false ∧ nestedOrInput.orCount = 2 ∧
        nestedOrOutput.fullBranches = 3 ∧
        nestedOrOutput.fullBranches
          ≤ max 1 (min nestedOrInput.productSpace 1) + nestedOrInput.orCount) ∧
      (threeOrsCount5.m_input.isFlatProduct = true ∧
        threeOrsCount5.m_output.fullBranches
          ≤ max 1 (min threeOrsCount5.m_input.productSpace 5) + 1) :=
  ⟨⟨rfl, rfl, rfl, (Rewrite_fullBranches_le nestedOrInput 4 1 nestedOrOutput rfl).1⟩,
    ⟨rfl, ((Rewrite_fullBranches_le threeOrsCount5.m_input 4 5 threeOrsCount5.m_output
      rfl).2.2.2 rfl).1⟩⟩

/-- C18: for the conjunction of the three `Or` nodes over the rows 1 to 3, 4
to 6 and 7 to 9, all of rank 0, with the target row count 4 and the target
count 4, the rewriter returns the tree of the test fixture: an `Or` node of 7
branches, of which the first four are the products (1,4,7), (2,4,7), (3,4,7)
and (1,5,7) and the other three keep `Or` nodes; every branch ends in an empty
`Report` node. -/
theorem Rewrite_threeOrsCount4 :
    threeOrsCount4.m_input.conjunctOrs.map
        (fun pair => (PlainMatchTree.Or pair.1 pair.2).rows)
        = [[⟨1, 0, 0, false⟩, ⟨2, 0, 0, false⟩, ⟨3, 0, 0, false⟩],
           [⟨4, 0, 0, false⟩, ⟨5, 0, 0, false⟩, ⟨6, 0, 0, false⟩],
           [⟨7, 0, 0, false⟩, ⟨8, 0, 0, false⟩, ⟨9, 0, 0, false⟩]] ∧
      MatchTreeRewriter.Rewrite threeOrsCount4.m_input 4 4 = some threeOrsCount4.m_output ∧
      threeOrsCount4.m_output.disjuncts.length = 7 ∧
      threeOrsCount4.m_output.disjuncts.take 4
        = [[1, 4, 7], [2, 4, 7], [3, 4, 7], [1, 5, 7]].map (fun product =>
            RowMatchNode.conjoin
              (product.map fun index => RowMatchNode.Row ⟨index, 0, 0, false⟩)
              (RowMatchNode.Report none)) ∧
      (threeOrsCount4.m_output.disjuncts.drop 4).map RowMatchNode.hasOrConjunct
        = [true, true, true] ∧
      threeOrsCount4.m_output.disjuncts.map
          (fun branch => branch.conjuncts.getLast?.map fun last =>
            last.same (RowMatchNode.Report none))
        = List.replicate 7 (some true) :=
  ⟨rfl, rfl, rfl, rfl, rfl, rfl⟩


/-! ## Destruction, repeated shutdown and the capacity of the queue -/

namespace QueueRun

variable {T : Type}

/-- A step keeps this: a queue that is shut down and empty is finished. -/
theorem drained_step (r : QueueRun T) (op : QueueOp T)
    (h : r.queue.m_shutdown = true → r.queue.m_queue = [] → r.queue.m_finished = true) :
    (r.step op).queue.m_shutdown = true → (r.step op).queue.m_queue = [] →
      (r.step op).queue.m_finished = true := by
  rcases r with ⟨⟨c, f, s, l⟩, acc, del⟩
  simp only at h
  cases op with
  | enqueue v =>
    simp only [step, BlockingQueue.TryEnqueue]
    cases s <;> by_cases hc : c ≤ l.length <;> simp [hc] <;> simpa using h
  | dequeue value =>
    simp only [step, BlockingQueue.TryDequeue]
    cases s <;> cases l <;> simp
    rename_i head rest
    cases rest <;> simp
  | shutdown =>
    simp only [step, BlockingQueue.Shutdown]
    cases l <;> simp

/-- In every run from a freshly constructed queue, a queue that is shut down
and empty is finished. -/
theorem drained_run (ops : List (QueueOp T)) (r : QueueRun T)
    (h : r.queue.m_shutdown = true → r.queue.m_queue = [] → r.queue.m_finished = true) :
    (r.run ops).queue.m_shutdown = true → (r.run ops).queue.m_queue = [] →
      (r.run ops).queue.m_finished = true := by
  induction ops generalizing r with
  | nil => exact h
  | cons op ops ih => exact ih (r.step op) (drained_step r op h)

/-- Calls of `TryEnqueue` on a queue that is full and not shut down leave the
run as it is. -/
theorem run_enqueues_of_full (values : List T) (r : QueueRun T)
    (hfull : r.queue.m_capacity ≤ r.queue.m_queue.length)
    (hopen : r.queue.m_shutdown = false) :
    r.run (values.map QueueOp.enqueue) = r := by
  induction values with
  | nil => rfl
  | cons v values ih =>
    have hstep : r.step (QueueOp.enqueue v) = r := by
      simp only [step]
      rw [(BlockingQueue.TryEnqueue_waits_iff r.queue v).2 ⟨hfull, hopen⟩]
    simpa [run, hstep] using ih

end QueueRun

/-- What the destructor returns. -/
theorem BlockingQueue.destruct_eq {T : Type} (q : BlockingQueue T) :
    q.destruct =
      if q.m_shutdown = false then Except.error "Queue destructed without calling shutdown."
      else if q.m_finished = false then
        Except.error "Queue destructed without finishing shutdown."
      else Except.ok () := by
  unfold BlockingQueue.destruct
  cases q.m_shutdown <;> cases q.m_finished <;> rfl

/-- C21: the destructor of a queue fails an assertion exactly when
`m_shutdown` and `m_finished` are not both true, the first assertion when
`m_shutdown` is false and the second one when only `m_finished` is false.  In
every state that a freshly constructed queue reaches the destructor passes
exactly when `m_finished` is true, which is when a call of `Shutdown` returns;
and it passes both assertions on a queue that was shut down and is empty. -/
theorem destructor_passes_iff_shutdown_completed {T : Type} (capacity : Nat)
    (ops : List (QueueOp T)) :
    (∀ q : BlockingQueue T,
        ((∃ msg, q.destruct = Except.error msg) ↔
          ¬ (q.m_shutdown = true ∧ q.m_finished = true)) ∧
        (q.destruct = Except.ok () ↔ (q.m_shutdown = true ∧ q.m_finished = true)) ∧
        (q.destructorPasses = true ↔ q.destruct = Except.ok ()) ∧
        (q.m_shutdown = false →
          q.destruct = Except.error "Queue destructed without calling shutdown.") ∧
        (q.m_shutdown = true → q.m_finished = false →
          q.destruct = Except.error "Queue destructed without finishing shutdown.")) ∧
      (((QueueRun.start capacity).run ops).queue.destruct = Except.ok () ↔
        ((QueueRun.start capacity).run ops).queue.ShutdownReturns = true) ∧
      (((QueueRun.start capacity).run ops).queue.m_shutdown = true →
        ((QueueRun.start capacity).run ops).queue.m_queue = [] →
        ((QueueRun.start capacity).run ops).queue.destruct = Except.ok ()) := by
  have hall : ∀ q : BlockingQueue T,
      (q.destruct = Except.ok () ↔ (q.m_shutdown = true ∧ q.m_finished = true)) := by
    intro q
    rw [BlockingQueue.destruct_eq]
    cases q.m_shutdown <;> cases q.m_finished <;> simp
  have hinv := QueueRun.inv_run ops _ (QueueRun.inv_start (T := T) capacity)
  have hdrained := QueueRun.drained_run ops (QueueRun.start capacity : QueueRun T)
    (by simp [QueueRun.start, BlockingQueue.construct])
  refine ⟨?_, ?_, ?_⟩
  · intro q
    refine ⟨?_, hall q, ?_, ?_, ?_⟩
    · rw [BlockingQueue.destruct_eq]
      cases q.m_shutdown <;> cases q.m_finished <;> simp
    · rw [hall q]
      simp [BlockingQueue.destructorPasses]
    · intro hs
      rw [BlockingQueue.destruct_eq]
      simp [hs]
    · intro hs hf
      rw [BlockingQueue.destruct_eq]
      simp [hs, hf]
  · rw [hall]
    simp only [BlockingQueue.ShutdownReturns]
    exact ⟨fun h => h.2, fun h => ⟨(hinv.2 h).1, h⟩⟩
  · intro hs hq
    exact (hall _).2 ⟨hs, hdrained hs hq⟩

/-- C22, refuted at a queue of capacity 1 that was shut down while empty:
`Shutdown` has neither an assertion nor an abort, a second call leaves the
queue as the first one left it and returns at once, and the destructor
passes afterwards. -/
theorem second_Shutdown_returns :
    (BlockingQueue.construct 1 : BlockingQueue Nat).Shutdown.Shutdown
        = (BlockingQueue.construct 1 : BlockingQueue Nat).Shutdown ∧
      (BlockingQueue.construct 1 : BlockingQueue Nat).Shutdown.Shutdown.ShutdownReturns
        = true ∧
      (BlockingQueue.construct 1 : BlockingQueue Nat).Shutdown.Shutdown.destruct
        = Except.ok () :=
  ⟨by decide, by decide, rfl⟩

/-- C22 as amended: `Shutdown` holds no check of a repeated call.  In every
state that a freshly constructed queue reaches with `m_shutdown` set, a
further call of `Shutdown` leaves every field of the queue as it is, and it
returns exactly when `m_finished` is true: at once on a queue that is empty,
and otherwise once the queue has been drained. -/
theorem repeated_Shutdown_changes_nothing {T : Type} (capacity : Nat)
    (ops : List (QueueOp T))
    (h : ((QueueRun.start capacity).run ops).queue.m_shutdown = true) :
    ((QueueRun.start capacity).run ops).queue.Shutdown
        = ((QueueRun.start capacity).run ops).queue ∧
      (((QueueRun.start capacity).run ops).step QueueOp.shutdown)
        = (QueueRun.start capacity).run ops ∧
      (((QueueRun.start capacity).run ops).queue.Shutdown.ShutdownReturns = true ↔
        ((QueueRun.start capacity).run ops).queue.m_queue = []) := by
  have hinv := QueueRun.inv_run ops _ (QueueRun.inv_start (T := T) capacity)
  have hdrained := QueueRun.drained_run ops (QueueRun.start capacity : QueueRun T)
    (by simp [QueueRun.start, BlockingQueue.construct])
  generalize (QueueRun.start capacity).run ops = r at h hinv hdrained
  rcases r with ⟨⟨c, f, s, l⟩, acc, del⟩
  simp only at h hdrained
  subst h
  have hq : (⟨c, f, true, l⟩ : BlockingQueue T).Shutdown = ⟨c, f, true, l⟩ := by
    cases l with
    | nil =>
      have := hdrained rfl rfl
      subst this
      rfl
    | cons a l => rfl
  refine ⟨hq, ?_, ?_⟩
  · simp only [QueueRun.step, hq]
  · rw [hq]
    simp only [BlockingQueue.ShutdownReturns]
    exact ⟨fun hf => (hinv.2 hf).2, fun hl => hdrained rfl hl⟩

/-- C22 as amended, at a queue of capacity 2 that holds one value when it is
shut down: the second call of `Shutdown` changes nothing and does not return
before the value is dequeued. -/
theorem repeated_Shutdown_changes_nothing_witness :
    ((QueueRun.start 2).run [QueueOp.enqueue 7, QueueOp.shutdown]).queue.Shutdown
        = ((QueueRun.start 2).run [QueueOp.enqueue 7, QueueOp.shutdown]).queue ∧
      ((QueueRun.start 2).run [QueueOp.enqueue 7, QueueOp.shutdown]).queue.Shutdown.ShutdownReturns
        = false :=
  ⟨(repeated_Shutdown_changes_nothing 2 [QueueOp.enqueue 7, QueueOp.shutdown]
      (by decide)).1, by decide⟩

/-- C29: in every state that a freshly constructed queue reaches by calls of
`TryEnqueue`, `TryDequeue` and `Shutdown`, the queue holds at most as many
values as the capacity given to the constructor.  When it holds that many and
is not shut down, a call of `TryEnqueue` waits: it returns nothing and leaves
the run as it is, however often it is tried; after a call of `Shutdown` it
returns `false`; and after a call of `TryDequeue` that returns, it returns
`true` with its value at the back of the queue. -/
theorem queue_within_capacity_and_full_queue_waits {T : Type} (capacity : Nat)
    (ops : List (QueueOp T)) :
    ((QueueRun.start capacity).run ops).queue.m_capacity = capacity ∧
      ((QueueRun.start capacity).run ops).queue.m_queue.length ≤ capacity ∧
      (((QueueRun.start capacity).run ops).queue.m_queue.length = capacity →
        ((QueueRun.start capacity).run ops).queue.m_shutdown = false →
        ∀ v : T,
          ((QueueRun.start capacity).run ops).queue.TryEnqueue v = none ∧
          (∀ values : List T,
            ((QueueRun.start capacity).run ops).run (values.map QueueOp.enqueue)
              = (QueueRun.start capacity).run ops) ∧
          ((QueueRun.start capacity).run ops).queue.Shutdown.TryEnqueue v
            = some (false, ((QueueRun.start capacity).run ops).queue.Shutdown) ∧
          (∀ (value : T) (res : Bool × T × BlockingQueue T),
            ((QueueRun.start capacity).run ops).queue.TryDequeue value = some res →
              res.1 = true ∧
              res.2.2.TryEnqueue v
                = some (true, { res.2.2 with m_queue := res.2.2.m_queue ++ [v] }) ∧
              res.2.2.m_queue.length + 1 = capacity)) := by
  obtain ⟨hcap, hlen⟩ := QueueRun.bounded_run ops (QueueRun.start capacity : QueueRun T)
    (Nat.zero_le _)
  have hcap1 : ((QueueRun.start capacity).run ops).queue.m_capacity = capacity := hcap
  rw [hcap1] at hlen
  refine ⟨hcap1, hlen, ?_⟩
  intro hfull hopen v
  generalize (QueueRun.start capacity).run ops = r at hcap1 hlen hfull hopen
  refine ⟨?_, ?_, ?_, ?_⟩
  · exact (BlockingQueue.TryEnqueue_waits_iff r.queue v).2 ⟨by omega, hopen⟩
  · intro values
    exact QueueRun.run_enqueues_of_full values r (by omega) hopen
  · simp only [BlockingQueue.Shutdown, BlockingQueue.TryEnqueue]
    split <;> simp
  · rintro value ⟨b, x, q1⟩ hres
    rcases BlockingQueue.TryDequeue_eq_some _ _ _ _ _ hres with
      ⟨_, _, hs, _, _⟩ | ⟨hb, hq, hs, hc, _⟩
    · rw [hopen] at hs
      cases hs
    · have hlen1 : q1.m_queue.length + 1 = capacity := by
        rw [← hfull, hq]
        rfl
      refine ⟨hb, ?_, hlen1⟩
      simp only
      rw [hopen] at hs
      unfold BlockingQueue.TryEnqueue
      have : ¬ q1.m_capacity ≤ q1.m_queue.length := by
        rw [hc, hcap1]
        omega
      simp [hs, this]

/-- C29, at a queue of capacity 2 that holds the values 1 and 2: the third
call of `TryEnqueue` waits, and it returns `true` after a call of
`TryDequeue`. -/
theorem queue_within_capacity_and_full_queue_waits_witness :
    ((QueueRun.start 2).run [QueueOp.enqueue 1, QueueOp.enqueue 2]).queue.m_queue = [1, 2] ∧
      ((QueueRun.start 2).run [QueueOp.enqueue 1, QueueOp.enqueue 2]).queue.TryEnqueue 3
        = none ∧
      ((QueueRun.start 2).run [QueueOp.enqueue 1, QueueOp.enqueue 2, QueueOp.enqueue 3,
          QueueOp.dequeue 0, QueueOp.enqueue 3]).queue.m_queue = [2, 3] :=
  ⟨by decide,
    ((queue_within_capacity_and_full_queue_waits 2 [QueueOp.enqueue 1, QueueOp.enqueue 2]).2.2
      (by decide) (by decide) 3).1,
    by decide⟩

/-! ## The meaning of a compiled tree -/

/-- The complement of a word is a 64-bit word. -/
theorem complement64_lt (word : Nat) : complement64 word < 2 ^ 64 := by
  unfold complement64
  exact Nat.xor_lt_two_pow (by norm_num) (Nat.mod_lt _ (by norm_num))

/-- The structural translation of a plain tree computes the word that the
tree stands for, a 64-bit word. -/
theorem PlainMatchTree.eval_structuralTranslation (words : AbstractRow → Nat)
    (t : PlainMatchTree) :
    ∃ w, w < 2 ^ 64 ∧ t.toRowMatchNode.eval words = some w ∧
      t.structuralTranslation.eval words = some w := by
  induction t with
  | And left right ihl ihr =>
    obtain ⟨a, ha, hl1, hl2⟩ := ihl
    obtain ⟨b, _, hr1, hr2⟩ := ihr
    refine ⟨a &&& b, Nat.lt_of_le_of_lt Nat.and_le_left ha, ?_, ?_⟩
    · simp [PlainMatchTree.toRowMatchNode, RowMatchNode.eval, hl1, hr1]
    · simp [PlainMatchTree.structuralTranslation, CompileNode.eval, hl2, hr2]
  | Or left right ihl ihr =>
    obtain ⟨a, ha, hl1, hl2⟩ := ihl
    obtain ⟨b, hb, hr1, hr2⟩ := ihr
    refine ⟨a ||| b, Nat.or_lt_two_pow ha hb, ?_, ?_⟩
    · simp [PlainMatchTree.toRowMatchNode, RowMatchNode.eval, hl1, hr1]
    · simp [PlainMatchTree.structuralTranslation, CompileNode.eval, hl2, hr2]
  | Not child ih =>
    obtain ⟨a, _, h1, h2⟩ := ih
    refine ⟨complement64 a, complement64_lt a, ?_, ?_⟩
    · simp [PlainMatchTree.toRowMatchNode, RowMatchNode.eval, h1]
    · simp [PlainMatchTree.structuralTranslation, CompileNode.eval, h2]
  | Row row =>
    exact ⟨words row % 2 ^ 64, Nat.mod_lt _ (by norm_num), rfl, rfl⟩

/-- C27: `RankZeroCompiler::Compile` preserves the meaning of a tree.  For
every match tree without a `Report` node and every assignment of 64-bit words
to the rows, `Compile` returns a compiled tree, and this tree, with `AndTree`
read as the bitwise and, `OrTree` as the bitwise or, `Not` as the bitwise
complement and `LoadRow` as the word of the row, computes the word that the
match tree stands for with `And`, `Or`, `Not` and `Row` read the same way. -/
theorem Compile_preserves_meaning (n : RowMatchNode) (words : AbstractRow → Nat)
    (hn : n.containsReport = false) :
    ∃ (compiled : CompileNode) (w : Nat), RankZeroCompiler.Compile n = Except.ok compiled ∧
      n.eval words = some w ∧ compiled.eval words = some w ∧ w < 2 ^ 64 := by
  obtain ⟨t, ht⟩ := RankZeroCompiler.exists_plain_of_containsReport_eq_false n hn
  subst ht
  obtain ⟨w, hw, h1, h2⟩ := t.eval_structuralTranslation words
  exact ⟨t.structuralTranslation, w, RankZeroCompiler.Compile_toRowMatchNode t, h1, h2, hw⟩

/-- C27, on the tree `And(Row 1, Not(Or(Row 2, Row 3)))` with the words 12,
10 and 1 in the rows 1, 2 and 3: both trees give the word 4. -/
theorem Compile_preserves_meaning_witness :
    ∃ (compiled : CompileNode) (w : Nat),
      RankZeroCompiler.Compile
          (.And (.Row ⟨1, 0, 0, false⟩)
            (.Not (.Or (.Row ⟨2, 0, 0, false⟩) (.Row ⟨3, 0, 0, false⟩))))
        = Except.ok compiled ∧
      RowMatchNode.eval (fun row => [0, 12, 10, 1].getD row.m_rowIndex 0)
          (.And (.Row ⟨1, 0, 0, false⟩)
            (.Not (.Or (.Row ⟨2, 0, 0, false⟩) (.Row ⟨3, 0, 0, false⟩))))
        = some w ∧
      compiled.eval (fun row => [0, 12, 10, 1].getD row.m_rowIndex 0) = some w ∧
      w < 2 ^ 64 :=
  Compile_preserves_meaning
    (.And (.Row ⟨1, 0, 0, false⟩)
      (.Not (.Or (.Row ⟨2, 0, 0, false⟩) (.Row ⟨3, 0, 0, false⟩))))
    (fun row => [0, 12, 10, 1].getD row.m_rowIndex 0) rfl

/-! ## Document handles and the reference count of the slice -/

/-- What `Expire` does to the slice: `ExpireDocument` is called on the slice
with the bit cleared, and `DecrementRefCount` is called exactly when it
returns `true`. -/
theorem DocumentHandle.Expire_m_slice (h : DocumentHandle) :
    h.Expire.m_slice =
      if h.sliceAfterClearBit.ExpireDocument.1 = true then
        h.sliceAfterClearBit.ExpireDocument.2.DecrementRefCount
      else h.sliceAfterClearBit.ExpireDocument.2 := by
  unfold DocumentHandle.Expire DocumentHandle.sliceAfterClearBit
  simp only
  split <;> rename_i hexp <;> simp [hexp]

/-- C25, refuted at the last document of a slice to expire: `Expire()` takes
the reference count of the slice from 1 to 0. -/
theorem Expire_of_last_document_changes_m_refCount :
    exampleLastHandle.m_slice.m_refCount = 1 ∧
      exampleLastHandle.sliceAfterClearBit.ExpireDocument.1 = true ∧
      exampleLastHandle.Expire.m_slice.m_refCount = 0 :=
  ⟨rfl, rfl, rfl⟩

/-- C25 as amended: construction, copy, `AddPosting`, `AssertFact`,
`AllocateVariableSizeBlob` and `Activate` leave the reference count of the
slice as it is (`GetBit`, `GetDocId` and the two blob getters are `const` and
return a value only), and so does `Expire` unless `Slice::ExpireDocument`
reports that the slice is fully expired; then `Expire` releases one reference
through `Slice::DecrementRefCount`. -/
theorem only_Expire_changes_m_refCount (h : DocumentHandle) (docTable : DocTableDescriptor)
    (assertFact : Nat → Bool → Nat → SliceBuffer → SliceBuffer) (slice : Slice)
    (index id byteSize fact : Nat) (value : Bool) (term : Term) :
    (DocumentHandle.construct slice index).m_slice.m_refCount = slice.m_refCount ∧
      (DocumentHandle.constructWithDocId docTable slice index id).m_slice.m_refCount
        = slice.m_refCount ∧
      h.copy.m_slice.m_refCount = h.m_slice.m_refCount ∧
      (h.AddPosting term).m_slice.m_refCount = h.m_slice.m_refCount ∧
      (h.AssertFact assertFact fact value).m_slice.m_refCount = h.m_slice.m_refCount ∧
      (h.AllocateVariableSizeBlob docTable id byteSize).2.m_slice.m_refCount
        = h.m_slice.m_refCount ∧
      h.Activate.m_slice.m_refCount = h.m_slice.m_refCount ∧
      (h.sliceAfterClearBit.ExpireDocument.1 = false →
        h.Expire.m_slice.m_refCount = h.m_slice.m_refCount) ∧
      (h.sliceAfterClearBit.ExpireDocument.1 = true →
        h.Expire.m_slice = h.sliceAfterClearBit.ExpireDocument.2.DecrementRefCount ∧
        h.Expire.m_slice.m_refCount = h.m_slice.m_refCount - 1) := by
  refine ⟨rfl, rfl, rfl, rfl, rfl, rfl, rfl, ?_, ?_⟩
  · intro hexp
    rw [DocumentHandle.Expire_m_slice, hexp]
    rfl
  · intro hexp
    rw [DocumentHandle.Expire_m_slice, hexp]
    exact ⟨rfl, rfl⟩

/-- C28: `Expire()` is its body run with `Slice::ExpireDocument` and
`Slice::DecrementRefCount`, and whatever these two callees do, the body hands
the first of them the slice in which the document-active bit of the document
is cleared already and the count of expired documents and the reference count
are still the old ones; the slice it leaves is what the first callee
returned, passed through the second callee once when the value returned is
`true` and not at all when it is `false`.  With the two callees of the
program the reference count goes down by one in the first case and stays as
it was in the second, and the count of expired documents is updated on the
slice with the bit cleared. -/
theorem Expire_releases_slice_iff_expired (expireDocument : Slice → Bool × Slice)
    (decrementRefCount : Slice → Slice) (h : DocumentHandle) :
    h.ExpireWith Slice.ExpireDocument Slice.DecrementRefCount = h.Expire ∧
      (h.sliceAfterClearBit.m_shard.GetRowTable
          h.m_slice.GetShard.GetDocumentActiveRowId.m_rank).GetBit
        h.sliceAfterClearBit.m_buffer h.m_slice.GetShard.GetDocumentActiveRowId.m_index
        h.m_index = 0 ∧
      h.sliceAfterClearBit.m_expiredCount = h.m_slice.m_expiredCount ∧
      h.sliceAfterClearBit.m_refCount = h.m_slice.m_refCount ∧
      ((expireDocument h.sliceAfterClearBit).1 = true →
        (h.ExpireWith expireDocument decrementRefCount).m_slice
          = decrementRefCount (expireDocument h.sliceAfterClearBit).2) ∧
      ((expireDocument h.sliceAfterClearBit).1 = false →
        (h.ExpireWith expireDocument decrementRefCount).m_slice
          = (expireDocument h.sliceAfterClearBit).2) ∧
      (h.sliceAfterClearBit.ExpireDocument.1 = true →
        h.Expire.m_slice = h.sliceAfterClearBit.ExpireDocument.2.DecrementRefCount ∧
        h.Expire.m_slice.m_refCount = h.m_slice.m_refCount - 1) ∧
      (h.sliceAfterClearBit.ExpireDocument.1 = false →
        h.Expire.m_slice = h.sliceAfterClearBit.ExpireDocument.2 ∧
        h.Expire.m_slice.m_refCount = h.m_slice.m_refCount) ∧
      h.Expire.m_slice.m_expiredCount = h.sliceAfterClearBit.m_expiredCount + 1 := by
  have hwith : ∀ (e : Slice → Bool × Slice) (d : Slice → Slice),
      (h.ExpireWith e d).m_slice
        = if (e h.sliceAfterClearBit).1 then d (e h.sliceAfterClearBit).2
          else (e h.sliceAfterClearBit).2 := by
    intro e d
    unfold DocumentHandle.ExpireWith DocumentHandle.sliceAfterClearBit
    simp only
    split <;> rfl
  refine ⟨rfl, ?_, rfl, rfl, ?_, ?_, ?_, ?_, ?_⟩
  · exact RowTableDescriptor.GetBit_ClearBit_same _ _ _ _
  · intro hexp
    rw [hwith, hexp]
    rfl
  · intro hexp
    rw [hwith, hexp]
    rfl
  · intro hexp
    rw [DocumentHandle.Expire_m_slice, hexp]
    exact ⟨rfl, rfl⟩
  · intro hexp
    rw [DocumentHandle.Expire_m_slice, hexp]
    exact ⟨rfl, rfl⟩
  · rw [DocumentHandle.Expire_m_slice]
    split <;> rfl

/-- C28, at the document 70 of the example slice.  After `Activate()` the
document-active bit of the document is 1; a stand-in for
`Slice::ExpireDocument` that reads the bit finds it 0 when `Expire()` calls
it, whether it then returns `true` or `false`.  With 255 documents expired
before, `ExpireDocument` reports the slice fully expired and the reference
count goes from 1 to 0; with none expired before, it stays 1. -/
theorem Expire_releases_slice_iff_expired_witness :
    exampleHandle.Activate.GetBit
        exampleHandle.Activate.m_slice.GetShard.GetDocumentActiveRowId = true ∧
      (probeExpireDocument 70 false exampleHandle.Activate.m_slice).2.m_expiredCount = 1 ∧
      (exampleHandle.Activate.ExpireWith (probeExpireDocument 70 false)
        Slice.DecrementRefCount).m_slice.m_expiredCount = 0 ∧
      (exampleHandle.Activate.ExpireWith (probeExpireDocument 70 true)
        Slice.DecrementRefCount).m_slice.m_expiredCount = 0 ∧
      exampleLastHandle.sliceAfterClearBit.ExpireDocument.1 = true ∧
      exampleLastHandle.m_slice.m_refCount = 1 ∧
      exampleLastHandle.Expire.m_slice.m_refCount = 1 - 1 ∧
      exampleHandle.sliceAfterClearBit.ExpireDocument.1 = false ∧
      exampleHandle.Expire.m_slice.m_refCount = 1 := by
  have hprobe := Expire_releases_slice_iff_expired (probeExpireDocument 70 false)
    Slice.DecrementRefCount exampleHandle.Activate
  have hprobe1 := Expire_releases_slice_iff_expired (probeExpireDocument 70 true)
    Slice.DecrementRefCount exampleHandle.Activate
  have hlast := Expire_releases_slice_iff_expired Slice.ExpireDocument
    Slice.DecrementRefCount exampleLastHandle
  have hfirst := Expire_releases_slice_iff_expired Slice.ExpireDocument
    Slice.DecrementRefCount exampleHandle
  refine ⟨by decide, by decide, ?_, ?_, rfl, rfl, (hlast.2.2.2.2.2.2.1 rfl).2, rfl,
    (hfirst.2.2.2.2.2.2.2.1 rfl).2⟩
  · rw [hprobe.2.2.2.2.2.1 rfl]
    exact hprobe.2.1
  · rw [hprobe1.2.2.2.2.1 rfl]
    exact hprobe1.2.1

/-! ## The truth value of a rewritten tree -/

/-- The truth value of a row taken by its index. -/
theorem AbstractRow.m_rowIndex_consumedAt (row : AbstractRow) (reached : Option Nat) :
    (row.consumedAt reached).m_rowIndex = row.m_rowIndex := by
  cases reached <;> rfl

/-- Consuming the rows of a tree at rank 0 keeps its truth value. -/
theorem PlainMatchTree.truth_atRankZero (assign : Nat → Bool) (t : PlainMatchTree) :
    t.atRankZero.truth assign = t.truth assign := by
  induction t with
  | And left right ihl ihr =>
    simp [PlainMatchTree.atRankZero, RowMatchNode.truth, PlainMatchTree.truth, ihl, ihr]
  | Or left right ihl ihr =>
    simp [PlainMatchTree.atRankZero, RowMatchNode.truth, PlainMatchTree.truth, ihl, ihr]
  | Not child ih =>
    simp [PlainMatchTree.atRankZero, RowMatchNode.truth, PlainMatchTree.truth, ih]
  | Row row => rfl

namespace RowMatchNode

/-- A conjunction chain is true when all its nodes are. -/
theorem truth_conjoin (assign : Nat → Bool) (front : List RowMatchNode) (last : RowMatchNode) :
    (conjoin front last).truth assign
      = (front.all (fun node => node.truth assign) && last.truth assign) := by
  induction front with
  | nil => simp [conjoin]
  | cons first rest ih =>
    simp only [conjoin, List.foldr_cons, List.all_cons] at ih ⊢
    simp only [truth, ih, Bool.and_assoc]

/-- An `And` chain is true when all its nodes are. -/
theorem truth_andChain (assign : Nat → Bool) :
    ∀ (first : RowMatchNode) (rest : List RowMatchNode),
      (andChain first rest).truth assign
        = (first.truth assign && rest.all (fun node => node.truth assign))
  | first, [] => by simp [andChain]
  | first, second :: rest => by
    simp only [andChain, truth, List.all_cons, truth_andChain assign second rest]

/-- A `Report` node over a conjunction is true when all the conjuncts are. -/
theorem truth_reportOver (assign : Nat → Bool) (children : List RowMatchNode) :
    (reportOver children).truth assign = children.all (fun node => node.truth assign) := by
  cases children with
  | nil => rfl
  | cons first rest => simp only [reportOver, truth, truth_andChain, List.all_cons]

/-- Joining two trees by `Or` gives their disjunction. -/
theorem truth_orJoin (assign : Nat → Bool) :
    ∀ left right : RowMatchNode,
      (orJoin left right).truth assign = (left.truth assign || right.truth assign)
  | .Or first rest, right => by
    simp only [orJoin, truth, truth_orJoin assign rest right, Bool.or_assoc]
  | .And _ _, _ => by simp [orJoin, truth]
  | .Not _, _ => by simp [orJoin, truth]
  | .Report _, _ => by simp [orJoin, truth]
  | .Row _, _ => by simp [orJoin, truth]

end RowMatchNode

/-- A test on the images of a list is the test of the images on the list. -/
theorem all_map_eq {α β : Type} (f : α → β) (p : β → Bool) (l : List α) :
    (l.map f).all p = l.all (fun x => p (f x)) := by
  induction l with
  | nil => rfl
  | cons first rest ih => simp only [List.map_cons, List.all_cons, ih]

namespace MatchTreeRewriter

/-- Putting a row into the list adds it to the conjunction. -/
theorem all_insertRow (f : AbstractRow → Bool) (row : AbstractRow) (rows : List AbstractRow) :
    (insertRow row rows).all f = (f row && rows.all f) := by
  induction rows with
  | nil => simp [insertRow]
  | cons first rest ih =>
    unfold insertRow
    split
    · simp
    · simp only [List.all_cons, ih]
      cases f row <;> cases f first <;> simp

/-- Adding a node to a partition adds it to the conjunction. -/
theorem truth_add (assign : Nat → Bool) (node : PlainMatchTree) :
    ∀ p : Partition, (p.add node).truth assign = (p.truth assign && node.truth assign) := by
  induction node with
  | And left right ihl ihr =>
    intro p
    simp only [Partition.add, ihr, ihl, PlainMatchTree.truth, Bool.and_assoc]
  | Or left right _ _ =>
    intro p
    simp only [Partition.add, Partition.truth, PlainMatchTree.truth, List.all_cons]
    cases List.all p.m_rows _ <;> cases List.all p.m_ors _ <;> cases List.all p.m_nots _ <;>
      cases left.truth assign <;> cases right.truth assign <;> rfl
  | Not child _ =>
    intro p
    simp only [Partition.add, Partition.truth, PlainMatchTree.truth, List.all_cons]
    cases List.all p.m_rows _ <;> cases List.all p.m_ors _ <;> cases List.all p.m_nots _ <;>
      cases child.truth assign <;> rfl
  | Row row =>
    intro p
    simp only [Partition.add, Partition.truth, PlainMatchTree.truth, all_insertRow]
    cases List.all p.m_rows _ <;> cases List.all p.m_ors _ <;> cases List.all p.m_nots _ <;>
      cases assign row.m_rowIndex <;> rfl

/-- The rows of a rank above 0 and the rows of rank 0 are all the rows. -/
theorem all_upper_and_zero (f : AbstractRow → Bool) (rows : List AbstractRow) :
    ((rows.filter (fun row => decide (0 < row.m_rank))).all f &&
        (rows.filter (fun row => decide (row.m_rank = 0))).all f) = rows.all f := by
  induction rows with
  | nil => rfl
  | cons first rest ih =>
    rw [List.all_cons, ← ih]
    by_cases h : first.m_rank = 0
    · have h1 : ¬ 0 < first.m_rank := by omega
      simp only [List.filter_cons, h, h1, decide_True, decide_False, if_true, if_false,
        List.all_cons, Bool.false_eq_true]
      cases f first <;> simp
    · have h1 : 0 < first.m_rank := by omega
      simp only [List.filter_cons, h, h1, decide_True, decide_False, if_true, if_false,
        List.all_cons, Bool.false_eq_true, Bool.and_assoc]

/-- The rows emitted before an `Or` node is multiplied out are true when the
rows of a rank above 0 are. -/
theorem truth_emittedUpperRows (assign : Nat → Bool) (p : Partition) (reached : Option Nat) :
    (p.emittedUpperRows reached).all (fun node => node.truth assign)
      = p.upperRows.all (fun row => assign row.m_rowIndex) := by
  rw [Partition.emittedUpperRows, all_map_eq]
  simp only [RowMatchNode.truth, AbstractRow.m_rowIndex_consumedAt]

/-- The branch that closes a partition is true when the conjuncts of the
partition are. -/
theorem truth_branch (assign : Nat → Bool) (p : Partition) (t : Nat) (reached : Option Nat) :
    (p.branch t reached).truth assign = p.truth assign := by
  have hzero : (p.rankZeroRows.map RowMatchNode.Row).all (fun node => node.truth assign)
      = p.rankZeroRows.all (fun row => assign row.m_rowIndex) := by
    rw [all_map_eq]
    rfl
  have hors : (p.m_ors.map residualOr).all (fun node => node.truth assign)
      = p.m_ors.all (fun pair => pair.1.truth assign || pair.2.truth assign) := by
    rw [all_map_eq]
    simp only [residualOr, RowMatchNode.truth, PlainMatchTree.truth_atRankZero]
  have hnots : (p.m_nots.map reportedNot).all (fun node => node.truth assign)
      = p.m_nots.all (fun child => !child.truth assign) := by
    rw [all_map_eq]
    simp only [reportedNot, RowMatchNode.truth, PlainMatchTree.truth_atRankZero]
  have hrows := all_upper_and_zero (fun row => assign row.m_rowIndex) p.m_rows
  unfold Partition.branch Partition.truth
  rw [← hrows]
  split
  · rw [RowMatchNode.truth_conjoin, RowMatchNode.truth_reportOver, List.all_append,
      List.all_append, truth_emittedUpperRows, hzero, hors, hnots]
    rfl
  · rw [RowMatchNode.truth_conjoin, RowMatchNode.truth_reportOver, List.all_append,
      List.all_append, truth_emittedUpperRows, hzero, hors, hnots]
    simp only [Partition.upperRows, Partition.rankZeroRows, Bool.and_assoc]

/-- The tree that the recursion returns is true exactly when the conjuncts met
above the node and the node are. -/
theorem truth_build (t : Nat) (assign : Nat → Bool) :
    ∀ (fuel : Nat) (parent : Partition) (reached : Option Nat) (node : PlainMatchTree)
      (count : Nat) (tree : RowMatchNode) (count1 : Nat),
      build t fuel parent reached node count = some (tree, count1) →
        tree.truth assign = (parent.add node).truth assign := by
  intro fuel
  induction fuel with
  | zero =>
    intro parent reached node count tree count1 h
    simp [build] at h
  | succ fuel ih =>
    intro parent reached node count tree count1 h
    unfold build at h
    cases hors : (parent.add node).m_ors with
    | nil =>
      rw [hors] at h
      simp only [Option.some.injEq, Prod.mk.injEq] at h
      rw [← h.1]
      exact truth_branch assign _ t reached
    | cons pair ors =>
      obtain ⟨left, right⟩ := pair
      rw [hors] at h
      simp only at h
      by_cases hc : count < t
      · simp only [hc, if_true] at h
        cases hl : build t fuel ((parent.add node).below ors)
            (rankAfter reached (parent.add node).upperRows) left count with
        | none => rw [hl] at h; simp at h
        | some resl =>
          obtain ⟨leftTree, cl⟩ := resl
          rw [hl] at h
          simp only at h
          cases hr : build t fuel ((parent.add node).below ors)
              (rankAfter reached (parent.add node).upperRows) right cl with
          | none => rw [hr] at h; simp at h
          | some resr =>
            obtain ⟨rightTree, cr⟩ := resr
            rw [hr] at h
            simp only [Option.some.injEq, Prod.mk.injEq] at h
            rw [← h.1, RowMatchNode.truth_conjoin, RowMatchNode.truth_orJoin,
              ih _ _ _ _ _ _ hl, ih _ _ _ _ _ _ hr, truth_add, truth_add,
              truth_emittedUpperRows]
            have hrows := all_upper_and_zero (fun row => assign row.m_rowIndex)
              (parent.add node).m_rows
            have hp : (parent.add node).truth assign
                = ((parent.add node).m_rows.all (fun row => assign row.m_rowIndex) &&
                    (((left.truth assign || right.truth assign) &&
                        ors.all (fun pair => pair.1.truth assign || pair.2.truth assign)) &&
                      (parent.add node).m_nots.all (fun child => !child.truth assign))) := by
              rw [Partition.truth, hors, List.all_cons]
            rw [hp, ← hrows]
            simp only [Partition.below, Partition.truth, Partition.upperRows,
              Partition.rankZeroRows]
            cases List.all (List.filter (fun row => decide (0 < row.m_rank))
                (parent.add node).m_rows) _ <;>
              cases List.all (List.filter (fun row => decide (row.m_rank = 0))
                (parent.add node).m_rows) _ <;>
              cases List.all ors _ <;> cases List.all (parent.add node).m_nots _ <;>
              cases left.truth assign <;> cases right.truth assign <;> rfl
      · simp only [hc, if_false, Option.some.injEq, Prod.mk.injEq] at h
        rw [← h.1]
        exact truth_branch assign _ t reached

end MatchTreeRewriter

/-- The tree that the model of the rewriter returns has the truth value of
its input. -/
theorem MatchTreeRewriter.truth_Rewrite (root : PlainMatchTree) (targetRowCount t : Nat)
    (tree : RowMatchNode) (assign : Nat → Bool)
    (h : MatchTreeRewriter.Rewrite root targetRowCount t = some tree) :
    tree.truth assign = root.truth assign := by
  obtain ⟨count, hb⟩ := MatchTreeRewriter.Rewrite_eq_some root targetRowCount t tree h
  rw [MatchTreeRewriter.truth_build t assign _ _ _ _ _ _ _ hb, MatchTreeRewriter.truth_add]
  rfl

/-- C30: for every pair of the table `c_rewriteCases` and every assignment of
truth values to the row indices, the expected output tree has the truth value
of the input tree, with `Report` over a child read as the child, an empty
`Report` as true, `And`, `Or` and `Not` as conjunction, disjunction and
negation, and a row taken by its index whatever its rank fields. -/
theorem c_rewriteCases_keep_truth (c : InputOutput) (assign : Nat → Bool)
    (hc : c ∈ c_rewriteCases) :
    c.m_output.truth assign = c.m_input.truth assign :=
  MatchTreeRewriter.truth_Rewrite c.m_input c.m_targetRowCount
    c.m_targetCrossProductTermCount c.m_output assign (Rewrite_c_rewriteCases c hc)

/-- C30, at the fixture of three `Or` nodes with the target count 4 and the
assignment that makes the rows 1, 5 and 7 true and the others false: both
trees are true. -/
theorem c_rewriteCases_keep_truth_witness :
    threeOrsCount4 ∈ c_rewriteCases ∧
      threeOrsCount4.m_input.truth (fun i => decide (i ∈ [1, 5, 7])) = true ∧
      threeOrsCount4.m_output.truth (fun i => decide (i ∈ [1, 5, 7]))
        = threeOrsCount4.m_input.truth (fun i => decide (i ∈ [1, 5, 7])) :=
  ⟨by simp [c_rewriteCases], by decide,
    c_rewriteCases_keep_truth threeOrsCount4 (fun i => decide (i ∈ [1, 5, 7]))
      (by simp [c_rewriteCases])⟩

/-! ## Properties of the rank-down compiler -/

namespace RankDownCompiler

/-- The required rank is at most `b` exactly when every row has a rank of at
most `b`. -/
theorem foldr_max_le_iff (ranks : List Nat) (b : Nat) :
    ranks.foldr max 0 ≤ b ↔ ∀ r ∈ ranks, r ≤ b := by
  induction ranks with
  | nil => simp
  | cons first rest ih =>
    simp only [List.foldr_cons, List.mem_cons, forall_eq_or_imp, max_le_iff, ih]

/-- The required rank of a subtree is at most `b` exactly when every row of
the subtree has a rank of at most `b`. -/
theorem requiredRank_le_iff (node : RowMatchNode) (b : Nat) :
    requiredRank node ≤ b ↔ ∀ row ∈ node.allRows, row.m_rank ≤ b := by
  unfold requiredRank
  rw [foldr_max_le_iff]
  simp only [List.mem_map, forall_exists_index, and_imp, forall_apply_eq_imp_iff₂]

/-- The required rank of an `Or` node is the maximum of the required ranks of
its children. -/
theorem requiredRank_Or (left right : RowMatchNode) :
    requiredRank (.Or left right) = max (requiredRank left) (requiredRank right) := by
  apply Nat.le_antisymm
  · rw [requiredRank_le_iff]
    intro row hrow
    simp only [RowMatchNode.allRows, List.mem_append] at hrow
    rcases hrow with h | h
    · exact le_trans ((requiredRank_le_iff left _).1 (le_refl _) row h) (le_max_left _ _)
    · exact le_trans ((requiredRank_le_iff right _).1 (le_refl _) row h) (le_max_right _ _)
  · apply max_le
    · rw [requiredRank_le_iff]
      intro row hrow
      exact (requiredRank_le_iff (.Or left right) _).1 (le_refl _) row
        (by simp [RowMatchNode.allRows, hrow])
    · rw [requiredRank_le_iff]
      intro row hrow
      exact (requiredRank_le_iff (.Or left right) _).1 (le_refl _) row
        (by simp [RowMatchNode.allRows, hrow])

/-- The `RankDown` nodes in front of a node step by one, and the node is
entered at the rank they lead to. -/
theorem descendsByOne_rankDownSteps (rank : Nat) (node : CompileNode) :
    ∀ steps : Nat,
      (rankDownSteps rank steps node).descendsByOne (rank + steps)
        = node.descendsByOne rank
  | 0 => rfl
  | steps + 1 => by
    simp only [rankDownSteps, CompileNode.descendsByOne]
    rw [descendsByOne_rankDownSteps rank node steps]
    simp [Nat.add_assoc]

/-- The `RankDown` nodes from `currentRank` down to a rank that is not above
it step by one, and behind them the node is entered at that rank. -/
theorem descendsByOne_rankDown (currentRank rank : Nat) (node : CompileNode)
    (h : rank ≤ currentRank) :
    (rankDown currentRank rank node).descendsByOne currentRank
      = node.descendsByOne rank := by
  have := descendsByOne_rankDownSteps rank node (currentRank - rank)
  rw [Nat.add_sub_cancel' h] at this
  exact this

/-- As many `RankDown` nodes are put in front of a node as there are ranks to
go down. -/
theorem rankDownCount_rankDown (currentRank rank : Nat) (node : CompileNode) :
    (rankDown currentRank rank node).rankDownCount
      = node.rankDownCount + (currentRank - rank) := by
  unfold rankDown
  induction currentRank - rank with
  | zero => rfl
  | succ steps ih => simp only [rankDownSteps, CompileNode.rankDownCount, ih]; omega

end RankDownCompiler

/-- The rows of the `RowMatchNode` tree that a plain tree stands for are the
rows of the plain tree. -/
theorem PlainMatchTree.allRows_toRowMatchNode (t : PlainMatchTree) :
    t.toRowMatchNode.allRows = t.rows := by
  induction t with
  | And left right ihl ihr =>
    simp [PlainMatchTree.toRowMatchNode, RowMatchNode.allRows, PlainMatchTree.rows, ihl, ihr]
  | Or left right ihl ihr =>
    simp [PlainMatchTree.toRowMatchNode, RowMatchNode.allRows, PlainMatchTree.rows, ihl, ihr]
  | Not child ih =>
    simp [PlainMatchTree.toRowMatchNode, RowMatchNode.allRows, PlainMatchTree.rows, ih]
  | Row row => rfl

/-- The structural translation of a plain tree whose rows all have rank 0
holds no `RankDown` node and reads every row at rank 0. -/
theorem PlainMatchTree.descendsByOne_structuralTranslation (t : PlainMatchTree)
    (h : ∀ row ∈ t.rows, row.m_rank = 0) :
    t.structuralTranslation.descendsByOne 0 = true := by
  induction t with
  | And left right ihl ihr =>
    simp only [PlainMatchTree.rows, List.mem_append] at h
    simp [PlainMatchTree.structuralTranslation, CompileNode.descendsByOne,
      ihl (fun row hrow => h row (Or.inl hrow)), ihr (fun row hrow => h row (Or.inr hrow))]
  | Or left right ihl ihr =>
    simp only [PlainMatchTree.rows, List.mem_append] at h
    simp [PlainMatchTree.structuralTranslation, CompileNode.descendsByOne,
      ihl (fun row hrow => h row (Or.inl hrow)), ihr (fun row hrow => h row (Or.inr hrow))]
  | Not child ih =>
    simp only [PlainMatchTree.rows] at h
    simp [PlainMatchTree.structuralTranslation, CompileNode.descendsByOne, ih h]
  | Row row =>
    simp [PlainMatchTree.structuralTranslation, CompileNode.descendsByOne,
      h row (by simp [PlainMatchTree.rows])]
namespace RankDownCompiler

/-- On a subtree without `Report` node whose rows all have rank 0 the
rank-zero compiler returns a tree without `RankDown` node that reads every
row at rank 0. -/
theorem RankZeroCompiler_Compile_ok (n : RowMatchNode) (h : n.containsReport = false)
    (hzero : ∀ row ∈ n.allRows, row.m_rank = 0) :
    ∃ code, RankZeroCompiler.Compile n = Except.ok code ∧
      code.descendsByOne 0 = true ∧ code.rankDownCount = 0 := by
  obtain ⟨t, ht⟩ := RankZeroCompiler.exists_plain_of_containsReport_eq_false n h
  subst ht
  rw [PlainMatchTree.allRows_toRowMatchNode] at hzero
  refine ⟨_, RankZeroCompiler.Compile_toRowMatchNode t,
    t.descendsByOne_structuralTranslation hzero, ?_⟩
  clear h hzero
  induction t with
  | And left right ihl ihr =>
    simp [PlainMatchTree.structuralTranslation, CompileNode.rankDownCount, ihl, ihr]
  | Or left right ihl ihr =>
    simp [PlainMatchTree.structuralTranslation, CompileNode.rankDownCount, ihl, ihr]
  | Not child ih =>
    simp [PlainMatchTree.structuralTranslation, CompileNode.rankDownCount, ih]
  | Row row => rfl

/-- The walk at a conjunction whose first conjunct is not a row. -/
theorem CompileInternal_And (currentRank : Nat) (left right : RowMatchNode)
    (h : ∀ row, left ≠ .Row row) :
    CompileInternal currentRank (.And left right) =
      match RankZeroCompiler.Compile left, CompileInternal 0 right with
      | .ok l, .ok (r, entered) =>
        .ok (rankDown currentRank 0 (CompileNode.AndTree l r),
          (currentRank, .And left right) ::
            (left.subtrees.map (fun node => (0, node)) ++ entered))
      | .error e, _ => .error e
      | .ok _, .error e => .error e := by
  rw [CompileInternal]
  all_goals first | rfl | exact h

end RankDownCompiler

/-- The descent of the ranks at a conjunction whose first conjunct is not a
row. -/
theorem RowMatchNode.ranksDescend_And (left right : RowMatchNode)
    (h : ∀ row, left ≠ .Row row) :
    (RowMatchNode.And left right).ranksDescend =
      (!left.containsReport && left.allRows.all (fun r => decide (r.m_rank = 0)) &&
        right.allRows.all (fun r => decide (r.m_rank = 0)) && right.ranksDescend) := by
  rw [RowMatchNode.ranksDescend]
  exact h

namespace RankDownCompiler

/-- Every row of a subtree has a rank of at most the required rank of the
subtree. -/
theorem m_rank_le_requiredRank (node : RowMatchNode) (row : AbstractRow)
    (h : row ∈ node.allRows) : row.m_rank ≤ requiredRank node :=
  (requiredRank_le_iff node _).1 (le_refl _) row h

/-- The rows below a node of a tree are rows of the tree. -/
theorem allRows_of_mem_subtrees : ∀ (tree node : RowMatchNode), node ∈ tree.subtrees →
    ∀ row ∈ node.allRows, row ∈ tree.allRows
  | .And left right, node, h, row, hrow => by
    simp only [RowMatchNode.subtrees, List.mem_cons, List.mem_append] at h
    rcases h with rfl | h | h
    · exact hrow
    · simp only [RowMatchNode.allRows, List.mem_append]
      exact Or.inl (allRows_of_mem_subtrees left node h row hrow)
    · simp only [RowMatchNode.allRows, List.mem_append]
      exact Or.inr (allRows_of_mem_subtrees right node h row hrow)
  | .Or left right, node, h, row, hrow => by
    simp only [RowMatchNode.subtrees, List.mem_cons, List.mem_append] at h
    rcases h with rfl | h | h
    · exact hrow
    · simp only [RowMatchNode.allRows, List.mem_append]
      exact Or.inl (allRows_of_mem_subtrees left node h row hrow)
    · simp only [RowMatchNode.allRows, List.mem_append]
      exact Or.inr (allRows_of_mem_subtrees right node h row hrow)
  | .Not child, node, h, row, hrow => by
    simp only [RowMatchNode.subtrees, List.mem_cons] at h
    rcases h with rfl | h
    · exact hrow
    · simp only [RowMatchNode.allRows]
      exact allRows_of_mem_subtrees child node h row hrow
  | .Report none, node, h, row, hrow => by
    simp only [RowMatchNode.subtrees, List.mem_singleton] at h
    subst h
    exact hrow
  | .Report (some child), node, h, row, hrow => by
    simp only [RowMatchNode.subtrees, List.mem_cons] at h
    rcases h with rfl | h
    · exact hrow
    · simp only [RowMatchNode.allRows]
      exact allRows_of_mem_subtrees child node h row hrow
  | .Row r, node, h, row, hrow => by
    simp only [RowMatchNode.subtrees, List.mem_singleton] at h
    subst h
    exact hrow

/-- The nodes of a subtree whose rows all have rank 0, entered at rank 0, are
entered at a rank that is not below the rank of any row below them. -/
theorem subtrees_rank_le (tree : RowMatchNode) (hzero : ∀ row ∈ tree.allRows, row.m_rank = 0) :
    ∀ e ∈ tree.subtrees.map (fun node => ((0 : Nat), node)),
      ∀ row ∈ e.2.allRows, row.m_rank ≤ e.1 := by
  intro e he row hrow
  rw [List.mem_map] at he
  obtain ⟨node, hnode, rfl⟩ := he
  rw [hzero row (allRows_of_mem_subtrees tree node hnode row hrow)]

/-- The nodes of a list of entries made from the nodes of a subtree. -/
theorem map_snd_subtrees (tree : RowMatchNode) :
    (tree.subtrees.map (fun node => ((0 : Nat), node))).map Prod.snd = tree.subtrees := by
  rw [List.map_map]
  exact List.map_id _

/-- The walk at a conjunction whose first conjunct is not a row, on a tree
whose ranks descend: the conjunct is handed to the rank-zero compiler and
entered at rank 0, as is the rest of the conjunction. -/
theorem CompileInternal_And_descends (left right : RowMatchNode) (c : Nat)
    (hleft : ∀ row, left ≠ .Row row)
    (hd : (RowMatchNode.And left right).ranksDescend = true)
    (hr : requiredRank (.And left right) ≤ c)
    (ih : right.ranksDescend = true → requiredRank right ≤ 0 →
      ∃ code entered, CompileInternal 0 right = Except.ok (code, entered) ∧
        code.descendsByOne 0 = true ∧ entered.map Prod.snd = right.subtrees ∧
        (0, right) ∈ entered ∧
        ∀ e ∈ entered, ∀ row ∈ e.2.allRows, row.m_rank ≤ e.1) :
    ∃ code entered, CompileInternal c (.And left right) = Except.ok (code, entered) ∧
      code.descendsByOne c = true ∧
      entered.map Prod.snd = (RowMatchNode.And left right).subtrees ∧
      (c, RowMatchNode.And left right) ∈ entered ∧
      ∀ e ∈ entered, ∀ row ∈ e.2.allRows, row.m_rank ≤ e.1 := by
  rw [RowMatchNode.ranksDescend_And _ _ hleft] at hd
  simp only [Bool.and_eq_true, Bool.not_eq_true', List.all_eq_true,
    decide_eq_true_eq] at hd
  obtain ⟨⟨⟨hrep, hzl⟩, hzero⟩, hdesc⟩ := hd
  obtain ⟨l, hl, hlb, _⟩ := RankZeroCompiler_Compile_ok _ hrep hzl
  obtain ⟨r, entered, hrc, hrb, hnodes, _, hre⟩ := ih hdesc
    ((requiredRank_le_iff _ _).2 fun row hmem => by rw [hzero row hmem])
  refine ⟨rankDown c 0 (CompileNode.AndTree l r),
    (c, .And left right) :: (left.subtrees.map (fun node => (0, node)) ++ entered),
    ?_, ?_, ?_, List.mem_cons_self _ _, ?_⟩
  · rw [CompileInternal_And _ _ _ hleft, hl, hrc]
  · rw [descendsByOne_rankDown c _ _ (Nat.zero_le _)]
    simp [CompileNode.descendsByOne, hlb, hrb]
  · rw [List.map_cons, List.map_append, map_snd_subtrees, hnodes]
    rfl
  · intro e he
    simp only [List.mem_cons, List.mem_append] at he
    rcases he with rfl | he | he
    · exact (requiredRank_le_iff _ _).1 hr
    · exact subtrees_rank_le left hzl e he
    · exact hre e he

/-- On a tree whose ranks descend, entered at a rank that is not below its
required rank, the walk returns a compiled tree that goes down rank by rank,
and the nodes it has entered: these are the nodes of the tree, each once and
in their order, the tree itself at the rank given and every node at a rank
that is not below the rank of any row below the node. -/
theorem CompileInternal_descends :
    ∀ (tree : RowMatchNode) (c : Nat), tree.ranksDescend = true →
      requiredRank tree ≤ c →
      ∃ code entered, CompileInternal c tree = Except.ok (code, entered) ∧
        code.descendsByOne c = true ∧ entered.map Prod.snd = tree.subtrees ∧
        (c, tree) ∈ entered ∧
        ∀ e ∈ entered, ∀ row ∈ e.2.allRows, row.m_rank ≤ e.1
  | .And (.Row row) right, c, hd, hr => by
    rw [RowMatchNode.ranksDescend, Bool.and_eq_true, List.all_eq_true] at hd
    have hrow : row.m_rank ≤ c :=
      (requiredRank_le_iff _ _).1 hr row (by simp [RowMatchNode.allRows])
    have hright : requiredRank right ≤ row.m_rank :=
      (requiredRank_le_iff _ _).2 fun r hmem => by simpa using hd.1 r hmem
    obtain ⟨next, entered, hn, hb, hnodes, _, hre⟩ :=
      CompileInternal_descends right row.m_rank hd.2 hright
    refine ⟨rankDown c row.m_rank (CompileNode.AndRowJz row next),
      (c, .And (.Row row) right) :: (c, .Row row) :: entered, ?_, ?_, ?_,
      List.mem_cons_self _ _, ?_⟩
    · rw [CompileInternal, Nat.min_eq_right hrow, hn]
    · rw [descendsByOne_rankDown c _ _ hrow]
      simp [CompileNode.descendsByOne, hb]
    · rw [List.map_cons, List.map_cons, hnodes]
      rfl
    · intro e he
      simp only [List.mem_cons] at he
      rcases he with rfl | rfl | he
      · exact (requiredRank_le_iff _ _).1 hr
      · intro r hmem
        simp only [RowMatchNode.allRows, List.mem_singleton] at hmem
        rw [hmem]
        exact hrow
      · exact hre e he
  | .And (.And a b) right, c, hd, hr =>
    CompileInternal_And_descends _ right c (fun _ hrow => by cases hrow) hd hr
      (CompileInternal_descends right 0)
  | .And (.Or a b) right, c, hd, hr =>
    CompileInternal_And_descends _ right c (fun _ hrow => by cases hrow) hd hr
      (CompileInternal_descends right 0)
  | .And (.Not a) right, c, hd, hr =>
    CompileInternal_And_descends _ right c (fun _ hrow => by cases hrow) hd hr
      (CompileInternal_descends right 0)
  | .And (.Report a) right, c, hd, hr => by
    rw [RowMatchNode.ranksDescend_And _ _ (fun _ hrow => by cases hrow)] at hd
    simp [RowMatchNode.containsReport] at hd
  | .Or left right, c, hd, hr => by
    rw [RowMatchNode.ranksDescend, Bool.and_eq_true] at hd
    have hr1 := hr
    rw [requiredRank_Or] at hr1
    obtain ⟨l, enteredLeft, hl, hlb, hnl, _, hle⟩ := CompileInternal_descends left
      (max (requiredRank left) (requiredRank right)) hd.1 (le_max_left _ _)
    obtain ⟨r, enteredRight, hrc, hrb, hnr, _, hre⟩ := CompileInternal_descends right
      (max (requiredRank left) (requiredRank right)) hd.2 (le_max_right _ _)
    refine ⟨rankDown c (max (requiredRank left) (requiredRank right))
      (CompileNode.OrTree l r), (c, .Or left right) :: (enteredLeft ++ enteredRight),
      ?_, ?_, ?_, List.mem_cons_self _ _, ?_⟩
    · rw [CompileInternal, hl, hrc]
    · rw [descendsByOne_rankDown c _ _ hr1]
      simp [CompileNode.descendsByOne, hlb, hrb]
    · rw [List.map_cons, List.map_append, hnl, hnr]
      rfl
    · intro e he
      simp only [List.mem_cons, List.mem_append] at he
      rcases he with rfl | he | he
      · exact (requiredRank_le_iff _ _).1 hr
      · exact hle e he
      · exact hre e he
  | .Not child, c, hd, hr => by
    rw [RowMatchNode.ranksDescend] at hd
    simp only [Bool.and_eq_true, Bool.not_eq_true', List.all_eq_true,
      decide_eq_true_eq] at hd
    obtain ⟨code, hc, hb, _⟩ := RankZeroCompiler_Compile_ok (.Not child)
      (by simpa [RowMatchNode.containsReport] using hd.1)
      (by simpa [RowMatchNode.allRows] using hd.2)
    refine ⟨rankDown c 0 code,
      (c, .Not child) :: child.subtrees.map (fun node => (0, node)), ?_, ?_, ?_,
      List.mem_cons_self _ _, ?_⟩
    · rw [CompileInternal, hc]
    · rw [descendsByOne_rankDown c _ _ (Nat.zero_le _)]
      exact hb
    · rw [List.map_cons, map_snd_subtrees]
      rfl
    · intro e he
      rw [List.mem_cons] at he
      rcases he with rfl | he
      · exact (requiredRank_le_iff _ _).1 hr
      · exact subtrees_rank_le child hd.2 e he
  | .Report none, c, _, hr => by
    refine ⟨rankDown c 0 (CompileNode.Report none), [(c, .Report none)],
      by rw [CompileInternal], ?_, rfl, List.mem_cons_self _ _, ?_⟩
    · rw [descendsByOne_rankDown c _ _ (Nat.zero_le _)]
      rfl
    · intro e he
      rw [List.mem_singleton] at he
      subst he
      exact (requiredRank_le_iff _ _).1 hr
  | .Report (some child), c, hd, hr => by
    rw [RowMatchNode.ranksDescend] at hd
    simp only [Bool.and_eq_true, Bool.not_eq_true', List.all_eq_true,
      decide_eq_true_eq] at hd
    obtain ⟨code, hc, hb, _⟩ := RankZeroCompiler_Compile_ok child hd.1 hd.2
    refine ⟨rankDown c 0 (CompileNode.Report (some code)),
      (c, .Report (some child)) :: child.subtrees.map (fun node => (0, node)),
      ?_, ?_, ?_, List.mem_cons_self _ _, ?_⟩
    · rw [CompileInternal, hc]
    · rw [descendsByOne_rankDown c _ _ (Nat.zero_le _)]
      simpa [CompileNode.descendsByOne] using hb
    · rw [List.map_cons, map_snd_subtrees]
      rfl
    · intro e he
      rw [List.mem_cons] at he
      rcases he with rfl | he
      · exact (requiredRank_le_iff _ _).1 hr
      · exact subtrees_rank_le child hd.2 e he
  | .Row row, c, _, hr => by
    have hrow : row.m_rank ≤ c :=
      (requiredRank_le_iff _ _).1 hr row (by simp [RowMatchNode.allRows])
    refine ⟨rankDown c row.m_rank (CompileNode.LoadRow row), [(c, .Row row)],
      by rw [CompileInternal], ?_, rfl, List.mem_cons_self _ _, ?_⟩
    · rw [descendsByOne_rankDown c _ _ hrow]
      simp [CompileNode.descendsByOne]
    · intro e he
      rw [List.mem_singleton] at he
      subst he
      exact (requiredRank_le_iff _ _).1 hr

end RankDownCompiler

/-! ### The ranks of a rewritten tree -/

namespace PlainMatchTree

/-- A subtree whose rows are consumed at rank 0 holds no `Report` node. -/
theorem containsReport_atRankZero (t : PlainMatchTree) :
    t.atRankZero.containsReport = false := by
  induction t with
  | And left right ihl ihr => simp [atRankZero, RowMatchNode.containsReport, ihl, ihr]
  | Or left right ihl ihr => simp [atRankZero, RowMatchNode.containsReport, ihl, ihr]
  | Not child ih => simp [atRankZero, RowMatchNode.containsReport, ih]
  | Row row => rfl

/-- The rows of a subtree whose rows are consumed at rank 0 have rank 0. -/
theorem m_rank_allRows_atRankZero (t : PlainMatchTree) :
    ∀ row ∈ t.atRankZero.allRows, row.m_rank = 0 := by
  induction t with
  | And left right ihl ihr =>
    intro row hrow
    simp only [atRankZero, RowMatchNode.allRows, List.mem_append] at hrow
    exact hrow.elim (ihl row) (ihr row)
  | Or left right ihl ihr =>
    intro row hrow
    simp only [atRankZero, RowMatchNode.allRows, List.mem_append] at hrow
    exact hrow.elim (ihl row) (ihr row)
  | Not child ih =>
    intro row hrow
    exact ih row hrow
  | Row r =>
    intro row hrow
    simp only [atRankZero, RowMatchNode.allRows, List.mem_singleton] at hrow
    rw [hrow]
    rfl

end PlainMatchTree

namespace RowMatchNode

/-- The rows of a conjunction chain. -/
theorem allRows_conjoin (front : List RowMatchNode) (last : RowMatchNode) :
    (conjoin front last).allRows = front.flatMap allRows ++ last.allRows := by
  induction front with
  | nil => rfl
  | cons first rest ih =>
    simp only [conjoin, List.foldr_cons] at ih ⊢
    simp only [allRows, ih, List.flatMap_cons, List.append_assoc]

/-- The rows of two trees joined by `Or`. -/
theorem allRows_orJoin :
    ∀ left right : RowMatchNode, (orJoin left right).allRows = left.allRows ++ right.allRows
  | .Or first rest, right => by
    simp only [orJoin, allRows, allRows_orJoin rest right, List.append_assoc]
  | .And _ _, _ => by simp [orJoin, allRows]
  | .Not _, _ => by simp [orJoin, allRows]
  | .Report _, _ => by simp [orJoin, allRows]
  | .Row _, _ => by simp [orJoin, allRows]

/-- The ranks of two trees joined by `Or` descend when those of both do. -/
theorem ranksDescend_orJoin :
    ∀ left right : RowMatchNode,
      (orJoin left right).ranksDescend = (left.ranksDescend && right.ranksDescend)
  | .Or first rest, right => by
    simp only [orJoin, ranksDescend, ranksDescend_orJoin rest right, Bool.and_assoc]
  | .And _ _, _ => by simp [orJoin, ranksDescend]
  | .Not _, _ => by simp [orJoin, ranksDescend]
  | .Report _, _ => by simp [orJoin, ranksDescend]
  | .Row _, _ => by simp [orJoin, ranksDescend]

/-- The rows of an `And` chain. -/
theorem allRows_andChain :
    ∀ (first : RowMatchNode) (rest : List RowMatchNode),
      (andChain first rest).allRows = first.allRows ++ rest.flatMap allRows
  | first, [] => by simp [andChain]
  | first, second :: rest => by
    simp only [andChain, allRows, allRows_andChain second rest, List.flatMap_cons]

/-- An `And` chain of nodes without `Report` node holds no `Report` node. -/
theorem containsReport_andChain :
    ∀ (first : RowMatchNode) (rest : List RowMatchNode),
      (∀ n ∈ first :: rest, n.containsReport = false) →
      (andChain first rest).containsReport = false
  | first, [], h => h first (List.mem_cons_self _ _)
  | first, second :: rest, h => by
    simp only [andChain, containsReport, Bool.or_eq_false_iff]
    exact ⟨h first (List.mem_cons_self _ _),
      containsReport_andChain second rest fun n hn => h n (List.mem_cons_of_mem _ hn)⟩

/-- A `Report` node over nodes without `Report` node whose rows have rank 0:
its ranks descend and its rows have rank 0. -/
theorem ranksDescend_reportOver (children : List RowMatchNode)
    (h : ∀ n ∈ children, n.containsReport = false ∧ ∀ row ∈ n.allRows, row.m_rank = 0) :
    (reportOver children).ranksDescend = true ∧
      ∀ row ∈ (reportOver children).allRows, row.m_rank = 0 := by
  cases children with
  | nil => exact ⟨rfl, fun row hrow => by simp [reportOver, allRows] at hrow⟩
  | cons first rest =>
    have hrows : ∀ row ∈ (andChain first rest).allRows, row.m_rank = 0 := by
      intro row hrow
      rw [allRows_andChain, List.mem_append, List.mem_flatMap] at hrow
      rcases hrow with hrow | ⟨n, hn, hrow⟩
      · exact (h first (List.mem_cons_self _ _)).2 row hrow
      · exact (h n (List.mem_cons_of_mem _ hn)).2 row hrow
    refine ⟨?_, hrows⟩
    simp only [reportOver, ranksDescend, Bool.and_eq_true, Bool.not_eq_true',
      List.all_eq_true, decide_eq_true_eq]
    exact ⟨containsReport_andChain first rest fun n hn => (h n hn).1, hrows⟩

/-- A conjunction chain of nodes without `Report` node whose rows have rank 0
in front of a tree whose rows have rank 0: its ranks descend when those of
the tree do, and its rows have rank 0. -/
theorem ranksDescend_conjoin_zero (front : List RowMatchNode) (last : RowMatchNode)
    (hfront : ∀ n ∈ front, n.containsReport = false ∧ ∀ row ∈ n.allRows, row.m_rank = 0)
    (hlast : ∀ row ∈ last.allRows, row.m_rank = 0) (hd : last.ranksDescend = true) :
    (conjoin front last).ranksDescend = true ∧
      ∀ row ∈ (conjoin front last).allRows, row.m_rank = 0 := by
  induction front with
  | nil => exact ⟨hd, hlast⟩
  | cons first rest ih =>
    obtain ⟨ihd, ihrows⟩ := ih fun n hn => hfront n (List.mem_cons_of_mem _ hn)
    obtain ⟨hrep, hfirst⟩ := hfront first (List.mem_cons_self _ _)
    have hall : ∀ row ∈ (conjoin (first :: rest) last).allRows, row.m_rank = 0 := by
      intro row hrow
      simp only [conjoin, List.foldr_cons, allRows, List.mem_append] at hrow
      exact hrow.elim (hfirst row) (ihrows row)
    refine ⟨?_, hall⟩
    have hconj : conjoin (first :: rest) last = .And first (conjoin rest last) := rfl
    rw [hconj]
    cases first with
    | Row r =>
      rw [ranksDescend, ihd, Bool.and_true, List.all_eq_true]
      intro row hrow
      rw [ihrows row hrow]
      simp
    | And a b =>
      rw [ranksDescend_And _ _ (fun _ hrow => by cases hrow), hrep, ihd]
      simp only [Bool.not_false, Bool.true_and, Bool.and_true, Bool.and_eq_true,
        List.all_eq_true, decide_eq_true_eq]
      exact ⟨hfirst, ihrows⟩
    | Or a b =>
      rw [ranksDescend_And _ _ (fun _ hrow => by cases hrow), hrep, ihd]
      simp only [Bool.not_false, Bool.true_and, Bool.and_true, Bool.and_eq_true,
        List.all_eq_true, decide_eq_true_eq]
      exact ⟨hfirst, ihrows⟩
    | Not a =>
      rw [ranksDescend_And _ _ (fun _ hrow => by cases hrow), hrep, ihd]
      simp only [Bool.not_false, Bool.true_and, Bool.and_true, Bool.and_eq_true,
        List.all_eq_true, decide_eq_true_eq]
      exact ⟨hfirst, ihrows⟩
    | Report a => simp [containsReport] at hrep

/-- A conjunction chain of rows by descending rank in front of a tree whose
rows have no higher rank than any of them: its ranks descend when those of
the tree do. -/
theorem ranksDescend_conjoin_rows (rows : List AbstractRow) (last : RowMatchNode)
    (hrows : rows.Pairwise fun a b => b.m_rank ≤ a.m_rank)
    (hlast : ∀ a ∈ rows, ∀ row ∈ last.allRows, row.m_rank ≤ a.m_rank)
    (hd : last.ranksDescend = true) :
    (conjoin (rows.map RowMatchNode.Row) last).ranksDescend = true := by
  induction rows with
  | nil => exact hd
  | cons first rest ih =>
    rw [List.pairwise_cons] at hrows
    have ihd := ih hrows.2 fun a ha => hlast a (List.mem_cons_of_mem _ ha)
    have hconj : conjoin ((first :: rest).map RowMatchNode.Row) last
        = .And (.Row first) (conjoin (rest.map RowMatchNode.Row) last) := rfl
    rw [hconj, ranksDescend, ihd, Bool.and_true, List.all_eq_true]
    intro row hrow
    rw [allRows_conjoin, List.mem_append, List.mem_flatMap] at hrow
    rw [decide_eq_true_eq]
    rcases hrow with ⟨n, hn, hrow⟩ | hrow
    · obtain ⟨r, hr, rfl⟩ := List.mem_map.1 hn
      simp only [allRows, List.mem_singleton] at hrow
      rw [hrow]
      exact hrows.1 r hr
    · exact hlast first (List.mem_cons_self _ _) row hrow

end RowMatchNode

namespace MatchTreeRewriter

/-- A row consumed when the rank `r` is reached has a rank of at most `r`. -/
theorem m_rank_consumedAt_le (row : AbstractRow) (r : Nat) :
    (row.consumedAt (some r)).m_rank ≤ r := by
  simp only [AbstractRow.consumedAt, AbstractRow.atRank]
  exact Nat.min_le_right _ _

/-- The last row of a list of rows by descending rank has the lowest rank. -/
theorem getLast_rank_le :
    ∀ (rows : List AbstractRow) (last : AbstractRow), Descending rows →
      rows.getLast? = some last → ∀ u ∈ rows, last.m_rank ≤ u.m_rank
  | [], _, _, h => by simp at h
  | [a], last, _, h => by
    intro u hu
    simp only [List.getLast?_singleton, Option.some.injEq] at h
    simp only [List.mem_singleton] at hu
    rw [hu, h]
  | a :: b :: rest, last, hd, h => by
    rw [List.getLast?_cons_cons] at h
    have hmem : last ∈ b :: rest := List.mem_of_getLast?_eq_some h
    intro u hu
    rcases List.mem_cons.1 hu with rfl | hu
    · exact (List.pairwise_cons.1 hd).1 last hmem
    · exact getLast_rank_le (b :: rest) last (List.pairwise_cons.1 hd).2 h u hu

/-- The rows emitted before an `Or` node or at the start of a branch, in
front of a tree whose ranks descend and whose rows have no higher rank than
the rank reached after them: the ranks of the whole descend, and its rows
have no higher rank than the rank reached before. -/
theorem ranksDescend_emitted (p : Partition) (reached : Option Nat) (last : RowMatchNode)
    (h : Descending p.m_rows) (hd : last.ranksDescend = true)
    (hlast : ∀ r, rankAfter reached p.upperRows = some r →
      ∀ row ∈ last.allRows, row.m_rank ≤ r) :
    (RowMatchNode.conjoin (p.emittedUpperRows reached) last).ranksDescend = true ∧
      ∀ r, reached = some r →
        ∀ row ∈ (RowMatchNode.conjoin (p.emittedUpperRows reached) last).allRows,
          row.m_rank ≤ r := by
  have hupper := upperRows_descending p h
  have hemit : p.emittedUpperRows reached
      = (p.upperRows.map fun row => row.consumedAt reached).map RowMatchNode.Row := by
    rw [Partition.emittedUpperRows, List.map_map]
    rfl
  have hbelow : ∀ u ∈ p.upperRows, ∀ row ∈ last.allRows,
      row.m_rank ≤ (u.consumedAt reached).m_rank := by
    intro u hu row hrow
    cases hl : p.upperRows.getLast? with
    | none =>
      rw [List.getLast?_eq_none_iff] at hl
      rw [hl] at hu
      cases hu
    | some l =>
      have h1 := hlast (l.consumedAt reached).m_rank (by simp [rankAfter, hl]) row hrow
      exact le_trans h1
        (consumedAt_rank_le u l reached (getLast_rank_le _ l hupper hl u hu))
  constructor
  · rw [hemit]
    apply RowMatchNode.ranksDescend_conjoin_rows _ _ _ _ hd
    · exact List.Pairwise.map _ (fun a b hab => consumedAt_rank_le a b reached hab) hupper
    · intro a ha row hrow
      obtain ⟨u, hu, rfl⟩ := List.mem_map.1 ha
      exact hbelow u hu row hrow
  · intro r hr row hrow
    subst hr
    rw [RowMatchNode.allRows_conjoin, List.mem_append, List.mem_flatMap] at hrow
    rcases hrow with ⟨n, hn, hrow⟩ | hrow
    · rw [Partition.emittedUpperRows] at hn
      obtain ⟨u, _, rfl⟩ := List.mem_map.1 hn
      simp only [RowMatchNode.allRows, List.mem_singleton] at hrow
      rw [hrow]
      exact m_rank_consumedAt_le u r
    · cases hl : p.upperRows.getLast? with
      | none => exact hlast r (by simp [rankAfter, hl]) row hrow
      | some l =>
        exact le_trans
          (hlast (l.consumedAt (some r)).m_rank (by simp [rankAfter, hl]) row hrow)
          (m_rank_consumedAt_le l r)

/-- The nodes that a branch holds behind its rows of a rank above 0 hold no
`Report` node, and their rows have rank 0. -/
theorem zero_nodes (p : Partition) :
    ∀ n ∈ p.rankZeroRows.map RowMatchNode.Row ++ p.m_ors.map residualOr ++
        p.m_nots.map reportedNot,
      n.containsReport = false ∧ ∀ row ∈ n.allRows, row.m_rank = 0 := by
  intro n hn
  simp only [List.mem_append, List.mem_map] at hn
  rcases hn with (⟨row, hrow, rfl⟩ | ⟨pair, _, rfl⟩) | ⟨child, _, rfl⟩
  · refine ⟨rfl, fun r hr => ?_⟩
    simp only [RowMatchNode.allRows, List.mem_singleton] at hr
    simp only [Partition.rankZeroRows, List.mem_filter, decide_eq_true_eq] at hrow
    rw [hr]
    exact hrow.2
  · refine ⟨?_, fun r hr => ?_⟩
    · simp [residualOr, RowMatchNode.containsReport, PlainMatchTree.containsReport_atRankZero]
    · simp only [residualOr, RowMatchNode.allRows, List.mem_append] at hr
      exact hr.elim (pair.1.m_rank_allRows_atRankZero r) (pair.2.m_rank_allRows_atRankZero r)
  · exact ⟨by simp [reportedNot, RowMatchNode.containsReport,
      PlainMatchTree.containsReport_atRankZero], child.m_rank_allRows_atRankZero⟩

/-- The ranks of the branch that closes a partition with descending rows
descend, and its rows have no higher rank than the rank reached before. -/
theorem ranksDescend_branch (p : Partition) (t : Nat) (reached : Option Nat)
    (h : Descending p.m_rows) :
    (p.branch t reached).ranksDescend = true ∧
      ∀ r, reached = some r → ∀ row ∈ (p.branch t reached).allRows, row.m_rank ≤ r := by
  have hz := zero_nodes p
  have key : ∀ (front children : List RowMatchNode),
      (∀ n ∈ front, n.containsReport = false ∧ ∀ row ∈ n.allRows, row.m_rank = 0) →
      (∀ n ∈ children, n.containsReport = false ∧ ∀ row ∈ n.allRows, row.m_rank = 0) →
      (RowMatchNode.conjoin (p.emittedUpperRows reached ++ front)
          (RowMatchNode.reportOver children)).ranksDescend = true ∧
        ∀ r, reached = some r →
          ∀ row ∈ (RowMatchNode.conjoin (p.emittedUpperRows reached ++ front)
            (RowMatchNode.reportOver children)).allRows, row.m_rank ≤ r := by
    intro front children hfront hchildren
    obtain ⟨hrd, hrz⟩ := RowMatchNode.ranksDescend_reportOver children hchildren
    obtain ⟨hcd, hcz⟩ := RowMatchNode.ranksDescend_conjoin_zero front _ hfront hrz hrd
    have happ : RowMatchNode.conjoin (p.emittedUpperRows reached ++ front)
          (RowMatchNode.reportOver children)
        = RowMatchNode.conjoin (p.emittedUpperRows reached)
            (RowMatchNode.conjoin front (RowMatchNode.reportOver children)) := by
      simp only [RowMatchNode.conjoin, List.foldr_append]
    rw [happ]
    exact ranksDescend_emitted p reached _ h hcd fun r _ row hrow => by
      rw [hcz row hrow]
      exact Nat.zero_le _
  unfold Partition.branch
  split
  · exact key _ _ (fun n hn => hz n (by simp only [List.mem_append] at hn ⊢; tauto))
      (fun n hn => hz n (by simp only [List.mem_append] at hn ⊢; tauto))
  · rw [List.append_assoc]
    exact key _ _ (fun n hn => hz n (by simp only [List.mem_append] at hn ⊢; tauto))
      (fun n hn => hz n (by simp only [List.mem_append] at hn ⊢; tauto))

/-- The ranks of every tree of the recursion descend, and its rows have no
higher rank than the rank reached before, when the rows of the partition are
by descending rank. -/
theorem ranksDescend_build (t : Nat) :
    ∀ (fuel : Nat) (parent : Partition) (reached : Option Nat) (node : PlainMatchTree)
      (count : Nat) (tree : RowMatchNode) (count1 : Nat), Descending parent.m_rows →
      build t fuel parent reached node count = some (tree, count1) →
        tree.ranksDescend = true ∧
          ∀ r, reached = some r → ∀ row ∈ tree.allRows, row.m_rank ≤ r := by
  intro fuel
  induction fuel with
  | zero =>
    intro parent reached node count tree count1 _ h
    simp [build] at h
  | succ fuel ih =>
    intro parent reached node count tree count1 hdesc h
    have hadd := add_descending node parent hdesc
    unfold build at h
    cases hors : (parent.add node).m_ors with
    | nil =>
      rw [hors] at h
      simp only [Option.some.injEq, Prod.mk.injEq] at h
      rw [← h.1]
      exact ranksDescend_branch _ t reached hadd
    | cons pair ors =>
      obtain ⟨left, right⟩ := pair
      rw [hors] at h
      simp only at h
      by_cases hc : count < t
      · simp only [hc, if_true] at h
        have hbelow : Descending ((parent.add node).below ors).m_rows :=
          List.Pairwise.filter _ hadd
        cases hl : build t fuel ((parent.add node).below ors)
            (rankAfter reached (parent.add node).upperRows) left count with
        | none => rw [hl] at h; simp at h
        | some resl =>
          obtain ⟨leftTree, cl⟩ := resl
          rw [hl] at h
          simp only at h
          cases hr : build t fuel ((parent.add node).below ors)
              (rankAfter reached (parent.add node).upperRows) right cl with
          | none => rw [hr] at h; simp at h
          | some resr =>
            obtain ⟨rightTree, cr⟩ := resr
            rw [hr] at h
            simp only [Option.some.injEq, Prod.mk.injEq] at h
            rw [← h.1]
            obtain ⟨hld, hlr⟩ := ih _ _ _ _ _ _ hbelow hl
            obtain ⟨hrd, hrr⟩ := ih _ _ _ _ _ _ hbelow hr
            apply ranksDescend_emitted _ reached _ hadd
            · rw [RowMatchNode.ranksDescend_orJoin, hld, hrd]
              rfl
            · intro r hreached row hrow
              rw [RowMatchNode.allRows_orJoin, List.mem_append] at hrow
              exact hrow.elim (hlr r hreached row) (hrr r hreached row)
      · simp only [hc, if_false, Option.some.injEq, Prod.mk.injEq] at h
        rw [← h.1]
        exact ranksDescend_branch _ t reached hadd

/-- The ranks of every tree that the rewriter returns descend. -/
theorem ranksDescend_Rewrite (root : PlainMatchTree) (targetRowCount t : Nat)
    (tree : RowMatchNode) (h : Rewrite root targetRowCount t = some tree) :
    tree.ranksDescend = true := by
  obtain ⟨count, hb⟩ := Rewrite_eq_some root targetRowCount t tree h
  exact (ranksDescend_build t root.size Partition.empty none root 0 tree count
    List.Pairwise.nil hb).1

end MatchTreeRewriter

/-! ### Conjunctions as chains -/

namespace RowMatchNode

/-- The rows of a chain are the rows of its front followed by the rows of its
rest. -/
theorem allRows_andOnto : ∀ (front rest : RowMatchNode),
    (front.andOnto rest).allRows = front.allRows ++ rest.allRows
  | .And left right, rest => by
    rw [andOnto, allRows_andOnto left, allRows_andOnto right]
    simp [allRows]
  | .Or _ _, _ => rfl
  | .Not _, _ => rfl
  | .Report _, _ => rfl
  | .Row _, _ => rfl

/-- Chaining the conjunctions of a tree keeps its rows and their order. -/
theorem allRows_chained : ∀ tree : RowMatchNode, tree.chained.allRows = tree.allRows
  | .And left right => by
    rw [chained, allRows_andOnto, allRows_chained right]
    rfl
  | .Or left right => by
    rw [chained]
    simp only [allRows]
    rw [allRows_chained left, allRows_chained right]
  | .Not _ => rfl
  | .Report _ => rfl
  | .Row _ => rfl

/-- A chain whose front holds no `Report` node and rows of rank 0 only, in
front of a rest with rows of rank 0 only that descends, descends. -/
theorem ranksDescend_andOnto_zero : ∀ (front rest : RowMatchNode),
    front.containsReport = false → (∀ row ∈ front.allRows, row.m_rank = 0) →
    (∀ row ∈ rest.allRows, row.m_rank = 0) → rest.ranksDescend = true →
    (front.andOnto rest).ranksDescend = true
  | .And left right, rest, hrep, hfront, hrest, hd => by
    simp only [containsReport, Bool.or_eq_false_iff] at hrep
    simp only [allRows, List.mem_append] at hfront
    rw [andOnto]
    refine ranksDescend_andOnto_zero left _ hrep.1 (fun row h => hfront row (Or.inl h)) ?_
      (ranksDescend_andOnto_zero right rest hrep.2 (fun row h => hfront row (Or.inr h))
        hrest hd)
    intro row h
    rw [allRows_andOnto, List.mem_append] at h
    rcases h with h | h
    · exact hfront row (Or.inr h)
    · exact hrest row h
  | .Or a b, rest, hrep, hfront, hrest, hd => by
    show (RowMatchNode.And (.Or a b) rest).ranksDescend = true
    rw [ranksDescend_And _ _ (fun _ h => by cases h)]
    simp only [Bool.and_eq_true, Bool.not_eq_true', List.all_eq_true, decide_eq_true_eq]
    exact ⟨⟨⟨hrep, hfront⟩, hrest⟩, hd⟩
  | .Not a, rest, hrep, hfront, hrest, hd => by
    show (RowMatchNode.And (.Not a) rest).ranksDescend = true
    rw [ranksDescend_And _ _ (fun _ h => by cases h)]
    simp only [Bool.and_eq_true, Bool.not_eq_true', List.all_eq_true, decide_eq_true_eq]
    exact ⟨⟨⟨hrep, hfront⟩, hrest⟩, hd⟩
  | .Report a, rest, hrep, _, _, _ => by
    simp [containsReport] at hrep
  | .Row row, rest, _, _, hrest, hd => by
    show (RowMatchNode.And (.Row row) rest).ranksDescend = true
    rw [ranksDescend]
    simp only [Bool.and_eq_true, List.all_eq_true, decide_eq_true_eq]
    exact ⟨fun r h => by rw [hrest r h]; exact Nat.zero_le _, hd⟩

/-- Chaining the conjunctions of a tree whose ranks descend gives a tree whose
ranks descend. -/
theorem ranksDescend_chained : ∀ tree : RowMatchNode,
    tree.ranksDescend = true → tree.chained.ranksDescend = true
  | .And (.Row row) right, hd => by
    rw [ranksDescend, Bool.and_eq_true] at hd
    show (RowMatchNode.And (.Row row) right.chained).ranksDescend = true
    rw [ranksDescend, Bool.and_eq_true, allRows_chained]
    exact ⟨hd.1, ranksDescend_chained right hd.2⟩
  | .And (.And a b) right, hd => by
    rw [ranksDescend_And _ _ (fun _ h => by cases h)] at hd
    simp only [Bool.and_eq_true, Bool.not_eq_true', List.all_eq_true,
      decide_eq_true_eq] at hd
    obtain ⟨⟨⟨hrep, hleft⟩, hzero⟩, hdesc⟩ := hd
    rw [chained]
    exact ranksDescend_andOnto_zero _ _ hrep hleft
      (fun row h => hzero row (by rw [← allRows_chained]; exact h))
      (ranksDescend_chained right hdesc)
  | .And (.Or a b) right, hd => by
    rw [ranksDescend_And _ _ (fun _ h => by cases h)] at hd
    simp only [Bool.and_eq_true, Bool.not_eq_true', List.all_eq_true,
      decide_eq_true_eq] at hd
    obtain ⟨⟨⟨hrep, hleft⟩, hzero⟩, hdesc⟩ := hd
    rw [chained]
    exact ranksDescend_andOnto_zero _ _ hrep hleft
      (fun row h => hzero row (by rw [← allRows_chained]; exact h))
      (ranksDescend_chained right hdesc)
  | .And (.Not a) right, hd => by
    rw [ranksDescend_And _ _ (fun _ h => by cases h)] at hd
    simp only [Bool.and_eq_true, Bool.not_eq_true', List.all_eq_true,
      decide_eq_true_eq] at hd
    obtain ⟨⟨⟨hrep, hleft⟩, hzero⟩, hdesc⟩ := hd
    rw [chained]
    exact ranksDescend_andOnto_zero _ _ hrep hleft
      (fun row h => hzero row (by rw [← allRows_chained]; exact h))
      (ranksDescend_chained right hdesc)
  | .And (.Report a) right, hd => by
    rw [ranksDescend_And _ _ (fun _ h => by cases h)] at hd
    simp [containsReport] at hd
  | .Or left right, hd => by
    rw [ranksDescend, Bool.and_eq_true] at hd
    rw [chained, ranksDescend, Bool.and_eq_true]
    exact ⟨ranksDescend_chained left hd.1, ranksDescend_chained right hd.2⟩
  | .Not _, hd => hd
  | .Report _, hd => hd
  | .Row _, hd => hd

end RowMatchNode

/-- C26: on a tree that the rewriter returns, or a tree with the same
children in the text format whose `And` nodes are nested in another way,
entered at an initial rank that is not below the required rank of the tree,
the rank-down compiler returns a compiled tree and the nodes that its walk
has entered.  These are the nodes of the tree, each once; the tree is entered
at the initial rank; every node is entered at a rank that is not below the
rank of any row below the node; and the compiled tree goes down rank by rank:
every `RankDown` node lowers the rank by exactly one, every row is read at
the rank of the row and every `Report` node is reached at rank 0. -/
theorem Compile_keeps_currentRank_above_rows (root : PlainMatchTree)
    (targetRowCount t : Nat) (rewritten tree : RowMatchNode) (initialRank : Nat)
    (hrewritten : MatchTreeRewriter.Rewrite root targetRowCount t = some rewritten)
    (hnesting : tree.chained = rewritten.chained)
    (hinitial : RankDownCompiler.requiredRank tree ≤ initialRank) :
    ∃ code entered, RankDownCompiler.Compile initialRank tree = Except.ok (code, entered) ∧
      entered.map Prod.snd = tree.chained.subtrees ∧
      (initialRank, tree.chained) ∈ entered ∧
      (∀ e ∈ entered, ∀ row ∈ e.2.allRows, row.m_rank ≤ e.1) ∧
      code.descendsByOne initialRank = true := by
  have hdesc := RowMatchNode.ranksDescend_chained rewritten
    (MatchTreeRewriter.ranksDescend_Rewrite root targetRowCount t rewritten hrewritten)
  rw [← hnesting] at hdesc
  have hrank : RankDownCompiler.requiredRank tree.chained ≤ initialRank := by
    rw [RankDownCompiler.requiredRank_le_iff, RowMatchNode.allRows_chained]
    exact (RankDownCompiler.requiredRank_le_iff _ _).1 hinitial
  obtain ⟨code, entered, hc, hb, hnodes, hmem, hle⟩ :=
    RankDownCompiler.CompileInternal_descends tree.chained initialRank hdesc hrank
  exact ⟨code, entered, hc, hnodes, hmem, hle, hb⟩

/-- C26, at two trees.  The output of the fixture of four rows of the ranks 6,
6, 3 and 0 with its `And` nodes nested to the left is compiled as the output
itself: entered at rank 6, the walk enters the rows 3, 2 and 1 at rank 6, the
row 0 at rank 3 and the `Report` node at rank 0, and the compiled tree holds 6
`RankDown` nodes.  For the fixture of an `Or` node of two such conjunctions
it holds 12 `RankDown` nodes, 6 on each side of the `OrTree` node. -/
theorem Compile_keeps_currentRank_above_rows_witness :
    (fourRowsLeftNested.chained = fourRows.m_output ∧
      (∃ code entered,
        RankDownCompiler.Compile 6 fourRowsLeftNested = Except.ok (code, entered) ∧
        entered.map Prod.snd = fourRowsLeftNested.chained.subtrees ∧
        (6, fourRowsLeftNested.chained) ∈ entered ∧
        (∀ e ∈ entered, ∀ row ∈ e.2.allRows, row.m_rank ≤ e.1) ∧
        code.descendsByOne 6 = true) ∧
      (RankDownCompiler.Compile 6 fourRowsLeftNested).toOption.map
          (fun result => result.2.map
            fun e => (e.1, e.2.allRows.map fun row => row.m_rowIndex))
        = some [(6, [3, 2, 1, 0]), (6, [3]), (6, [2, 1, 0]), (6, [2]), (6, [1, 0]), (6, [1]),
            (3, [0]), (3, [0]), (0, [])] ∧
      (RankDownCompiler.Compile 6 fourRowsLeftNested).toOption.map
          (fun result => result.1.rankDownCount) = some 6) ∧
      ((∃ code entered,
        RankDownCompiler.Compile 6 orOfTwoAnds.m_output = Except.ok (code, entered) ∧
        entered.map Prod.snd = orOfTwoAnds.m_output.chained.subtrees ∧
        (6, orOfTwoAnds.m_output.chained) ∈ entered ∧
        (∀ e ∈ entered, ∀ row ∈ e.2.allRows, row.m_rank ≤ e.1) ∧
        code.descendsByOne 6 = true) ∧
      RankDownCompiler.requiredRank orOfTwoAnds.m_output = 6 ∧
      (RankDownCompiler.Compile 6 orOfTwoAnds.m_output).toOption.map
          (fun result => result.1.rankDownCount) = some 12) :=
  ⟨⟨rfl,
      Compile_keeps_currentRank_above_rows fourRows.m_input fourRows.m_targetRowCount
        fourRows.m_targetCrossProductTermCount fourRows.m_output fourRowsLeftNested 6 rfl rfl
        (by decide),
      by decide, by decide⟩,
    ⟨Compile_keeps_currentRank_above_rows orOfTwoAnds.m_input orOfTwoAnds.m_targetRowCount
        orOfTwoAnds.m_targetCrossProductTermCount orOfTwoAnds.m_output orOfTwoAnds.m_output 6
        rfl rfl (by decide),
      by decide, by decide⟩⟩

/-! ## Properties of the REPL loop -/

namespace REPL

variable {σ : Type}

/-- The `try` block in terms of what `CreateTask` returns. -/
theorem tryBlock_eq (factory : TaskFactory σ) (s : REPLState σ) :
    tryBlock factory s =
      match created factory s with
      | .error e => (afterCreateTask factory s, .error e)
      | .ok task =>
        if task.GetType = CommandType.Exit then
          match task.Execute with
          | some e => (log (afterCreateTask factory s) (.execute task), .error e)
          | none => (log (afterCreateTask factory s) (.execute task), .ok true)
        else if task.GetType = CommandType.Asynchronous then
          (log (afterCreateTask factory s) (.tryEnqueue task), .ok false)
        else
          match task.Execute with
          | some e => (log (afterCreateTask factory s) (.execute task), .error e)
          | none => (log (afterCreateTask factory s) (.execute task), .ok false) := by
  rcases s with ⟨f, cin, trace⟩
  cases cin <;>
    simp only [tryBlock, created, afterCreateTask, getline, log, List.tail, List.append_assoc,
      List.singleton_append]

/-- One iteration in terms of what `CreateTask` returns and of the task. -/
theorem iteration_eq (factory : TaskFactory σ) (s : REPLState σ) :
    iteration factory s =
      match created factory s with
      | .error (.RecoverableError what) =>
        (log (afterCreateTask factory s) (.error what), .next)
      | .error (.other what) => (afterCreateTask factory s, .propagate (.other what))
      | .ok task =>
        if task.GetType = CommandType.Asynchronous then
          (log (afterCreateTask factory s) (.tryEnqueue task), .next)
        else
          match task.Execute with
          | some (.RecoverableError what) =>
            (log (log (afterCreateTask factory s) (.execute task)) (.error what), .next)
          | some (.other what) =>
            (log (afterCreateTask factory s) (.execute task), .propagate (.other what))
          | none =>
            (log (afterCreateTask factory s) (.execute task),
              if task.GetType = CommandType.Exit then .leave else .next) := by
  unfold iteration
  rw [tryBlock_eq]
  cases hc : created factory s with
  | error e => cases e <;> rfl
  | ok task =>
    rcases task with ⟨line, type, execute⟩
    cases type <;> cases execute <;> simp only [reduceCtorEq, if_true, if_false]
    all_goals rename_i e; cases e <;> rfl

/-- The events of one iteration: the line read, and the events added when the
loop goes on or is left by its `break`. -/
theorem iteration_trace (factory : TaskFactory σ) (s s1 : REPLState σ) (ctl : REPLControl)
    (h : iteration factory s = (s1, ctl)) :
    ∃ events, s1.trace = s.trace ++ events ∧ s1.cin = s.cin.tail ∧
      (ctl = .next → events.all REPLEvent.insideLoop = true) ∧
      (ctl = .leave → ∃ pre task, events = pre ++ [.execute task] ∧
        pre.all REPLEvent.insideLoop = true ∧ task.GetType = CommandType.Exit ∧
        task.Execute = none) := by
  rw [iteration_eq] at h
  have hprompt : ∀ rest : List REPLEvent,
      (REPLEvent.prompt (factory.GetNextTaskId s.factory) ::
        REPLEvent.createTask (getline s).1 :: rest).all REPLEvent.insideLoop
        = rest.all REPLEvent.insideLoop := fun rest => rfl
  cases hc : created factory s with
  | error e =>
    rw [hc] at h
    cases e with
    | RecoverableError what =>
      simp only [Prod.mk.injEq] at h
      obtain ⟨h1, h2⟩ := h
      subst h1 h2
      refine ⟨[.prompt (factory.GetNextTaskId s.factory), .createTask (getline s).1,
        .error what], ?_, rfl, fun _ => rfl, (fun hl => by cases hl)⟩
      simp only [log, afterCreateTask, List.append_assoc]
      rfl
    | other what =>
      simp only [Prod.mk.injEq] at h
      obtain ⟨h1, h2⟩ := h
      subst h1 h2
      exact ⟨[.prompt (factory.GetNextTaskId s.factory), .createTask (getline s).1],
        rfl, rfl, (fun hl => by cases hl), (fun hl => by cases hl)⟩
  | ok task =>
    rw [hc] at h
    by_cases hasync : task.GetType = CommandType.Asynchronous
    · simp only [hasync, if_true, Prod.mk.injEq] at h
      obtain ⟨h1, h2⟩ := h
      subst h1 h2
      refine ⟨[.prompt (factory.GetNextTaskId s.factory), .createTask (getline s).1,
        .tryEnqueue task], ?_, rfl, fun _ => ?_, (fun hl => by cases hl)⟩
      · simp only [log, afterCreateTask, List.append_assoc]
        rfl
      · rw [hprompt]
        simp [REPLEvent.insideLoop, hasync]
    · simp only [hasync, if_false] at h
      cases he : task.Execute with
      | some e =>
        rw [he] at h
        cases e with
        | RecoverableError what =>
          simp only [Prod.mk.injEq] at h
          obtain ⟨h1, h2⟩ := h
          subst h1 h2
          refine ⟨[.prompt (factory.GetNextTaskId s.factory), .createTask (getline s).1,
            .execute task, .error what], ?_, rfl, fun _ => ?_, (fun hl => by cases hl)⟩
          · simp only [log, afterCreateTask, List.append_assoc]
            rfl
          · rw [hprompt]
            simp [REPLEvent.insideLoop, hasync, he]
        | other what =>
          simp only [Prod.mk.injEq] at h
          obtain ⟨h1, h2⟩ := h
          subst h1 h2
          refine ⟨[.prompt (factory.GetNextTaskId s.factory), .createTask (getline s).1,
            .execute task], ?_, rfl, (fun hl => by cases hl), (fun hl => by cases hl)⟩
          simp only [log, afterCreateTask, List.append_assoc]
          rfl
      | none =>
        rw [he] at h
        simp only [Prod.mk.injEq] at h
        obtain ⟨h1, h2⟩ := h
        subst h1
        refine ⟨[.prompt (factory.GetNextTaskId s.factory), .createTask (getline s).1,
          .execute task], ?_, rfl, fun hn => ?_, fun hl => ?_⟩
        · simp only [log, afterCreateTask, List.append_assoc]
          rfl
        · by_cases hexit : task.GetType = CommandType.Exit
          · rw [if_pos hexit] at h2
            rw [← h2] at hn
            cases hn
          · rw [hprompt]
            simp [REPLEvent.insideLoop, hasync, hexit]
        · by_cases hexit : task.GetType = CommandType.Exit
          · exact ⟨[.prompt (factory.GetNextTaskId s.factory),
              .createTask (getline s).1], task, rfl, rfl, hexit, he⟩
          · rw [if_neg hexit] at h2
            rw [← h2] at hl
            cases hl

/-- The events of a loop that is left by its `break`: iterations after which
the loop goes on, and an `Exit` task executed at the end. -/
theorem loop_trace (factory : TaskFactory σ) :
    ∀ (fuel : Nat) (s s1 : REPLState σ), loop factory fuel s = some (s1, none) →
      ∃ pre task, s1.trace = s.trace ++ pre ++ [.execute task] ∧
        pre.all REPLEvent.insideLoop = true ∧ task.GetType = CommandType.Exit ∧
        task.Execute = none
  | 0, _, _, h => by simp [loop] at h
  | fuel + 1, s, s1, h => by
    unfold loop at h
    cases hi : iteration factory s with
    | mk s2 ctl =>
      rw [hi] at h
      obtain ⟨events, htrace, _, hnext, hleave⟩ := iteration_trace factory s s2 ctl hi
      cases ctl with
      | next =>
        simp only at h
        obtain ⟨pre, task, h1, h2, h3, h4⟩ := loop_trace factory fuel s2 s1 h
        refine ⟨events ++ pre, task, ?_, ?_, h3, h4⟩
        · rw [h1, htrace]
          simp only [List.append_assoc]
        · rw [List.all_append, hnext rfl, h2]
          rfl
      | leave =>
        simp only [Option.some.injEq, Prod.mk.injEq, and_true] at h
        subst h
        obtain ⟨pre, task, h1, h2, h3, h4⟩ := hleave rfl
        exact ⟨pre, task, by rw [htrace, h1, List.append_assoc], h2, h3, h4⟩
      | propagate e => simp at h

/-- An iteration after which the loop goes on is followed by the rest of the
run. -/
theorem Go_of_next (factory : TaskFactory σ) (fuel : Nat) (s s1 : REPLState σ)
    (h : iteration factory s = (s1, .next)) :
    Go factory (fuel + 1) s = Go factory fuel s1 := by
  simp only [Go, loop, h]

/-- An iteration that runs into the `break` is followed by the call of
`Shutdown()` and nothing else. -/
theorem Go_of_leave (factory : TaskFactory σ) (fuel : Nat) (s s1 : REPLState σ)
    (h : iteration factory s = (s1, .leave)) :
    Go factory (fuel + 1) s = some (log s1 .shutdown, none) := by
  simp only [Go, loop, h]

end REPL

/-- C23: the loop of `REPL::Go` dispatches the task that `CreateTask` returns
by its type.  An `Asynchronous` task is handed to `taskPool.TryEnqueue` and
not executed, and the loop goes on.  An `Exit` task is executed on the REPL
thread and, when `Execute()` returns, the loop is left: `Go` calls
`taskPool.Shutdown()` and returns with every later line of input unread.  A
`Synchronous` task is executed on the REPL thread and, when `Execute()`
returns, the loop goes on.  So in every run of `Go` that returns, the events
are those of iterations after which the loop goes on (tasks handed to the pool
are `Asynchronous`, tasks executed are not, the pool is not shut down),
followed by the execution of an `Exit` task and the shutdown of the pool. -/
theorem Go_dispatches_task_by_type {σ : Type} (factory : TaskFactory σ) (s : REPLState σ)
    (task : ICommand) (fuel : Nat) (hcreated : REPL.created factory s = Except.ok task) :
    (task.GetType = CommandType.Asynchronous →
        REPL.iteration factory s
          = (REPL.log (REPL.afterCreateTask factory s) (.tryEnqueue task), .next) ∧
        REPL.Go factory (fuel + 1) s
          = REPL.Go factory fuel
              (REPL.log (REPL.afterCreateTask factory s) (.tryEnqueue task))) ∧
      (task.GetType = CommandType.Exit → task.Execute = none →
        REPL.iteration factory s
          = (REPL.log (REPL.afterCreateTask factory s) (.execute task), .leave) ∧
        REPL.Go factory (fuel + 1) s
          = some (REPL.log (REPL.log (REPL.afterCreateTask factory s) (.execute task))
              .shutdown, none) ∧
        (REPL.log (REPL.log (REPL.afterCreateTask factory s) (.execute task))
          .shutdown).cin = s.cin.tail) ∧
      (task.GetType = CommandType.Synchronous → task.Execute = none →
        REPL.iteration factory s
          = (REPL.log (REPL.afterCreateTask factory s) (.execute task), .next) ∧
        REPL.Go factory (fuel + 1) s
          = REPL.Go factory fuel
              (REPL.log (REPL.afterCreateTask factory s) (.execute task))) ∧
      (∀ s1, REPL.Go factory fuel s = some (s1, none) →
        ∃ pre exitTask, s1.trace = s.trace ++ pre ++ [.execute exitTask, .shutdown] ∧
          pre.all REPLEvent.insideLoop = true ∧ exitTask.GetType = CommandType.Exit ∧
          exitTask.Execute = none) := by
  have hiter := REPL.iteration_eq factory s
  rw [hcreated] at hiter
  refine ⟨?_, ?_, ?_, ?_⟩
  · intro htype
    simp only [htype, if_true] at hiter
    exact ⟨hiter, REPL.Go_of_next factory fuel s _ hiter⟩
  · intro htype hexec
    simp only [htype, hexec, reduceCtorEq, if_true, if_false] at hiter
    exact ⟨hiter, REPL.Go_of_leave factory fuel s _ hiter, rfl⟩
  · intro htype hexec
    simp only [htype, hexec, reduceCtorEq, if_false] at hiter
    exact ⟨hiter, REPL.Go_of_next factory fuel s _ hiter⟩
  · intro s1 hgo
    unfold REPL.Go at hgo
    cases hloop : REPL.loop factory fuel s with
    | none => simp [hloop] at hgo
    | some res =>
      obtain ⟨s2, thrown⟩ := res
      rw [hloop] at hgo
      cases thrown with
      | some e => simp at hgo
      | none =>
        simp only [Option.some.injEq, Prod.mk.injEq, and_true] at hgo
        obtain ⟨pre, exitTask, h1, h2, h3, h4⟩ := REPL.loop_trace factory fuel s s2 hloop
        refine ⟨pre, exitTask, ?_, h2, h3, h4⟩
        rw [← hgo]
        simp only [REPL.log, h1, List.append_assoc, List.singleton_append]

/-- C23, on the input lines `quit` and `more`: the first line makes an `Exit`
task, which is executed; then the pool is shut down and `Go` returns with the
line `more` unread. -/
theorem Go_dispatches_task_by_type_witness :
    REPL.created exampleFactory (exampleREPL ["quit", "more"])
        = Except.ok ⟨"quit", .Exit, none⟩ ∧
      (REPL.Go exampleFactory 1 (exampleREPL ["quit", "more"])).map
          (fun r => (r.1.trace, r.1.cin, r.2))
        = some ([.prompt 0, .createTask "quit", .execute ⟨"quit", .Exit, none⟩, .shutdown],
            ["more"], none) :=
  ⟨rfl, by
    rw [((Go_dispatches_task_by_type exampleFactory (exampleREPL ["quit", "more"])
      ⟨"quit", .Exit, none⟩ 0 rfl).2.1 rfl rfl).2.1]
    rfl⟩

/-- C24: when `CreateTask` throws a `RecoverableError`, or when `Execute()`
of a task that the loop executes throws one, the `catch` clause writes the
error and the loop goes on with the next line of input: the iteration ends
with the line `Error: <what>`, it does not call `taskPool.Shutdown()`, and
`Go` carries on from the state it leaves. -/
theorem RecoverableError_is_caught_and_loop_goes_on {σ : Type} (factory : TaskFactory σ)
    (s : REPLState σ) (what : String) (fuel : Nat)
    (hraised : REPL.created factory s = Except.error (.RecoverableError what) ∨
      ∃ task, REPL.created factory s = Except.ok task ∧
        task.GetType ≠ CommandType.Asynchronous ∧
        task.Execute = some (.RecoverableError what)) :
    ∃ s1, REPL.iteration factory s = (s1, .next) ∧
      s1.trace.getLast? = some (.error what) ∧
      (∃ events, s1.trace = s.trace ++ events ∧ REPLEvent.shutdown ∉ events) ∧
      s1.cin = s.cin.tail ∧
      REPL.Go factory (fuel + 1) s = REPL.Go factory fuel s1 := by
  have hiter := REPL.iteration_eq factory s
  rcases hraised with hc | ⟨task, hc, htype, hexec⟩
  · rw [hc] at hiter
    refine ⟨_, hiter, ?_, ⟨[.prompt (factory.GetNextTaskId s.factory),
      .createTask (REPL.getline s).1, .error what], ?_, ?_⟩, rfl,
      REPL.Go_of_next factory fuel s _ hiter⟩
    · simp [REPL.log]
    · simp only [REPL.log, REPL.afterCreateTask, List.append_assoc]
      rfl
    · simp
  · rw [hc] at hiter
    simp only [htype, hexec, if_false] at hiter
    refine ⟨_, hiter, ?_, ⟨[.prompt (factory.GetNextTaskId s.factory),
      .createTask (REPL.getline s).1, .execute task, .error what], ?_, ?_⟩, rfl,
      REPL.Go_of_next factory fuel s _ hiter⟩
    · simp [REPL.log]
    · simp only [REPL.log, REPL.afterCreateTask, List.append_assoc]
      rfl
    · simp

/-- C24, on the input lines `fail`, the empty line and `quit`: the task of the
first line throws a `RecoverableError` when executed and the second line
makes `CreateTask` throw one; both are written, and the loop goes on to the
third line. -/
theorem RecoverableError_is_caught_and_loop_goes_on_witness :
    (∃ s1, REPL.iteration exampleFactory (exampleREPL ["fail", "", "quit"]) = (s1, .next) ∧
      s1.trace.getLast? = some (.error "failed") ∧
      (∃ events, s1.trace = (exampleREPL ["fail", "", "quit"]).trace ++ events ∧
        REPLEvent.shutdown ∉ events) ∧
      s1.cin = (exampleREPL ["fail", "", "quit"]).cin.tail ∧
      REPL.Go exampleFactory (3 + 1) (exampleREPL ["fail", "", "quit"])
        = REPL.Go exampleFactory 3 s1) ∧
      (REPL.Go exampleFactory 4 (exampleREPL ["fail", "", "quit"])).map
          (fun r => (r.1.trace, r.1.cin, r.2))
        = some ([.prompt 0, .createTask "fail",
              .execute ⟨"fail", .Synchronous, some (.RecoverableError "failed")⟩,
              .error "failed", .prompt 1, .createTask "", .error "no command", .prompt 1,
              .createTask "quit", .execute ⟨"quit", .Exit, none⟩, .shutdown],
            [], none) :=
  ⟨RecoverableError_is_caught_and_loop_goes_on exampleFactory
      (exampleREPL ["fail", "", "quit"]) "failed" 3
      (Or.inr ⟨⟨"fail", .Synchronous, some (.RecoverableError "failed")⟩, rfl, by decide,
        rfl⟩),
    rfl⟩

end BitFunnel
